import Mathlib

/-! MeanShift: filtering and segmentation (src/MeanShift.cpp)

A shallow embedding of `Point5D`, `MeanShift::MSFiltering` and
`MeanShift::MSSegmentation`.

Modelling conventions
* `float` fields are exact rationals (`ℚ`): the embedding describes the
  unquantized arithmetic of the program, not IEEE rounding.
* `sqrt` never appears on its own in the program's control flow, only inside
  the comparisons `sqrt s < h` and `sqrt s > t`; these are the decidable tests
  `sqrtLt` and `sqrtGt` on the radicand (see `sqrtLt_iff_real`,
  `sqrtGt_iff_real`).
* `int` values are mathematical integers (no wrap-around is modelled; `hs`,
  `ROWS` and `COLS` are assumed small enough for `int`).
* A division `1.0f / NumPts` with `NumPts = 0` has no finite value (the sample
  becomes NaN and its narrowing to `uchar` is undefined): the embedding
  reports it as `MSError.divisionByZero`.  A `float` outside `0..255`
  narrowed to `uchar` is reported as `MSError.narrowing`.
* Arrays (`Labels`, `Mode`, `MemberModeCount`, the channel planes) are total
  functions on integer indices; index bounds are stated as theorems.
* The `while (!NeighbourPoints.empty())` loop is run with a fuel counter;
  `MSError.outOfFuel` is reported when it runs out, and the theorems show it
  never does.
-/

namespace MeanShift

/-! ## Constants -/

/-- The source's `#define MS_MAX_NUM_CONVERGENCE_STEPS 5`. -/
def MS_MAX_NUM_CONVERGENCE_STEPS : Nat := 5

/-- The source's `#define MS_MEAN_SHIFT_TOL_COLOR 0.3`. -/
def MS_MEAN_SHIFT_TOL_COLOR : ℚ := 3 / 10

/-- The source's `#define MS_MEAN_SHIFT_TOL_SPATIAL 0.3`. -/
def MS_MEAN_SHIFT_TOL_SPATIAL : ℚ := 3 / 10

/-- The source's `dxdy`: offsets of the 8 neighbours of a pixel. -/
def dxdy : List (Int × Int) :=
  [(-1, -1), (-1, 0), (-1, 1), (0, -1), (0, 1), (1, -1), (1, 0), (1, 1)]

/-! ## Errors and numeric helpers -/

/-- Ways in which a run has no defined result. -/
inductive MSError where
  /-- The mean was taken over `NumPts = 0` points. -/
  | divisionByZero
  /-- A channel value outside `0..255` was narrowed to `uchar`. -/
  | narrowing
  /-- The fuel of the region-growth loop ran out. -/
  | outOfFuel
deriving DecidableEq, Repr

/-- The comparison `sqrt s < h` on the radicand `s`. -/
def sqrtLt (s h : ℚ) : Bool := decide (0 < h ∧ s < h * h)

/-- The comparison `sqrt s > t` on the radicand `s`. -/
def sqrtGt (s t : ℚ) : Bool := decide (t < 0 ∨ t * t < s)

/-- Conversion `float -> int` (the casts `(int)hs` and `int hx = Pt.x + ...`):
truncation toward zero. -/
def truncToInt (q : ℚ) : Int := if 0 ≤ q then ⌊q⌋ else ⌈q⌉

/-- Conversion `float -> uchar` as in `Vec3b(PtCur.l, PtCur.a, PtCur.b)`:
truncation toward zero, defined only when the result is in `0..255`. -/
def toUchar (q : ℚ) : Except MSError (Fin 256) :=
  if h : 0 ≤ truncToInt q ∧ truncToInt q < 256 then
    .ok ⟨(truncToInt q).toNat, by omega⟩
  else .error .narrowing

/-- The integers `lo, lo+1, ..., hi-1` of `for (int h = lo; h < hi; h++)`. -/
def intRange (lo hi : Int) : List Int :=
  (List.range (hi - lo).toNat).map (fun (k : Nat) => lo + (k : Int))

/-- Assignment `arr[i] = v` on an array seen as a function. -/
def setAt {α : Type} (arr : Int → α) (i : Int) (v : α) : Int → α :=
  fun k => if k = i then v else arr k

/-- Assignment `grid[r][c] = v` on a 2D array seen as a function. -/
def setAt2 {α : Type} (grid : Int → Int → α) (r c : Int) (v : α) : Int → Int → α :=
  fun r' c' => if r' = r ∧ c' = c then v else grid r' c'

/-! ## Point5D -/

/-- Modelled from the spec: the declaration of `Point5D`, which is in
`MeanShift.h` and not among the sources.  It has five scalar fields, the
position `(x, y)` and the colour `(l, a, b)`, named as `MeanShift.cpp` uses
them (spec, section 3, SamplePoint). -/
structure Point5D where
  x : ℚ
  y : ℚ
  l : ℚ
  a : ℚ
  b : ℚ
deriving DecidableEq, Repr

namespace Point5D

/-- The constructor `Point5D::Point5D()`. -/
def new : Point5D := ⟨-1, -1, 0, 0, 0⟩

/-- Method `Point5D::PointLab`. -/
def PointLab (p : Point5D) : Point5D :=
  { p with l := p.l * 100 / 255, a := p.a - 128, b := p.b - 128 }

/-- Method `Point5D::PointRGB`. -/
def PointRGB (p : Point5D) : Point5D :=
  { p with l := p.l * 255 / 100, a := p.a + 128, b := p.b + 128 }

/-- Method `Point5D::MSPoint5DAccum`. -/
def MSPoint5DAccum (p Pt : Point5D) : Point5D :=
  ⟨p.x + Pt.x, p.y + Pt.y, p.l + Pt.l, p.a + Pt.a, p.b + Pt.b⟩

/-- Method `Point5D::MSPoint5DCopy`. -/
def MSPoint5DCopy (_p Pt : Point5D) : Point5D :=
  ⟨Pt.x, Pt.y, Pt.l, Pt.a, Pt.b⟩

/-- The radicand of `Point5D::MSPoint5DColorDistance`. -/
def MSPoint5DColorDistanceSq (p Pt : Point5D) : ℚ :=
  (p.l - Pt.l) * (p.l - Pt.l) + (p.a - Pt.a) * (p.a - Pt.a) + (p.b - Pt.b) * (p.b - Pt.b)

/-- The radicand of `Point5D::MSPoint5DSpatialDistance`. -/
def MSPoint5DSpatialDistanceSq (p Pt : Point5D) : ℚ :=
  (p.x - Pt.x) * (p.x - Pt.x) + (p.y - Pt.y) * (p.y - Pt.y)

/-- Method `Point5D::MSPoint5DScale`. -/
def MSPoint5DScale (p : Point5D) (scale : ℚ) : Point5D :=
  ⟨p.x * scale, p.y * scale, p.l * scale, p.a * scale, p.b * scale⟩

/-- Method `Point5D::MSPOint5DSet`. -/
def MSPOint5DSet (_p : Point5D) (px py pl pa pb : ℚ) : Point5D :=
  ⟨px, py, pl, pa, pb⟩

end Point5D

/-! ## Images -/

/-- One pixel of a `Mat` of `Vec3b`: three `uchar` channels. -/
structure Vec3b where
  c0 : Fin 256
  c1 : Fin 256
  c2 : Fin 256
deriving DecidableEq, Repr

/-- An image `Mat` with `rows x cols` cells.  Only the cells `(i, j)` with
`0 <= i < rows`, `0 <= j < cols` exist; `pix` is read only there. -/
structure Image where
  rows : Nat
  cols : Nat
  pix : Int → Int → Vec3b

/-- The bounds test `hx >= 0 && hy >= 0 && hx < ROWS && hy < COLS`. -/
def inBounds (img : Image) (hx hy : Int) : Prop :=
  0 ≤ hx ∧ 0 ≤ hy ∧ hx < (img.rows : Int) ∧ hy < (img.cols : Int)

instance (img : Image) (hx hy : Int) : Decidable (inBounds img hx hy) := by
  unfold inBounds; infer_instance

/-- All cells in the order of `for i in [0, ROWS) for j in [0, COLS)`. -/
def cells (img : Image) : List (Int × Int) :=
  (List.range img.rows).flatMap (fun (i : Nat) =>
    (List.range img.cols).map (fun (j : Nat) => ((i : Int), (j : Int))))

/-- The point set by `Pt.MSPOint5DSet(hx, hy, ch0(hx,hy), ch1(hx,hy), ch2(hx,hy))`
followed by `Pt.PointLab()`. -/
def labPoint (img : Image) (hx hy : Int) : Point5D :=
  (Point5D.new.MSPOint5DSet (hx : ℚ) (hy : ℚ)
    (((img.pix hx hy).c0 : Nat) : ℚ) (((img.pix hx hy).c1 : Nat) : ℚ)
    (((img.pix hx hy).c2 : Nat) : ℚ)).PointLab

/-! ## MSFiltering -/

/-- The cells of the search window of pixel `(i, j)`, in loop order:
`Left = max(0, j-(int)hs)`, `Right = min(COLS, j+(int)hs)`,
`Top = max(0, i-(int)hs)`, `Bottom = min(ROWS, i+(int)hs)`,
`for hx in [Top, Bottom) for hy in [Left, Right)`. -/
def window (img : Image) (hs : ℚ) (i j : Int) : List (Int × Int) :=
  let Left := max 0 (j - truncToInt hs)
  let Right := min (img.cols : Int) (j + truncToInt hs)
  let Top := max 0 (i - truncToInt hs)
  let Bottom := min (img.rows : Int) (i + truncToInt hs)
  (intRange Top Bottom).flatMap (fun hx => (intRange Left Right).map (fun hy => (hx, hy)))

/-- Body of the window loop for one cell: the cell's point `Pt` is added to
`(PtSum, NumPts)` when `Pt.MSPoint5DColorDistance(PtCur) < hr`. -/
def accumStep (img : Image) (hr : ℚ) (PtCur : Point5D) (acc : Point5D × Nat)
    (c : Int × Int) : Point5D × Nat :=
  let Pt := labPoint img c.1 c.2
  if sqrtLt (Pt.MSPoint5DColorDistanceSq PtCur) hr then
    (acc.1.MSPoint5DAccum Pt, acc.2 + 1)
  else acc

/-- The pair `(PtSum, NumPts)` after the window loop of one iteration. -/
def accumulate (img : Image) (hs hr : ℚ) (i j : Int) (PtCur : Point5D) : Point5D × Nat :=
  (window img hs i j).foldl (accumStep img hr PtCur) (Point5D.new.MSPOint5DSet 0 0 0 0 0, 0)

/-- One iteration of the do-while body: the new `PtCur` is
`PtSum` scaled by `1.0f / NumPts`. -/
def meanShiftStep (img : Image) (hs hr : ℚ) (i j : Int) (PtCur : Point5D) :
    Except MSError Point5D :=
  let acc := accumulate img hs hr i j PtCur
  if acc.2 = 0 then .error .divisionByZero
  else .ok (PtCur.MSPoint5DCopy (acc.1.MSPoint5DScale (1 / (acc.2 : ℚ))))

/-- The do-while condition, evaluated after `step++`. -/
def continueLoop (PtCur PtPrev : Point5D) (step : Nat) : Bool :=
  sqrtGt (PtCur.MSPoint5DColorDistanceSq PtPrev) MS_MEAN_SHIFT_TOL_COLOR &&
  sqrtGt (PtCur.MSPoint5DSpatialDistanceSq PtPrev) MS_MEAN_SHIFT_TOL_SPATIAL &&
  decide (step < MS_MAX_NUM_CONVERGENCE_STEPS)

/-- The do-while loop of pixel `(i, j)`, started with `step` steps done and
current sample `PtCur`; returns the final sample and the number of steps. -/
def msLoop (img : Image) (hs hr : ℚ) (i j : Int) :
    Nat → Nat → Point5D → Except MSError (Point5D × Nat)
  | 0, _, _ => .error .outOfFuel
  | fuel + 1, step, PtCur =>
    let PtPrev := Point5D.new.MSPoint5DCopy PtCur
    match meanShiftStep img hs hr i j PtCur with
    | .error e => .error e
    | .ok PtNew =>
      if continueLoop PtNew PtPrev (step + 1) then msLoop img hs hr i j fuel (step + 1) PtNew
      else .ok (PtNew, step + 1)

/-- The converged sample of pixel `(i, j)` and the number of steps taken. -/
def convergePixel (img : Image) (hs hr : ℚ) (i j : Int) : Except MSError (Point5D × Nat) :=
  msLoop img hs hr i j MS_MAX_NUM_CONVERGENCE_STEPS 0 (labPoint img i j)

/-- The value `Vec3b(P.l, P.a, P.b)` after `P.PointRGB()`. -/
def toVec3b (P : Point5D) : Except MSError Vec3b :=
  match toUchar P.PointRGB.l, toUchar P.PointRGB.a, toUchar P.PointRGB.b with
  | .ok v0, .ok v1, .ok v2 => .ok ⟨v0, v1, v2⟩
  | _, _, _ => .error .narrowing

/-- The colour written to `Img.at<Vec3b>(i, j)` by the body of the pixel loop. -/
def filterPixel (img : Image) (hs hr : ℚ) (i j : Int) : Except MSError Vec3b :=
  match convergePixel img hs hr i j with
  | .error e => .error e
  | .ok r => toVec3b r.1

/-- The first error among the results of a per-pixel computation, if any. -/
def firstError (f : Int → Int → Except MSError Vec3b) : List (Int × Int) → Option MSError
  | [] => none
  | c :: cs =>
    match f c.1 c.2 with
    | .error e => some e
    | .ok _ => firstError f cs

/-- A data-parallel pass writing `f i j` to every cell `(i, j)` of the image. -/
def writeAll (img : Image) (f : Int → Int → Except MSError Vec3b) : Except MSError Image :=
  match firstError f (cells img) with
  | some e => .error e
  | none =>
    .ok { rows := img.rows, cols := img.cols,
          pix := fun i j =>
            if inBounds img i j then
              match f i j with
              | .ok v => v
              | .error _ => img.pix i j
            else img.pix i j }

/-- Method `MeanShift::MSFiltering`: every pixel is computed from the channel planes
split off before the loop, so no pixel depends on another pixel's new value. -/
def MSFiltering (hs hr : ℚ) (img : Image) : Except MSError Image :=
  writeAll img (filterPixel img hs hr)

/-! ## MSSegmentation -/

/-- One assignment `Labels[r][c] = val`, recorded in the order of execution:
`old` is the value the cell held just before, `seed` tells the seeding
assignment (`Labels[i][j] = label`) from a growth assignment
(`Labels[hx][hy] = label`). -/
structure LabelWrite where
  r : Int
  c : Int
  old : Int
  val : Int
  seed : Bool
deriving DecidableEq, Repr

/-- The variables of the labeling pass of `MSSegmentation`.  `writes` is a
record of the assignments made to `Labels` so far, most recent first; the
program does not read it. -/
structure SegState where
  label : Int
  Labels : Int → Int → Int
  Mode : Int → ℚ
  MemberModeCount : Int → Int
  writes : List LabelWrite

/-- The state before the row-major scan: `label = -1`, `MemberModeCount`
zeroed by `memset`, every cell of `Labels` set to `-1`.  `Mode` is not
initialised by the source; it starts at 0 here, and every entry is assigned
(`Mode[label*3+t] = PtCur...`) before it is read. -/
def initState : SegState :=
  { label := -1, Labels := fun _ _ => -1, Mode := fun _ => 0,
    MemberModeCount := fun _ => 0, writes := [] }

/-- The assignments made when the neighbour `(hx, hy)` with point `P` joins
the current segment: `Labels[hx][hy] = label; MemberModeCount[label]++;
Mode[label*3+t] += P.{l,a,b}`. -/
def joinSegment (st : SegState) (hx hy : Int) (P : Point5D) : SegState :=
  { label := st.label
    Labels := setAt2 st.Labels hx hy st.label
    Mode :=
      let m0 := setAt st.Mode (st.label * 3 + 0) (st.Mode (st.label * 3 + 0) + P.l)
      let m1 := setAt m0 (st.label * 3 + 1) (m0 (st.label * 3 + 1) + P.a)
      setAt m1 (st.label * 3 + 2) (m1 (st.label * 3 + 2) + P.b)
    MemberModeCount := setAt st.MemberModeCount st.label (st.MemberModeCount st.label + 1)
    writes := ⟨hx, hy, st.Labels hx hy, st.label, false⟩ :: st.writes }

/-- Body of `for (k = 0; k < 8; k++)` for the offset `d = dxdy[k]` around the
popped point `Pt`; the state is paired with the worklist `NeighbourPoints`
(its back is the head of the list). -/
def neighbourStep (img : Image) (hr : ℚ) (PtCur Pt : Point5D)
    (s : SegState × List Point5D) (d : Int × Int) : SegState × List Point5D :=
  let hx := truncToInt (Pt.x + (d.1 : ℚ))
  let hy := truncToInt (Pt.y + (d.2 : ℚ))
  if inBounds img hx hy ∧ s.1.Labels hx hy < 0 then
    let P := labPoint img hx hy
    if sqrtLt (PtCur.MSPoint5DColorDistanceSq P) hr then
      (joinSegment s.1 hx hy P, P :: s.2)
    else s
  else s

/-- One iteration of `while (!NeighbourPoints.empty())`: the back `Pt` has
been popped, leaving `rest`; its 8 neighbours are examined in order. -/
def visitPoint (img : Image) (hr : ℚ) (PtCur : Point5D) (st : SegState)
    (Pt : Point5D) (rest : List Point5D) : SegState × List Point5D :=
  dxdy.foldl (neighbourStep img hr PtCur Pt) (st, rest)

/-- The loop `while (!NeighbourPoints.empty())`, with a fuel counter. -/
def growLoop (img : Image) (hr : ℚ) (PtCur : Point5D) :
    Nat → SegState → List Point5D → Except MSError SegState
  | _, st, [] => .ok st
  | 0, _, _ :: _ => .error .outOfFuel
  | fuel + 1, st, Pt :: rest =>
    growLoop img hr PtCur fuel (visitPoint img hr PtCur st Pt rest).1
      (visitPoint img hr PtCur st Pt rest).2

/-- The statements after the growth loop: `MemberModeCount[label]++` and the
three divisions `Mode[label*3+t] /= MemberModeCount[label]`; a count of zero
would leave the quotients undefined and is reported as a division by zero. -/
def finalizeMode (st : SegState) : Except MSError SegState :=
  let cnt := st.MemberModeCount st.label + 1
  if cnt = 0 then .error .divisionByZero
  else
    .ok { st with
          MemberModeCount := setAt st.MemberModeCount st.label cnt
          Mode :=
            let m0 := setAt st.Mode (st.label * 3 + 0) (st.Mode (st.label * 3 + 0) / (cnt : ℚ))
            let m1 := setAt m0 (st.label * 3 + 1) (m0 (st.label * 3 + 1) / (cnt : ℚ))
            setAt m1 (st.label * 3 + 2) (m1 (st.label * 3 + 2) / (cnt : ℚ)) }

/-- The state after `label++; Labels[i][j] = label;` and the three
assignments `Mode[label*3+t] = PtCur.{l,a,b}` for the seed `c = (i, j)`. -/
def seedState (img : Image) (st : SegState) (c : Int × Int) : SegState :=
  let label := st.label + 1
  let PtCur := labPoint img c.1 c.2
  { label := label
    Labels := setAt2 st.Labels c.1 c.2 label
    Mode := setAt (setAt (setAt st.Mode (label * 3 + 0) PtCur.l) (label * 3 + 1) PtCur.a)
              (label * 3 + 2) PtCur.b
    MemberModeCount := st.MemberModeCount
    writes := ⟨c.1, c.2, st.Labels c.1 c.2, label, true⟩ :: st.writes }

/-- Body of the row-major scan at cell `c = (i, j)`: when the cell is still
unlabeled a new segment is seeded there, grown and finalized.  The growth
loop pops at most `ROWS * COLS` points, which is the fuel it is given. -/
def segmentAt (img : Image) (hr : ℚ) (st : SegState) (c : Int × Int) :
    Except MSError SegState :=
  if st.Labels c.1 c.2 < 0 then
    match growLoop img hr (labPoint img c.1 c.2) (img.rows * img.cols)
        (seedState img st c) [labPoint img c.1 c.2] with
    | .error e => .error e
    | .ok st2 => finalizeMode st2
  else .ok st

/-- The scan `for i in [0, ROWS) for j in [0, COLS)` over a list of cells. -/
def scanCells (img : Image) (hr : ℚ) : List (Int × Int) → SegState → Except MSError SegState
  | [], st => .ok st
  | c :: cs, st =>
    match segmentAt img hr st c with
    | .error e => .error e
    | .ok st1 => scanCells img hr cs st1

/-- The labeling pass of `MSSegmentation` on the (filtered) image `img`. -/
def labelPass (img : Image) (hr : ℚ) : Except MSError SegState :=
  scanCells img hr (cells img) initState

/-- Number of cells of the image carrying label `k`. -/
def memberCount (img : Image) (Labels : Int → Int → Int) (k : Int) : Nat :=
  (cells img).countP (fun c => Labels c.1 c.2 = k)

/-- Number of segments allocated: the final label counter plus one. -/
def SegState.numSegments (st : SegState) : Int := st.label + 1

/-- The window test `Pt.MSPoint5DColorDistance(PtCur) < hr` for the cell `c`. -/
def inKernel (img : Image) (hr : ℚ) (PtCur : Point5D) (c : Int × Int) : Bool :=
  sqrtLt ((labPoint img c.1 c.2).MSPoint5DColorDistanceSq PtCur) hr

/-- The window cells of pixel `(i, j)` that pass the test against `PtCur`. -/
def kernelCells (img : Image) (hs hr : ℚ) (i j : Int) (PtCur : Point5D) : List (Int × Int) :=
  (window img hs i j).filter (inKernel img hr PtCur)

/-- The current sample of pixel `(i, j)` at the start of iteration `n` of the
do-while loop when the loop is not stopped: `n` mean-shift steps from the
pixel's own point. -/
def nthSample (img : Image) (hs hr : ℚ) (i j : Int) : Nat → Except MSError Point5D
  | 0 => .ok (labPoint img i j)
  | n + 1 =>
    match nthSample img hs hr i j n with
    | .error e => .error e
    | .ok P => meanShiftStep img hs hr i j P

/-- The working-space colour of a raw pixel value. -/
def labColor (v : Vec3b) : Point5D :=
  (Point5D.new.MSPOint5DSet 0 0 ((v.c0 : Nat) : ℚ) ((v.c1 : Nat) : ℚ) ((v.c2 : Nat) : ℚ)).PointLab

/-- Any two cells of the image have the same raw colour or working-space
colours at distance at least `hr` (squared distance at least `hr * hr`). -/
def Separated (img : Image) (hr : ℚ) : Prop :=
  ∀ p q : Int × Int, inBounds img p.1 p.2 → inBounds img q.1 q.2 →
    img.pix p.1 p.2 = img.pix q.1 q.2 ∨
    hr * hr ≤ (labPoint img p.1 p.2).MSPoint5DColorDistanceSq (labPoint img q.1 q.2)

/-- The 4x4 image of the concrete scenario: the top-left 2x2 block is raw
`(10, 10, 10)`, the other 12 cells are raw `(200, 200, 200)`. -/
def twoBlockImage : Image :=
  { rows := 4, cols := 4,
    pix := fun i j => if i < 2 ∧ j < 2 then ⟨10, 10, 10⟩ else ⟨200, 200, 200⟩ }

/-- Row-major order on cells: `a` is visited before `b` by the scan. -/
def rowMajorLt (a b : Int × Int) : Prop :=
  a.1 < b.1 ∨ (a.1 = b.1 ∧ a.2 < b.2)

/-- Number of cells of the image still holding a negative label. -/
def unlabeledCount (img : Image) (Labels : Int → Int → Int) : Nat :=
  (cells img).countP (fun c => Labels c.1 c.2 < 0)

/-- The growth test `PtCur.MSPoint5DColorDistance(P) < hr` for the cell
`(r, c)` against the anchor `PtCur`. -/
def nearAnchor (img : Image) (hr : ℚ) (PtCur : Point5D) (r c : Int) : Prop :=
  sqrtLt (PtCur.MSPoint5DColorDistanceSq (labPoint img r c)) hr = true

/-- Cell `q` is one of the 8 neighbours of cell `p`. -/
def adj8 (p q : Int × Int) : Prop :=
  ∃ d ∈ dxdy, q = (p.1 + d.1, p.2 + d.2)

/-- A set of cells is 8-connected: any two of its cells are joined by a path
of neighbouring cells inside the set. -/
def Connected8 (S : Int × Int → Prop) : Prop :=
  ∀ p q, S p → S q → Relation.ReflTransGen (fun a b => adj8 a b ∧ S b) p q

/-- One growth move of a segment with anchor `PtCur` over the grid `L0`:
from `p` to a neighbour `q` inside the image that is unlabeled in `L0` and
passes the growth test. -/
def growEdge (img : Image) (hr : ℚ) (PtCur : Point5D) (L0 : Int → Int → Int)
    (p q : Int × Int) : Prop :=
  adj8 p q ∧ inBounds img q.1 q.2 ∧ L0 q.1 q.2 < 0 ∧ nearAnchor img hr PtCur q.1 q.2

/-- Cells reachable from `seed` by growth moves. -/
def Reach (img : Image) (hr : ℚ) (PtCur : Point5D) (L0 : Int → Int → Int)
    (seed : Int × Int) : Int × Int → Prop :=
  Relation.ReflTransGen (growEdge img hr PtCur L0) seed

/-- Every neighbour of `(r, c)` inside the image is labelled in `L` or fails
the growth test: nothing is left to grow from `(r, c)`. -/
def Closed (img : Image) (hr : ℚ) (PtCur : Point5D) (L : Int → Int → Int) (r c : Int) : Prop :=
  ∀ d ∈ dxdy, inBounds img (r + d.1) (c + d.2) → L (r + d.1) (c + d.2) < 0 →
    ¬ nearAnchor img hr PtCur (r + d.1) (c + d.2)

/-- Sum of the colour component `f` over the cells carrying label `k`. -/
def memberSum (img : Image) (Labels : Int → Int → Int) (k : Int) (f : Point5D → ℚ) : ℚ :=
  (((cells img).filter (fun c => Labels c.1 c.2 = k)).map
    (fun c => f (labPoint img c.1 c.2))).sum

/-- Facts about the label grid and the record of writes that hold in every
state of the labeling pass. -/
structure BasicInv (img : Image) (st : SegState) : Prop where
  label_ge : -1 ≤ st.label
  labels : ∀ r c, st.Labels r c = -1 ∨
    (inBounds img r c ∧ 0 ≤ st.Labels r c ∧ st.Labels r c ≤ st.label)
  writes_ok : ∀ w ∈ st.writes,
    inBounds img w.r w.c ∧ w.old < 0 ∧ 0 ≤ w.val ∧ st.Labels w.r w.c = w.val
  writes_nodup : (st.writes.map (fun w => (w.r, w.c))).Nodup
  writes_all : ∀ r c, 0 ≤ st.Labels r c → ∃ w ∈ st.writes, w.r = r ∧ w.c = c

/-- Facts holding while the segment seeded at `c0` from state `st0` grows;
`st` is the current state and `work` the worklist. -/
structure GrowInv (img : Image) (hr : ℚ) (st0 : SegState) (c0 : Int × Int)
    (st : SegState) (work : List Point5D) : Prop where
  basic : BasicInv img st
  label_eq : st.label = st0.label + 1
  work_ok : ∀ P ∈ work, ∃ r c, inBounds img r c ∧ P = labPoint img r c ∧
    st.Labels r c = st.label
  frame : ∀ r c, st.Labels r c = st0.Labels r c ∨
    (st0.Labels r c < 0 ∧ st.Labels r c = st.label)
  seed_label : st.Labels c0.1 c0.2 = st.label
  count : st.MemberModeCount st.label + 1 = memberCount img st.Labels st.label
  count_other : ∀ k, k ≠ st.label → st.MemberModeCount k = st0.MemberModeCount k
  reach : ∀ r c, st.Labels r c = st.label →
    Reach img hr (labPoint img c0.1 c0.2) st0.Labels c0 (r, c)
  writes_eq : ∃ news, st.writes =
      news ++ ⟨c0.1, c0.2, st0.Labels c0.1 c0.2, st.label, true⟩ :: st0.writes ∧
    ∀ w ∈ news, w.seed = false ∧ w.val = st.label
  mode_l : st.Mode (st.label * 3 + 0) = memberSum img st.Labels st.label Point5D.l
  mode_a : st.Mode (st.label * 3 + 1) = memberSum img st.Labels st.label Point5D.a
  mode_b : st.Mode (st.label * 3 + 2) = memberSum img st.Labels st.label Point5D.b
  mode_other : ∀ i, i < st.label * 3 → st.Mode i = st0.Mode i

/-- The worklist invariant of region growth: every member of the current
segment is still on the worklist, or is the cell in `open`, or has nothing
left to grow from it. -/
def ClosedExcept (img : Image) (hr : ℚ) (c0 : Int × Int) (st : SegState)
    (work : List Point5D) (exc : Int × Int → Prop) : Prop :=
  ∀ r c, st.Labels r c = st.label →
    labPoint img r c ∈ work ∨ exc (r, c) ∨
    Closed img hr (labPoint img c0.1 c0.2) st.Labels r c

/-- What one execution of the scan body at an unlabeled cell `c0` achieves:
`st0` is the state before, `st` the state after finalization. -/
structure SegmentSpec (img : Image) (hr : ℚ) (st0 : SegState) (c0 : Int × Int)
    (st : SegState) : Prop where
  basic : BasicInv img st
  label_eq : st.label = st0.label + 1
  frame : ∀ r c, st.Labels r c = st0.Labels r c ∨
    (st0.Labels r c < 0 ∧ st.Labels r c = st.label)
  seed_label : st.Labels c0.1 c0.2 = st.label
  region : ∀ r c, st.Labels r c = st.label ↔
    Reach img hr (labPoint img c0.1 c0.2) st0.Labels c0 (r, c)
  count : st.MemberModeCount st.label = memberCount img st.Labels st.label
  count_other : ∀ k, k ≠ st.label → st.MemberModeCount k = st0.MemberModeCount k
  writes_eq : ∃ news, st.writes =
      news ++ ⟨c0.1, c0.2, st0.Labels c0.1 c0.2, st.label, true⟩ :: st0.writes ∧
    ∀ w ∈ news, w.seed = false ∧ w.val = st.label
  mode_l : st.Mode (st.label * 3 + 0) =
    memberSum img st.Labels st.label Point5D.l / (memberCount img st.Labels st.label : ℚ)
  mode_a : st.Mode (st.label * 3 + 1) =
    memberSum img st.Labels st.label Point5D.a / (memberCount img st.Labels st.label : ℚ)
  mode_b : st.Mode (st.label * 3 + 2) =
    memberSum img st.Labels st.label Point5D.b / (memberCount img st.Labels st.label : ℚ)
  mode_other : ∀ i, i < st.label * 3 → st.Mode i = st0.Mode i

/-- One growth move of segment `k` with anchor `PtCur`, read off a label
grid `L` of a later moment: from `p` to a neighbour `q` inside the image that
carries no label below `k` in `L` and passes the growth test. -/
def segEdge (img : Image) (hr : ℚ) (L : Int → Int → Int) (k : Int) (PtCur : Point5D)
    (p q : Int × Int) : Prop :=
  adj8 p q ∧ inBounds img q.1 q.2 ∧ ¬ (0 ≤ L q.1 q.2 ∧ L q.1 q.2 < k) ∧
    nearAnchor img hr PtCur q.1 q.2

/-- Cells reachable from the cell `s` by growth moves of segment `k`, the
anchor being the point of `s`. -/
def SegReach (img : Image) (hr : ℚ) (L : Int → Int → Int) (k : Int) (s : Int × Int) :
    Int × Int → Prop :=
  Relation.ReflTransGen (segEdge img hr L k (labPoint img s.1 s.2)) s

/-- Facts holding between two executions of the scan body, when the cells of
`pre` have been scanned. -/
structure ScanInv (img : Image) (hr : ℚ) (pre : List (Int × Int)) (st : SegState) :
    Prop where
  basic : BasicInv img st
  count : ∀ k, 0 ≤ k → k ≤ st.label → st.MemberModeCount k = memberCount img st.Labels k
  count_zero : ∀ k, st.label < k → st.MemberModeCount k = 0
  done : ∀ c ∈ pre, 0 ≤ st.Labels c.1 c.2
  seed_exists : ∀ k, 0 ≤ k → k ≤ st.label → ∃ w ∈ st.writes, w.seed = true ∧ w.val = k
  seed_unique : ∀ w1 ∈ st.writes, ∀ w2 ∈ st.writes, w1.seed = true → w2.seed = true →
    w1.val = w2.val → w1 = w2
  seed_first : ∀ w ∈ st.writes, w.seed = true → (w.r, w.c) ∈ pre ∧
    ∀ r c, inBounds img r c → st.Labels r c = w.val →
      (r, c) = (w.r, w.c) ∨ rowMajorLt (w.r, w.c) (r, c)
  seed_order : ∀ w1 ∈ st.writes, ∀ w2 ∈ st.writes, w1.seed = true → w2.seed = true →
    w1.val < w2.val → rowMajorLt (w1.r, w1.c) (w2.r, w2.c)
  region : ∀ w ∈ st.writes, w.seed = true → ∀ r c,
    st.Labels r c = w.val ↔ SegReach img hr st.Labels w.val (w.r, w.c) (r, c)
  mode : ∀ k, 0 ≤ k → k ≤ st.label →
    st.Mode (k * 3 + 0) =
        memberSum img st.Labels k Point5D.l / (memberCount img st.Labels k : ℚ) ∧
      st.Mode (k * 3 + 1) =
        memberSum img st.Labels k Point5D.a / (memberCount img st.Labels k : ℚ) ∧
      st.Mode (k * 3 + 2) =
        memberSum img st.Labels k Point5D.b / (memberCount img st.Labels k : ℚ)

/-! ## Further specification vocabulary -/

/-- Number of executions of the do-while body of pixel `(i, j)`, started with
`step` executions done and current sample `PtCur`.  An iteration with
`NumPts = 0` makes the sample NaN; every `>` test against NaN is false, so
that iteration is the last one. -/
def loopSteps (img : Image) (hs hr : ℚ) (i j : Int) : Nat → Nat → Point5D → Nat
  | 0, step, _ => step
  | fuel + 1, step, PtCur =>
    match meanShiftStep img hs hr i j PtCur with
    | .error _ => step + 1
    | .ok PtNew =>
      if continueLoop PtNew (Point5D.new.MSPoint5DCopy PtCur) (step + 1) then
        loopSteps img hs hr i j fuel (step + 1) PtNew
      else step + 1

/-- Number of executions of the do-while body of pixel `(i, j)`. -/
def convergeSteps (img : Image) (hs hr : ℚ) (i j : Int) : Nat :=
  loopSteps img hs hr i j MS_MAX_NUM_CONVERGENCE_STEPS 0 (labPoint img i j)

/-- The 1x2 image of colour `(10, 20, 30)`. -/
def rowImage : Image :=
  { rows := 1, cols := 2, pix := fun _ _ => ⟨10, 20, 30⟩ }

/-- The box of the spec's wording, with the real bandwidth `hs` as
half-width: rows `[max(0, i-hs), min(ROWS, i+hs))` and columns
`[max(0, j-hs), min(COLS, j+hs))`.  (The program's box is `window`, whose
half-width is `(int)hs`.) -/
def claimedBox (img : Image) (hs : ℚ) (i j : Int) (c : Int × Int) : Prop :=
  (max 0 ((i : ℚ) - hs) ≤ (c.1 : ℚ) ∧ (c.1 : ℚ) < min (img.rows : ℚ) ((i : ℚ) + hs)) ∧
  (max 0 ((j : ℚ) - hs) ≤ (c.2 : ℚ) ∧ (c.2 : ℚ) < min (img.cols : ℚ) ((j : ℚ) + hs))

/-- The cells whose entry of `Labels` or of the channel planes is accessed by
the body of the neighbour loop for the popped point `Pt` and the offset `d`:
`Labels[hx][hy]` is evaluated only after the four bounds tests of the `&&`
chain have passed, and the colour reads and the assignment to `Labels[hx][hy]`
lie inside that `if`. -/
def neighbourAccess (img : Image) (Pt : Point5D) (d : Int × Int) : List (Int × Int) :=
  if inBounds img (truncToInt (Pt.x + (d.1 : ℚ))) (truncToInt (Pt.y + (d.2 : ℚ))) then
    [(truncToInt (Pt.x + (d.1 : ℚ)), truncToInt (Pt.y + (d.2 : ℚ)))]
  else []

/-- The colour `(Mode[k*3+0], Mode[k*3+1], Mode[k*3+2])` of label `k` as a
point (its position is not used). -/
def modePoint (st : SegState) (k : Int) : Point5D :=
  Point5D.new.MSPOint5DSet 0 0 (st.Mode (k * 3 + 0)) (st.Mode (k * 3 + 1)) (st.Mode (k * 3 + 2))

/-! ## The labeling pass with a queue as worklist

The spec leaves the worklist discipline open ("stack or queue").  The
definitions below repeat the labeling pass of the source with the one change
that the worklist is a first-in first-out queue: a point is taken from the
front and a joining neighbour is appended at the back.  Everything else is
the source's code unchanged. -/

/-- Queue variant of `neighbourStep`: the joining neighbour is appended at
the back of the worklist (whose head is the front of the queue). -/
def neighbourStepFifo (img : Image) (hr : ℚ) (PtCur Pt : Point5D)
    (s : SegState × List Point5D) (d : Int × Int) : SegState × List Point5D :=
  let hx := truncToInt (Pt.x + (d.1 : ℚ))
  let hy := truncToInt (Pt.y + (d.2 : ℚ))
  if inBounds img hx hy ∧ s.1.Labels hx hy < 0 then
    let P := labPoint img hx hy
    if sqrtLt (PtCur.MSPoint5DColorDistanceSq P) hr then
      (joinSegment s.1 hx hy P, s.2 ++ [P])
    else s
  else s

/-- Queue variant of `visitPoint`: the front `Pt` has been taken, leaving
`rest`; its 8 neighbours are examined in order. -/
def visitPointFifo (img : Image) (hr : ℚ) (PtCur : Point5D) (st : SegState)
    (Pt : Point5D) (rest : List Point5D) : SegState × List Point5D :=
  dxdy.foldl (neighbourStepFifo img hr PtCur Pt) (st, rest)

/-- Queue variant of `growLoop`. -/
def growLoopFifo (img : Image) (hr : ℚ) (PtCur : Point5D) :
    Nat → SegState → List Point5D → Except MSError SegState
  | _, st, [] => .ok st
  | 0, _, _ :: _ => .error .outOfFuel
  | fuel + 1, st, Pt :: rest =>
    growLoopFifo img hr PtCur fuel (visitPointFifo img hr PtCur st Pt rest).1
      (visitPointFifo img hr PtCur st Pt rest).2

/-- Queue variant of `segmentAt`. -/
def segmentAtFifo (img : Image) (hr : ℚ) (st : SegState) (c : Int × Int) :
    Except MSError SegState :=
  if st.Labels c.1 c.2 < 0 then
    match growLoopFifo img hr (labPoint img c.1 c.2) (img.rows * img.cols)
        (seedState img st c) [labPoint img c.1 c.2] with
    | .error e => .error e
    | .ok st2 => finalizeMode st2
  else .ok st

/-- Queue variant of `scanCells`. -/
def scanCellsFifo (img : Image) (hr : ℚ) :
    List (Int × Int) → SegState → Except MSError SegState
  | [], st => .ok st
  | c :: cs, st =>
    match segmentAtFifo img hr st c with
    | .error e => .error e
    | .ok st1 => scanCellsFifo img hr cs st1

/-- Queue variant of `labelPass`. -/
def labelPassFifo (img : Image) (hr : ℚ) : Except MSError SegState :=
  scanCellsFifo img hr (cells img) initState

/-- The 2x3 image of colour `(10, 20, 30)`: growth from `(0, 0)` puts three
points on the worklist at once, so that the stack and the queue visit the
cells in different orders. -/
def sixImage : Image :=
  { rows := 2, cols := 3, pix := fun _ _ => ⟨10, 20, 30⟩ }

/-! # Theorems -/

/-! ## Numeric helpers -/

/-- The test `sqrtLt` is the comparison `sqrt s < h` over the reals. -/
theorem sqrtLt_iff_real (s h : ℚ) (hs : 0 ≤ s) :
    sqrtLt s h = true ↔ Real.sqrt (s : ℝ) < (h : ℝ) := by
  have hs' : (0 : ℝ) ≤ (s : ℝ) := by exact_mod_cast hs
  simp only [sqrtLt, decide_eq_true_eq]
  constructor
  · rintro ⟨h0, h1⟩
    have h0' : (0 : ℝ) < (h : ℝ) := by exact_mod_cast h0
    rw [Real.sqrt_lt' h0']
    have : (s : ℝ) < (h : ℝ) * (h : ℝ) := by exact_mod_cast h1
    nlinarith
  · intro hlt
    have h0' : (0 : ℝ) < (h : ℝ) := lt_of_le_of_lt (Real.sqrt_nonneg _) hlt
    rw [Real.sqrt_lt' h0'] at hlt
    refine ⟨by exact_mod_cast h0', ?_⟩
    have : (s : ℝ) < (h : ℝ) * (h : ℝ) := by nlinarith
    exact_mod_cast this

/-- The test `sqrtGt` is the comparison `sqrt s > t` over the reals. -/
theorem sqrtGt_iff_real (s t : ℚ) (hs : 0 ≤ s) :
    sqrtGt s t = true ↔ (t : ℝ) < Real.sqrt (s : ℝ) := by
  have hs' : (0 : ℝ) ≤ (s : ℝ) := by exact_mod_cast hs
  simp only [sqrtGt, decide_eq_true_eq]
  constructor
  · rintro (h0 | h1)
    · have h0' : (t : ℝ) < 0 := by exact_mod_cast h0
      exact lt_of_lt_of_le h0' (Real.sqrt_nonneg _)
    · by_cases ht : (t : ℝ) < 0
      · exact lt_of_lt_of_le ht (Real.sqrt_nonneg _)
      · push_neg at ht
        rw [Real.lt_sqrt ht]
        have : (t : ℝ) * (t : ℝ) < (s : ℝ) := by exact_mod_cast h1
        nlinarith
  · intro hlt
    by_cases ht : t < 0
    · exact Or.inl ht
    · right
      push_neg at ht
      have ht' : (0 : ℝ) ≤ (t : ℝ) := by exact_mod_cast ht
      rw [Real.lt_sqrt ht'] at hlt
      have : (t : ℝ) * (t : ℝ) < (s : ℝ) := by nlinarith
      exact_mod_cast this

theorem truncToInt_intCast (n : Int) : truncToInt (n : ℚ) = n := by
  unfold truncToInt
  split <;> simp

theorem truncToInt_add_intCast (a b : Int) : truncToInt ((a : ℚ) + (b : ℚ)) = a + b := by
  rw [← Int.cast_add, truncToInt_intCast]

@[simp] theorem setAt_same {α : Type} (arr : Int → α) (i : Int) (v : α) :
    setAt arr i v i = v := by simp [setAt]

theorem setAt_other {α : Type} (arr : Int → α) (i k : Int) (v : α) (h : k ≠ i) :
    setAt arr i v k = arr k := by simp [setAt, h]

@[simp] theorem setAt2_same {α : Type} (g : Int → Int → α) (r c : Int) (v : α) :
    setAt2 g r c v r c = v := by simp [setAt2]

theorem setAt2_other {α : Type} (g : Int → Int → α) (r c r' c' : Int) (v : α)
    (h : ¬ (r' = r ∧ c' = c)) : setAt2 g r c v r' c' = g r' c' := by simp [setAt2, h]

/-! ## The list of cells -/

theorem mem_cells (img : Image) (c : Int × Int) :
    c ∈ cells img ↔ inBounds img c.1 c.2 := by
  obtain ⟨r, k⟩ := c
  simp only [cells, List.mem_flatMap, List.mem_range, List.mem_map, Prod.mk.injEq, inBounds]
  constructor
  · rintro ⟨i, hi, j, hj, rfl, rfl⟩
    omega
  · rintro ⟨h0, h1, h2, h3⟩
    exact ⟨r.toNat, by omega, k.toNat, by omega, by omega, by omega⟩

/-- Row-major order on cells. -/
theorem rowMajorLt_irrefl (c : Int × Int) : ¬ rowMajorLt c c := by
  unfold rowMajorLt; omega

theorem rowMajorLt_trans {a b c : Int × Int} (h1 : rowMajorLt a b) (h2 : rowMajorLt b c) :
    rowMajorLt a c := by
  unfold rowMajorLt at *; omega

theorem cells_pairwise (img : Image) : (cells img).Pairwise rowMajorLt := by
  unfold cells
  rw [List.pairwise_flatMap]
  constructor
  · intro i _
    rw [List.pairwise_map]
    have := List.pairwise_lt_range img.cols
    refine this.imp ?_
    intro a b hab
    right
    refine ⟨rfl, ?_⟩
    show (a : Int) < (b : Int)
    exact_mod_cast hab
  · have := List.pairwise_lt_range img.rows
    refine this.imp ?_
    intro a b hab x hx y hy
    simp only [List.mem_map, List.mem_range] at hx hy
    obtain ⟨j, _, rfl⟩ := hx
    obtain ⟨j', _, rfl⟩ := hy
    left
    show (a : Int) < (b : Int)
    exact_mod_cast hab

theorem cells_nodup (img : Image) : (cells img).Nodup := by
  have := cells_pairwise img
  unfold List.Nodup
  refine this.imp ?_
  intro a b hab heq
  subst heq
  exact rowMajorLt_irrefl a hab

theorem cells_length (img : Image) : (cells img).length = img.rows * img.cols := by
  unfold cells
  simp [List.length_flatMap, Function.comp_def]

/-! ## Lists -/

theorem foldl_inv {α β : Type} (f : β → α → β) (P : β → Prop) (l : List α)
    (hstep : ∀ s a, a ∈ l → P s → P (f s a)) (init : β) (h0 : P init) :
    P (l.foldl f init) := by
  induction l generalizing init with
  | nil => simpa using h0
  | cons a l ih =>
    simp only [List.foldl_cons]
    apply ih
    · intro s b hb hs
      exact hstep s b (List.mem_cons_of_mem _ hb) hs
    · exact hstep init a (List.mem_cons_self _ _) h0

theorem foldl_inv_prefix {α β : Type} (f : β → α → β) (P : List α → β → Prop) (l : List α)
    (hstep : ∀ pre a s, a ∈ l → P pre s → P (pre ++ [a]) (f s a)) (init : β) (h0 : P [] init) :
    P l (l.foldl f init) := by
  suffices H : ∀ (post pre : List α) (s : β), (∀ a ∈ post, a ∈ l) → P pre s →
      P (pre ++ post) (post.foldl f s) by
    simpa using H l [] init (fun a ha => ha) h0
  intro post
  induction post with
  | nil => intro pre s _ h; simpa using h
  | cons a post ih =>
    intro pre s hsub h
    have := ih (pre ++ [a]) (f s a) (fun b hb => hsub b (List.mem_cons_of_mem _ hb))
      (hstep pre a s (hsub a (List.mem_cons_self _ _)) h)
    simpa using this

theorem filter_update_perm {α : Type} [DecidableEq α] (l : List α) (hn : l.Nodup) (a : α)
    (ha : a ∈ l) (p q : α → Bool) (hpq : ∀ x, x ≠ a → q x = p x) (hp : p a = false)
    (hq : q a = true) : (l.filter q).Perm (a :: l.filter p) := by
  induction l with
  | nil => simp at ha
  | cons b l ih =>
    rw [List.nodup_cons] at hn
    by_cases hba : b = a
    · subst hba
      have hfl : l.filter q = l.filter p := by
        apply List.filter_congr
        intro x hx
        apply hpq
        rintro rfl
        exact hn.1 hx
      simp [List.filter_cons, hp, hq, hfl]
    · have ha' : a ∈ l := by
        rcases List.mem_cons.mp ha with h | h
        · exact absurd h.symm hba
        · exact h
      have := ih hn.2 ha'
      rw [List.filter_cons, List.filter_cons, hpq b hba]
      split
      · exact (this.cons b).trans (List.Perm.swap a b _)
      · exact this

theorem countP_update {α : Type} [DecidableEq α] (l : List α) (hn : l.Nodup) (a : α)
    (ha : a ∈ l) (p q : α → Bool) (hpq : ∀ x, x ≠ a → q x = p x) (hp : p a = false)
    (hq : q a = true) : l.countP q = l.countP p + 1 := by
  rw [List.countP_eq_length_filter, List.countP_eq_length_filter,
    (filter_update_perm l hn a ha p q hpq hp hq).length_eq]
  simp

theorem sum_filter_update {α : Type} [DecidableEq α] (l : List α) (hn : l.Nodup) (a : α)
    (ha : a ∈ l) (p q : α → Bool) (hpq : ∀ x, x ≠ a → q x = p x) (hp : p a = false)
    (hq : q a = true) (f : α → ℚ) :
    ((l.filter q).map f).sum = ((l.filter p).map f).sum + f a := by
  rw [((filter_update_perm l hn a ha p q hpq hp hq).map f).sum_eq]
  simp [add_comm]

/-! ## Counting under one assignment to the label grid -/

theorem memberCount_setAt2 (img : Image) (L : Int → Int → Int) (hx hy k : Int)
    (hb : inBounds img hx hy) (hne : L hx hy ≠ k) :
    memberCount img (setAt2 L hx hy k) k = memberCount img L k + 1 := by
  unfold memberCount
  apply countP_update (cells img) (cells_nodup img) (hx, hy) ((mem_cells img (hx, hy)).2 hb)
  · rintro ⟨r, c⟩ hrc
    have : ¬ (r = hx ∧ c = hy) := by
      rintro ⟨rfl, rfl⟩; exact hrc rfl
    simp [setAt2_other _ _ _ _ _ _ this]
  · simpa using hne
  · simp

theorem memberCount_setAt2_other (img : Image) (L : Int → Int → Int) (hx hy v k : Int)
    (hv : k ≠ v) (hne : L hx hy ≠ k) :
    memberCount img (setAt2 L hx hy v) k = memberCount img L k := by
  unfold memberCount
  apply List.countP_congr
  rintro ⟨r, c⟩ _
  by_cases h : r = hx ∧ c = hy
  · obtain ⟨rfl, rfl⟩ := h
    simp [hne, Ne.symm hv]
  · simp [setAt2_other _ _ _ _ _ _ h]

theorem memberSum_setAt2 (img : Image) (L : Int → Int → Int) (hx hy k : Int)
    (hb : inBounds img hx hy) (hne : L hx hy ≠ k) (f : Point5D → ℚ) :
    memberSum img (setAt2 L hx hy k) k f = memberSum img L k f + f (labPoint img hx hy) := by
  unfold memberSum
  apply sum_filter_update (cells img) (cells_nodup img) (hx, hy)
    ((mem_cells img (hx, hy)).2 hb) _ _ _ _ _ (fun c => f (labPoint img c.1 c.2))
  · rintro ⟨r, c⟩ hrc
    have : ¬ (r = hx ∧ c = hy) := by
      rintro ⟨rfl, rfl⟩; exact hrc rfl
    simp [setAt2_other _ _ _ _ _ _ this]
  · simpa using hne
  · simp

theorem unlabeledCount_setAt2 (img : Image) (L : Int → Int → Int) (hx hy v : Int)
    (hb : inBounds img hx hy) (hu : L hx hy < 0) (hv : 0 ≤ v) :
    unlabeledCount img (setAt2 L hx hy v) + 1 = unlabeledCount img L := by
  unfold unlabeledCount
  symm
  apply countP_update (cells img) (cells_nodup img) (hx, hy) ((mem_cells img (hx, hy)).2 hb)
  · rintro ⟨r, c⟩ hrc
    have : ¬ (r = hx ∧ c = hy) := by
      rintro ⟨rfl, rfl⟩; exact hrc rfl
    simp [setAt2_other _ _ _ _ _ _ this]
  · simpa using hv
  · simpa using hu

theorem memberCount_eq_zero (img : Image) (L : Int → Int → Int) (k : Int)
    (h : ∀ r c, inBounds img r c → L r c ≠ k) : memberCount img L k = 0 := by
  unfold memberCount
  rw [List.countP_eq_zero]
  rintro ⟨r, c⟩ hc
  simpa using h r c ((mem_cells img (r, c)).1 hc)

theorem memberSum_eq_zero (img : Image) (L : Int → Int → Int) (k : Int) (f : Point5D → ℚ)
    (h : ∀ r c, inBounds img r c → L r c ≠ k) : memberSum img L k f = 0 := by
  unfold memberSum
  have : (cells img).filter (fun c => decide (L c.1 c.2 = k)) = [] := by
    rw [List.filter_eq_nil_iff]
    rintro ⟨r, c⟩ hc
    simpa using h r c ((mem_cells img (r, c)).1 hc)
  rw [this]
  simp

theorem memberCount_pos (img : Image) (L : Int → Int → Int) (k r c : Int)
    (hb : inBounds img r c) (h : L r c = k) : 1 ≤ memberCount img L k := by
  unfold memberCount
  apply List.countP_pos_iff.2
  exact ⟨(r, c), (mem_cells img (r, c)).2 hb, by simpa using h⟩

/-! ## Invariants of the label grid and of the record of writes -/

theorem BasicInv.basic_init (img : Image) : BasicInv img initState := by
  refine ⟨by simp [initState], ?_, ?_, ?_, ?_⟩
  · intro r c; left; rfl
  · intro w hw; simp [initState] at hw
  · simp [initState]
  · intro r c h; simp [initState] at h

theorem BasicInv.basic_join {img : Image} {st : SegState} (h : BasicInv img st)
    (hl : 0 ≤ st.label) {hx hy : Int} (hb : inBounds img hx hy) (hu : st.Labels hx hy < 0)
    (P : Point5D) : BasicInv img (joinSegment st hx hy P) := by
  refine ⟨h.label_ge, ?_, ?_, ?_, ?_⟩
  · intro r c
    simp only [joinSegment]
    by_cases hc : r = hx ∧ c = hy
    · obtain ⟨rfl, rfl⟩ := hc
      right
      simp only [setAt2_same, le_refl, and_true]
      exact ⟨hb, hl⟩
    · rw [setAt2_other _ _ _ _ _ _ hc]
      exact h.labels r c
  · intro w hw
    simp only [joinSegment, List.mem_cons] at hw ⊢
    rcases hw with rfl | hw
    · simp only [setAt2_same, and_true]
      exact ⟨hb, hu, hl⟩
    · obtain ⟨a, b, c, d⟩ := h.writes_ok w hw
      refine ⟨a, b, c, ?_⟩
      rw [setAt2_other]
      · exact d
      · rintro ⟨h1, h2⟩
        rw [h1, h2] at d
        omega
  · simp only [joinSegment, List.map_cons, List.nodup_cons]
    refine ⟨?_, h.writes_nodup⟩
    intro hmem
    rw [List.mem_map] at hmem
    obtain ⟨w, hw, heq⟩ := hmem
    simp only [Prod.mk.injEq] at heq
    obtain ⟨_, _, c, d⟩ := h.writes_ok w hw
    rw [heq.1, heq.2] at d
    omega
  · intro r c hrc
    simp only [joinSegment] at hrc ⊢
    by_cases hc : r = hx ∧ c = hy
    · exact ⟨_, List.mem_cons_self _ _, hc.1.symm, hc.2.symm⟩
    · rw [setAt2_other _ _ _ _ _ _ hc] at hrc
      obtain ⟨w, hw, h1⟩ := h.writes_all r c hrc
      exact ⟨w, List.mem_cons_of_mem _ hw, h1⟩

theorem BasicInv.basic_seed {img : Image} {st : SegState} (h : BasicInv img st)
    {c0 : Int × Int} (hb : inBounds img c0.1 c0.2) (hu : st.Labels c0.1 c0.2 < 0) :
    BasicInv img (seedState img st c0) := by
  have hl := h.label_ge
  refine ⟨by simp only [seedState]; omega, ?_, ?_, ?_, ?_⟩
  · intro r c
    simp only [seedState]
    by_cases hc : r = c0.1 ∧ c = c0.2
    · obtain ⟨rfl, rfl⟩ := hc
      right
      simp only [setAt2_same, le_refl, and_true]
      exact ⟨hb, by omega⟩
    · rw [setAt2_other _ _ _ _ _ _ hc]
      rcases h.labels r c with h1 | ⟨h1, h2, h3⟩
      · exact Or.inl h1
      · exact Or.inr ⟨h1, h2, by omega⟩
  · intro w hw
    simp only [seedState, List.mem_cons] at hw ⊢
    rcases hw with rfl | hw
    · simp only [setAt2_same, and_true]
      exact ⟨hb, hu, by omega⟩
    · obtain ⟨a, b, c, d⟩ := h.writes_ok w hw
      refine ⟨a, b, c, ?_⟩
      rw [setAt2_other]
      · exact d
      · rintro ⟨h1, h2⟩
        rw [h1, h2] at d
        omega
  · simp only [seedState, List.map_cons, List.nodup_cons]
    refine ⟨?_, h.writes_nodup⟩
    intro hmem
    rw [List.mem_map] at hmem
    obtain ⟨w, hw, heq⟩ := hmem
    simp only [Prod.mk.injEq] at heq
    obtain ⟨_, _, c, d⟩ := h.writes_ok w hw
    rw [heq.1, heq.2] at d
    omega
  · intro r c hrc
    simp only [seedState] at hrc ⊢
    by_cases hc : r = c0.1 ∧ c = c0.2
    · exact ⟨_, List.mem_cons_self _ _, hc.1.symm, hc.2.symm⟩
    · rw [setAt2_other _ _ _ _ _ _ hc] at hrc
      obtain ⟨w, hw, h1⟩ := h.writes_all r c hrc
      exact ⟨w, List.mem_cons_of_mem _ hw, h1⟩

/-- No cell carries a label above the counter. -/
theorem BasicInv.no_label_above {img : Image} {st : SegState} (h : BasicInv img st)
    (k : Int) (hk : st.label < k) (r c : Int) : st.Labels r c ≠ k := by
  have hl := h.label_ge
  rcases h.labels r c with h1 | ⟨_, _, h3⟩ <;> omega

/-! ## Invariants of region growth -/

theorem labPoint_x (img : Image) (r c : Int) : (labPoint img r c).x = (r : ℚ) := rfl

theorem labPoint_y (img : Image) (r c : Int) : (labPoint img r c).y = (c : ℚ) := rfl

theorem labPoint_inj (img : Image) {r c r' c' : Int} (h : labPoint img r c = labPoint img r' c') :
    r = r' ∧ c = c' := by
  have hx := congrArg Point5D.x h
  have hy := congrArg Point5D.y h
  rw [labPoint_x, labPoint_x] at hx
  rw [labPoint_y, labPoint_y] at hy
  exact ⟨by exact_mod_cast hx, by exact_mod_cast hy⟩

theorem GrowInv.grow_seed {img : Image} {hr : ℚ} {st0 : SegState} {c0 : Int × Int}
    (h : BasicInv img st0) (hcnt : ∀ k, st0.label < k → st0.MemberModeCount k = 0)
    (hb : inBounds img c0.1 c0.2) (hu : st0.Labels c0.1 c0.2 < 0) :
    GrowInv img hr st0 c0 (seedState img st0 c0) [labPoint img c0.1 c0.2] := by
  have hl := h.label_ge
  have hne : st0.Labels c0.1 c0.2 ≠ st0.label + 1 := by omega
  have habove : ∀ r c, inBounds img r c → st0.Labels r c ≠ st0.label + 1 :=
    fun r c _ => h.no_label_above _ (by omega) r c
  refine
    { basic := h.basic_seed hb hu
      label_eq := rfl
      work_ok := ?_
      frame := ?_
      seed_label := by simp [seedState]
      count := ?_
      count_other := fun k _ => rfl
      reach := ?_
      writes_eq := ⟨[], by simp [seedState], by simp⟩
      mode_l := ?_
      mode_a := ?_
      mode_b := ?_
      mode_other := ?_ }
  · intro P hP
    rw [List.mem_singleton] at hP
    exact ⟨c0.1, c0.2, hb, hP, by simp [seedState]⟩
  · intro r c
    by_cases hc : r = c0.1 ∧ c = c0.2
    · obtain ⟨rfl, rfl⟩ := hc
      right
      exact ⟨hu, by simp [seedState]⟩
    · left
      simp only [seedState]
      rw [setAt2_other _ _ _ _ _ _ hc]
  · simp only [seedState]
    rw [memberCount_setAt2 img _ _ _ _ hb hne, memberCount_eq_zero img _ _ habove,
      hcnt _ (by omega)]
    simp
  · intro r c hrc
    by_cases hc : r = c0.1 ∧ c = c0.2
    · obtain ⟨rfl, rfl⟩ := hc
      exact Relation.ReflTransGen.refl
    · simp only [seedState] at hrc
      rw [setAt2_other _ _ _ _ _ _ hc] at hrc
      exact absurd hrc (h.no_label_above _ (by omega) r c)
  · simp only [seedState]
    rw [memberSum_setAt2 img _ _ _ _ hb hne, memberSum_eq_zero img _ _ _ habove,
      setAt_other _ _ _ _ (by omega), setAt_other _ _ _ _ (by omega), setAt_same]
    simp
  · simp only [seedState]
    rw [memberSum_setAt2 img _ _ _ _ hb hne, memberSum_eq_zero img _ _ _ habove,
      setAt_other _ _ _ _ (by omega), setAt_same]
    simp
  · simp only [seedState]
    rw [memberSum_setAt2 img _ _ _ _ hb hne, memberSum_eq_zero img _ _ _ habove, setAt_same]
    simp
  · intro i hi
    simp only [seedState] at hi ⊢
    rw [setAt_other _ _ _ _ (by omega), setAt_other _ _ _ _ (by omega),
      setAt_other _ _ _ _ (by omega)]

theorem GrowInv.label_nonneg {img : Image} {hr : ℚ} {st0 : SegState} {c0 : Int × Int}
    {st : SegState} {work : List Point5D} (h : GrowInv img hr st0 c0 st work)
    (h0 : BasicInv img st0) : 0 ≤ st.label := by
  have := h0.label_ge
  have := h.label_eq
  omega

theorem GrowInv.of_work {img : Image} {hr : ℚ} {st0 : SegState} {c0 : Int × Int}
    {st : SegState} {work work' : List Point5D} (h : GrowInv img hr st0 c0 st work)
    (hw : ∀ P ∈ work', P ∈ work) : GrowInv img hr st0 c0 st work' :=
  { h with work_ok := fun P hP => h.work_ok P (hw P hP) }

theorem GrowInv.grow_join {img : Image} {hr : ℚ} {st0 : SegState} {c0 : Int × Int}
    {st : SegState} {work : List Point5D} (h : GrowInv img hr st0 c0 st work)
    (h0 : BasicInv img st0) {r0 k0 hx hy : Int} (hcur : st.Labels r0 k0 = st.label)
    (hadj : adj8 (r0, k0) (hx, hy)) (hb : inBounds img hx hy) (hu : st.Labels hx hy < 0)
    (hnear : nearAnchor img hr (labPoint img c0.1 c0.2) hx hy) :
    GrowInv img hr st0 c0 (joinSegment st hx hy (labPoint img hx hy))
      (labPoint img hx hy :: work) := by
  have hl : 0 ≤ st.label := h.label_nonneg h0
  have hne : st.Labels hx hy ≠ st.label := by omega
  have hu0 : st0.Labels hx hy < 0 := by
    rcases h.frame hx hy with h1 | ⟨h1, _⟩
    · rw [← h1]; exact hu
    · exact h1
  refine
    { basic := h.basic.basic_join hl hb hu _
      label_eq := h.label_eq
      work_ok := ?_
      frame := ?_
      seed_label := ?_
      count := ?_
      count_other := ?_
      reach := ?_
      writes_eq := ?_
      mode_l := ?_
      mode_a := ?_
      mode_b := ?_
      mode_other := ?_ }
  · intro P hP
    rcases List.mem_cons.mp hP with rfl | hP
    · exact ⟨hx, hy, hb, rfl, by simp [joinSegment]⟩
    · obtain ⟨r, c, h1, h2, h3⟩ := h.work_ok P hP
      refine ⟨r, c, h1, h2, ?_⟩
      simp only [joinSegment]
      rw [setAt2_other]
      · exact h3
      · rintro ⟨rfl, rfl⟩
        exact hne h3
  · intro r c
    by_cases hc : r = hx ∧ c = hy
    · obtain ⟨rfl, rfl⟩ := hc
      right
      exact ⟨hu0, by simp [joinSegment]⟩
    · simp only [joinSegment]
      rw [setAt2_other _ _ _ _ _ _ hc]
      exact h.frame r c
  · simp only [joinSegment]
    rw [setAt2_other]
    · exact h.seed_label
    · rintro ⟨h1, h2⟩
      have := h.seed_label
      rw [h1, h2] at this
      exact hne this
  · simp only [joinSegment]
    rw [memberCount_setAt2 img _ _ _ _ hb hne, setAt_same]
    have := h.count
    push_cast
    omega
  · intro k hk
    simp only [joinSegment] at hk ⊢
    rw [setAt_other _ _ _ _ hk]
    exact h.count_other k hk
  · intro r c hrc
    by_cases hc : r = hx ∧ c = hy
    · obtain ⟨rfl, rfl⟩ := hc
      exact Relation.ReflTransGen.tail (h.reach r0 k0 hcur) ⟨hadj, hb, hu0, hnear⟩
    · simp only [joinSegment] at hrc
      rw [setAt2_other _ _ _ _ _ _ hc] at hrc
      exact h.reach r c hrc
  · obtain ⟨news, h1, h2⟩ := h.writes_eq
    refine ⟨⟨hx, hy, st.Labels hx hy, st.label, false⟩ :: news, ?_, ?_⟩
    · simp only [joinSegment, h1, List.cons_append]
    · intro w hw
      rcases List.mem_cons.mp hw with rfl | hw
      · exact ⟨rfl, rfl⟩
      · exact h2 w hw
  · simp only [joinSegment]
    rw [memberSum_setAt2 img _ _ _ _ hb hne, setAt_other _ _ _ _ (by omega),
      setAt_other _ _ _ _ (by omega), setAt_same, h.mode_l]
  · simp only [joinSegment]
    rw [memberSum_setAt2 img _ _ _ _ hb hne, setAt_other _ _ _ _ (by omega), setAt_same,
      setAt_other _ _ _ _ (by omega), h.mode_a]
  · simp only [joinSegment]
    rw [memberSum_setAt2 img _ _ _ _ hb hne, setAt_same, setAt_other _ _ _ _ (by omega),
      setAt_other _ _ _ _ (by omega), h.mode_b]
  · intro i hi
    simp only [joinSegment] at hi ⊢
    rw [setAt_other _ _ _ _ (by omega), setAt_other _ _ _ _ (by omega),
      setAt_other _ _ _ _ (by omega)]
    exact h.mode_other i hi

theorem Closed.mono {img : Image} {hr : ℚ} {PtCur : Point5D} {L : Int → Int → Int}
    {r c hx hy v : Int} (h : Closed img hr PtCur L r c) (hv : 0 ≤ v) :
    Closed img hr PtCur (setAt2 L hx hy v) r c := by
  intro d hd hb hlt
  by_cases hc : r + d.1 = hx ∧ c + d.2 = hy
  · rw [hc.1, hc.2, setAt2_same] at hlt
    omega
  · rw [setAt2_other _ _ _ _ _ _ hc] at hlt
    exact h d hd hb hlt

/-! ## One iteration of the growth loop -/

theorem neighbourStep_cases (img : Image) (hr : ℚ) (PtCur : Point5D) (r0 k0 : Int)
    (s : SegState × List Point5D) (d : Int × Int) :
    (neighbourStep img hr PtCur (labPoint img r0 k0) s d = s ∧
      ¬ (inBounds img (r0 + d.1) (k0 + d.2) ∧ s.1.Labels (r0 + d.1) (k0 + d.2) < 0 ∧
          nearAnchor img hr PtCur (r0 + d.1) (k0 + d.2))) ∨
    (neighbourStep img hr PtCur (labPoint img r0 k0) s d =
        (joinSegment s.1 (r0 + d.1) (k0 + d.2) (labPoint img (r0 + d.1) (k0 + d.2)),
          labPoint img (r0 + d.1) (k0 + d.2) :: s.2) ∧
      inBounds img (r0 + d.1) (k0 + d.2) ∧ s.1.Labels (r0 + d.1) (k0 + d.2) < 0 ∧
      nearAnchor img hr PtCur (r0 + d.1) (k0 + d.2)) := by
  unfold neighbourStep nearAnchor
  simp only [labPoint_x, labPoint_y, truncToInt_add_intCast]
  by_cases h1 : inBounds img (r0 + d.1) (k0 + d.2) ∧ s.1.Labels (r0 + d.1) (k0 + d.2) < 0
  · by_cases h2 : sqrtLt (PtCur.MSPoint5DColorDistanceSq
        (labPoint img (r0 + d.1) (k0 + d.2))) hr = true
    · right
      rw [if_pos h1, if_pos h2]
      exact ⟨rfl, h1.1, h1.2, h2⟩
    · left
      rw [if_pos h1, if_neg h2]
      exact ⟨rfl, fun h => h2 h.2.2⟩
  · left
    rw [if_neg h1]
    exact ⟨rfl, fun h => h1 ⟨h.1, h.2.1⟩⟩

theorem visitPoint_spec {img : Image} {hr : ℚ} {st0 : SegState} {c0 : Int × Int}
    {st : SegState} {Pt : Point5D} {rest : List Point5D} (h0 : BasicInv img st0)
    (hg : GrowInv img hr st0 c0 st (Pt :: rest))
    (hc : ClosedExcept img hr c0 st (Pt :: rest) (fun _ => False)) :
    GrowInv img hr st0 c0 (visitPoint img hr (labPoint img c0.1 c0.2) st Pt rest).1
        (visitPoint img hr (labPoint img c0.1 c0.2) st Pt rest).2 ∧
      ClosedExcept img hr c0 (visitPoint img hr (labPoint img c0.1 c0.2) st Pt rest).1
        (visitPoint img hr (labPoint img c0.1 c0.2) st Pt rest).2 (fun _ => False) ∧
      (visitPoint img hr (labPoint img c0.1 c0.2) st Pt rest).2.length +
          unlabeledCount img (visitPoint img hr (labPoint img c0.1 c0.2) st Pt rest).1.Labels =
        rest.length + unlabeledCount img st.Labels := by
  obtain ⟨r0, k0, hb0, hPt, hlab0⟩ := hg.work_ok Pt (List.mem_cons_self _ _)
  subst hPt
  have key := foldl_inv_prefix (neighbourStep img hr (labPoint img c0.1 c0.2) (labPoint img r0 k0))
    (fun pre s =>
      GrowInv img hr st0 c0 s.1 s.2 ∧ s.1.Labels r0 k0 = s.1.label ∧
      ClosedExcept img hr c0 s.1 s.2 (fun c => c = (r0, k0)) ∧
      (∀ d ∈ pre, inBounds img (r0 + d.1) (k0 + d.2) → s.1.Labels (r0 + d.1) (k0 + d.2) < 0 →
        ¬ nearAnchor img hr (labPoint img c0.1 c0.2) (r0 + d.1) (k0 + d.2)) ∧
      s.2.length + unlabeledCount img s.1.Labels = rest.length + unlabeledCount img st.Labels)
    dxdy ?step (st, rest) ?init
  case init =>
    refine ⟨hg.of_work (fun P hP => List.mem_cons_of_mem _ hP), hlab0, ?_, ?_, rfl⟩
    · intro r c hrc
      rcases hc r c hrc with h1 | h1 | h1
      · rcases List.mem_cons.mp h1 with h2 | h2
        · right; left
          obtain ⟨e1, e2⟩ := labPoint_inj img h2
          rw [e1, e2]
        · exact Or.inl h2
      · exact absurd h1 id
      · exact Or.inr (Or.inr h1)
    · intro d hd
      simp at hd
  case step =>
    rintro pre d s hd ⟨hgi, hcur, hce, hdone, hmeas⟩
    have hl : 0 ≤ s.1.label := hgi.label_nonneg h0
    rcases neighbourStep_cases img hr (labPoint img c0.1 c0.2) r0 k0 s d with
      ⟨heq, hno⟩ | ⟨heq, hb, hu, hnear⟩
    · rw [heq]
      refine ⟨hgi, hcur, hce, ?_, hmeas⟩
      intro d' hd' hb' hu' hn'
      rcases List.mem_append.mp hd' with h1 | h1
      · exact hdone d' h1 hb' hu' hn'
      · rw [List.mem_singleton] at h1
        subst h1
        exact hno ⟨hb', hu', hn'⟩
    · rw [heq]
      have hne : ¬ (r0 = r0 + d.1 ∧ k0 = k0 + d.2) := by
        rintro ⟨h1, h2⟩
        rw [← h1, ← h2] at hu
        omega
      refine ⟨?_, ?_, ?_, ?_, ?_⟩
      · exact hgi.grow_join h0 hcur ⟨d, hd, rfl⟩ hb hu hnear
      · simp only [joinSegment]
        rw [setAt2_other _ _ _ _ _ _ hne]
        exact hcur
      · intro r c hrc
        by_cases hcell : r = r0 + d.1 ∧ c = k0 + d.2
        · left
          rw [hcell.1, hcell.2]
          exact List.mem_cons_self _ _
        · simp only [joinSegment] at hrc
          rw [setAt2_other _ _ _ _ _ _ hcell] at hrc
          rcases hce r c hrc with h1 | h1 | h1
          · exact Or.inl (List.mem_cons_of_mem _ h1)
          · exact Or.inr (Or.inl h1)
          · exact Or.inr (Or.inr (h1.mono hl))
      · intro d' hd' hb' hu' hn'
        simp only [joinSegment] at hu'
        by_cases hcell : r0 + d'.1 = r0 + d.1 ∧ k0 + d'.2 = k0 + d.2
        · rw [hcell.1, hcell.2, setAt2_same] at hu'
          omega
        · rw [setAt2_other _ _ _ _ _ _ hcell] at hu'
          rcases List.mem_append.mp hd' with h1 | h1
          · exact hdone d' h1 hb' hu' hn'
          · rw [List.mem_singleton] at h1
            subst h1
            exact hcell ⟨rfl, rfl⟩
      · simp only [joinSegment, List.length_cons]
        have := unlabeledCount_setAt2 img s.1.Labels _ _ s.1.label hb hu hl
        omega
  obtain ⟨k1, _, k3, k4, k5⟩ := key
  refine ⟨k1, ?_, k5⟩
  intro r c hrc
  rcases k3 r c hrc with h1 | h1 | h1
  · exact Or.inl h1
  · right; right
    simp only [Prod.mk.injEq] at h1
    rw [h1.1, h1.2]
    exact k4
  · exact Or.inr (Or.inr h1)

theorem growLoop_spec {img : Image} {hr : ℚ} {st0 : SegState} {c0 : Int × Int}
    (h0 : BasicInv img st0) :
    ∀ (fuel : Nat) (st : SegState) (work : List Point5D),
      GrowInv img hr st0 c0 st work →
      ClosedExcept img hr c0 st work (fun _ => False) →
      work.length + unlabeledCount img st.Labels ≤ fuel →
      ∃ st1, growLoop img hr (labPoint img c0.1 c0.2) fuel st work = .ok st1 ∧
        GrowInv img hr st0 c0 st1 [] ∧ ClosedExcept img hr c0 st1 [] (fun _ => False) := by
  intro fuel
  induction fuel with
  | zero =>
    intro st work hg hc hm
    cases work with
    | nil => exact ⟨st, by simp [growLoop], hg, hc⟩
    | cons Pt rest => simp at hm
  | succ n ih =>
    intro st work hg hc hm
    cases work with
    | nil => exact ⟨st, by simp [growLoop], hg, hc⟩
    | cons Pt rest =>
      obtain ⟨k1, k2, k3⟩ := visitPoint_spec h0 hg hc
      simp only [growLoop]
      apply ih _ _ k1 k2
      rw [k3]
      simp only [List.length_cons] at hm
      omega

/-- When growth has finished, the cells of the new segment are exactly the
cells reachable from the seed. -/
theorem region_of_closed {img : Image} {hr : ℚ} {st0 : SegState} {c0 : Int × Int}
    {st : SegState} (h0 : BasicInv img st0) (hg : GrowInv img hr st0 c0 st [])
    (hc : ClosedExcept img hr c0 st [] (fun _ => False)) (r c : Int) :
    st.Labels r c = st.label ↔ Reach img hr (labPoint img c0.1 c0.2) st0.Labels c0 (r, c) := by
  constructor
  · exact hg.reach r c
  · intro hreach
    have hl := hg.label_nonneg h0
    have : ∀ q : Int × Int, Reach img hr (labPoint img c0.1 c0.2) st0.Labels c0 q →
        st.Labels q.1 q.2 = st.label := by
      intro q hq
      induction hq with
      | refl => exact hg.seed_label
      | @tail b q _ hedge ih =>
        obtain ⟨⟨d, hd, hqd⟩, hb, hu0, hnear⟩ := hedge
        rcases hc b.1 b.2 ih with h1 | h1 | h1
        · simp at h1
        · exact absurd h1 id
        · have hcl := h1 d hd
          rw [hqd] at hb hnear hu0 ⊢
          simp only at hb hnear hu0 ⊢
          have hge : ¬ st.Labels (b.1 + d.1) (b.2 + d.2) < 0 := fun hlt => hcl hb hlt hnear
          rcases hg.frame (b.1 + d.1) (b.2 + d.2) with h2 | ⟨_, h2⟩
          · rw [h2] at hge
            exact absurd hu0 hge
          · exact h2
    exact this (r, c) hreach

theorem finalizeMode_spec {img : Image} {hr : ℚ} {st0 : SegState} {c0 : Int × Int}
    {st : SegState} (h0 : BasicInv img st0) (hb : inBounds img c0.1 c0.2)
    (hg : GrowInv img hr st0 c0 st [])
    (hc : ClosedExcept img hr c0 st [] (fun _ => False)) :
    ∃ st1, finalizeMode st = .ok st1 ∧ SegmentSpec img hr st0 c0 st1 := by
  have hpos := memberCount_pos img st.Labels st.label c0.1 c0.2 hb hg.seed_label
  have hcount := hg.count
  have hne : ¬ (st.MemberModeCount st.label + 1 = 0) := by omega
  unfold finalizeMode
  simp only [hne, if_false]
  refine ⟨_, rfl, ?_⟩
  have hcast : ((st.MemberModeCount st.label + 1 : Int) : ℚ) =
      ((memberCount img st.Labels st.label : Nat) : ℚ) := by
    rw [hcount]
    simp
  refine
    { basic := ⟨hg.basic.label_ge, hg.basic.labels, hg.basic.writes_ok, hg.basic.writes_nodup,
        hg.basic.writes_all⟩
      label_eq := hg.label_eq
      frame := hg.frame
      seed_label := hg.seed_label
      region := fun r c => @region_of_closed img hr st0 c0 st h0 hg hc r c
      count := ?_
      count_other := ?_
      writes_eq := hg.writes_eq
      mode_l := ?_
      mode_a := ?_
      mode_b := ?_
      mode_other := ?_ }
  · simp only [setAt_same]
    exact hcount
  · intro k hk
    simp only at hk ⊢
    rw [setAt_other _ _ _ _ hk]
    exact hg.count_other k hk
  · simp only
    rw [setAt_other _ _ _ _ (by omega), setAt_other _ _ _ _ (by omega), setAt_same, hcast,
      hg.mode_l]
  · simp only
    rw [setAt_other _ _ _ _ (by omega), setAt_same, setAt_other _ _ _ _ (by omega), hcast,
      hg.mode_a]
  · simp only
    rw [setAt_same, setAt_other _ _ _ _ (by omega), setAt_other _ _ _ _ (by omega), hcast,
      hg.mode_b]
  · intro i hi
    simp only at hi ⊢
    rw [setAt_other _ _ _ _ (by omega), setAt_other _ _ _ _ (by omega),
      setAt_other _ _ _ _ (by omega)]
    exact hg.mode_other i hi

theorem unlabeledCount_lt {img : Image} {L : Int → Int → Int} {r c : Int}
    (hb : inBounds img r c) (h : 0 ≤ L r c) : unlabeledCount img L + 1 ≤ img.rows * img.cols := by
  have h1 := List.length_eq_countP_add_countP (fun c : Int × Int => decide (L c.1 c.2 < 0))
    (cells img)
  have h2 : 0 < (cells img).countP (fun a => decide ¬ (decide (L a.1 a.2 < 0)) = true) := by
    apply List.countP_pos_iff.2
    exact ⟨(r, c), (mem_cells img (r, c)).2 hb, by simpa using h⟩
  rw [cells_length] at h1
  unfold unlabeledCount
  omega

/-- The scan body at an unlabeled cell: the segment is seeded, grown within
the fuel `ROWS * COLS`, and finalized. -/
theorem segmentAt_spec {img : Image} {hr : ℚ} {st0 : SegState} {c0 : Int × Int}
    (h0 : BasicInv img st0) (hcnt : ∀ k, st0.label < k → st0.MemberModeCount k = 0)
    (hb : inBounds img c0.1 c0.2) (hu : st0.Labels c0.1 c0.2 < 0) :
    ∃ st1, segmentAt img hr st0 c0 = .ok st1 ∧ SegmentSpec img hr st0 c0 st1 := by
  have hseed : GrowInv img hr st0 c0 (seedState img st0 c0) [labPoint img c0.1 c0.2] :=
    GrowInv.grow_seed h0 hcnt hb hu
  have hclosed : ClosedExcept img hr c0 (seedState img st0 c0) [labPoint img c0.1 c0.2]
      (fun _ => False) := by
    intro r c hrc
    left
    have hl := h0.label_ge
    by_cases hc : r = c0.1 ∧ c = c0.2
    · rw [hc.1, hc.2]
      exact List.mem_cons_self _ _
    · simp only [seedState] at hrc
      rw [setAt2_other _ _ _ _ _ _ hc] at hrc
      exact absurd hrc (h0.no_label_above _ (by omega) r c)
  have hfuel : [labPoint img c0.1 c0.2].length + unlabeledCount img (seedState img st0 c0).Labels
      ≤ img.rows * img.cols := by
    have hl := h0.label_ge
    have := @unlabeledCount_lt img (seedState img st0 c0).Labels c0.1 c0.2 hb
      (by simp only [seedState, setAt2_same]; omega)
    simp only [List.length_singleton]
    omega
  obtain ⟨st2, e2, g2, c2⟩ := growLoop_spec h0 (img.rows * img.cols) _ _ hseed hclosed hfuel
  obtain ⟨st3, e3, s3⟩ := finalizeMode_spec h0 hb g2 c2
  refine ⟨st3, ?_, s3⟩
  unfold segmentAt
  rw [if_pos hu, e2]
  exact e3

/-! ## The row-major scan -/

theorem BasicInv.write_val_le {img : Image} {st : SegState} (h : BasicInv img st)
    (w : LabelWrite) (hw : w ∈ st.writes) : w.val ≤ st.label := by
  obtain ⟨_, _, h3, h4⟩ := h.writes_ok w hw
  rcases h.labels w.r w.c with h1 | ⟨_, _, h2⟩
  · omega
  · omega

theorem ScanInv.scan_init (img : Image) (hr : ℚ) : ScanInv img hr [] initState := by
  refine ⟨BasicInv.basic_init img, ?_, ?_, ?_, ?_, ?_, ?_, ?_, ?_, ?_⟩
  · intro k h1 h2
    simp only [initState] at h2
    omega
  · intro k _
    rfl
  · intro c hc
    simp at hc
  · intro k h1 h2
    simp only [initState] at h2
    omega
  · intro w1 h1
    simp [initState] at h1
  · intro w h1
    simp [initState] at h1
  · intro w1 h1
    simp [initState] at h1
  · intro w1 h1
    simp [initState] at h1
  · intro k h1 h2
    simp only [initState] at h2
    omega

theorem memberCount_congr (img : Image) (L L1 : Int → Int → Int) (k : Int)
    (h : ∀ r c, L1 r c = k ↔ L r c = k) : memberCount img L1 k = memberCount img L k := by
  unfold memberCount
  apply List.countP_congr
  rintro ⟨r, c⟩ _
  simp only [decide_eq_true_eq]
  exact h r c

theorem memberSum_congr (img : Image) (L L1 : Int → Int → Int) (k : Int) (f : Point5D → ℚ)
    (h : ∀ r c, L1 r c = k ↔ L r c = k) : memberSum img L1 k f = memberSum img L k f := by
  unfold memberSum
  congr 2
  apply List.filter_congr
  rintro ⟨r, c⟩ _
  simp only [decide_eq_decide]
  exact h r c

theorem reflTransGen_congr {α : Type} {R S : α → α → Prop} (h : ∀ a b, R a b ↔ S a b)
    (a b : α) : Relation.ReflTransGen R a b ↔ Relation.ReflTransGen S a b :=
  ⟨fun hr => hr.mono (fun x y hxy => (h x y).1 hxy),
   fun hs => hs.mono (fun x y hxy => (h x y).2 hxy)⟩

theorem SegmentSpec.label_iff {img : Image} {hr : ℚ} {st0 : SegState} {c0 : Int × Int}
    {st : SegState} (hs : SegmentSpec img hr st0 c0 st) {k : Int} (hk0 : 0 ≤ k)
    (hk : k ≠ st.label) (r c : Int) : st.Labels r c = k ↔ st0.Labels r c = k := by
  rcases hs.frame r c with h1 | ⟨h1, h2⟩
  · rw [h1]
  · constructor
    · intro h; rw [h2] at h; exact absurd h.symm hk
    · intro h; omega

theorem ScanInv.step_new {img : Image} {hr : ℚ} {pre post : List (Int × Int)}
    {c0 : Int × Int} {st st1 : SegState} (hcells : pre ++ c0 :: post = cells img)
    (hinv : ScanInv img hr pre st) (hs : SegmentSpec img hr st c0 st1) :
    ScanInv img hr (pre ++ [c0]) st1 := by
  have hmem : c0 ∈ cells img := by
    rw [← hcells]; simp
  have hb : inBounds img c0.1 c0.2 := (mem_cells img c0).1 hmem
  have hsorted := cells_pairwise img
  rw [← hcells] at hsorted
  have hpre_lt : ∀ a ∈ pre, rowMajorLt a c0 := by
    intro a ha
    exact (List.pairwise_append.1 hsorted).2.2 a ha c0 (List.mem_cons_self _ _)
  have hpost_lt : ∀ a ∈ post, rowMajorLt c0 a := by
    intro a ha
    exact (List.pairwise_cons.1 (List.pairwise_append.1 hsorted).2.1).1 a ha
  have hl := hinv.basic.label_ge
  have hlab := hs.label_eq
  obtain ⟨news, hw, hnews⟩ := hs.writes_eq
  have hold_mem : ∀ w ∈ st.writes, w ∈ st1.writes := by
    intro w hw'
    rw [hw]
    exact List.mem_append_right _ (List.mem_cons_of_mem _ hw')
  have hseed_mem : (⟨c0.1, c0.2, st.Labels c0.1 c0.2, st1.label, true⟩ : LabelWrite)
      ∈ st1.writes := by
    rw [hw]
    exact List.mem_append_right _ (List.mem_cons_self _ _)
  have hseed_cases : ∀ w ∈ st1.writes, w.seed = true →
      w = ⟨c0.1, c0.2, st.Labels c0.1 c0.2, st1.label, true⟩ ∨ w ∈ st.writes := by
    intro w hw' hsd
    rw [hw] at hw'
    rcases List.mem_append.mp hw' with h1 | h1
    · have := (hnews w h1).1
      rw [this] at hsd
      exact absurd hsd (by simp)
    · rcases List.mem_cons.mp h1 with h2 | h2
      · exact Or.inl h2
      · exact Or.inr h2
  have hnew_first : ∀ r c, inBounds img r c → st1.Labels r c = st1.label →
      (r, c) = (c0.1, c0.2) ∨ rowMajorLt (c0.1, c0.2) (r, c) := by
    intro r c hbrc hrc
    have hneg : st.Labels r c < 0 := by
      rcases hs.frame r c with h1 | ⟨h1, _⟩
      · have := hinv.basic.no_label_above st1.label (by omega) r c
        rw [← h1] at this
        exact absurd hrc this
      · exact h1
    have hin : (r, c) ∈ pre ++ c0 :: post := by
      rw [hcells]
      exact (mem_cells img (r, c)).2 hbrc
    rcases List.mem_append.mp hin with h1 | h1
    · have := hinv.done (r, c) h1
      simp only at this
      omega
    · rcases List.mem_cons.mp h1 with h2 | h2
      · left; rw [h2]
      · right; exact hpost_lt _ h2
  refine
    { basic := hs.basic
      count := ?_
      count_zero := ?_
      done := ?_
      seed_exists := ?_
      seed_unique := ?_
      seed_first := ?_
      seed_order := ?_
      region := ?_
      mode := ?_ }
  · intro k hk0 hk1
    by_cases hk : k = st1.label
    · rw [hk]; exact hs.count
    · rw [hs.count_other k hk, hinv.count k hk0 (by omega),
        memberCount_congr img st.Labels st1.Labels k (hs.label_iff hk0 hk)]
  · intro k hk
    rw [hs.count_other k (by omega)]
    exact hinv.count_zero k (by omega)
  · intro c hc
    rcases List.mem_append.mp hc with h1 | h1
    · have := hinv.done c h1
      rcases hs.frame c.1 c.2 with h2 | ⟨h2, _⟩
      · rw [h2]; exact this
      · omega
    · rw [List.mem_singleton] at h1
      rw [h1, hs.seed_label]
      omega
  · intro k hk0 hk1
    by_cases hk : k = st1.label
    · exact ⟨_, hseed_mem, rfl, hk.symm⟩
    · obtain ⟨w, hw1, hw2⟩ := hinv.seed_exists k hk0 (by omega)
      exact ⟨w, hold_mem w hw1, hw2⟩
  · intro w1 hw1 w2 hw2 hs1 hs2 hv
    rcases hseed_cases w1 hw1 hs1 with h1 | h1 <;> rcases hseed_cases w2 hw2 hs2 with h2 | h2
    · rw [h1, h2]
    · have := hinv.basic.write_val_le w2 h2
      rw [h1] at hv
      simp only at hv
      omega
    · have := hinv.basic.write_val_le w1 h1
      rw [h2] at hv
      simp only at hv
      omega
    · exact hinv.seed_unique w1 h1 w2 h2 hs1 hs2 hv
  · intro w hw' hsd
    rcases hseed_cases w hw' hsd with h1 | h1
    · rw [h1]
      exact ⟨by simp, hnew_first⟩
    · obtain ⟨k1, k2⟩ := hinv.seed_first w h1 hsd
      refine ⟨List.mem_append_left _ k1, ?_⟩
      intro r c hbrc hrc
      have hle := hinv.basic.write_val_le w h1
      have hge := (hinv.basic.writes_ok w h1).2.2.1
      exact k2 r c hbrc ((hs.label_iff hge (by omega) r c).1 hrc)
  · intro w1 hw1 w2 hw2 hs1 hs2 hv
    rcases hseed_cases w1 hw1 hs1 with h1 | h1 <;> rcases hseed_cases w2 hw2 hs2 with h2 | h2
    · rw [h1, h2] at hv
      simp only at hv
      omega
    · have := hinv.basic.write_val_le w2 h2
      rw [h1] at hv
      simp only at hv
      omega
    · rw [h2]
      exact hpre_lt _ (hinv.seed_first w1 h1 hs1).1
    · exact hinv.seed_order w1 h1 w2 h2 hs1 hs2 hv
  · intro w hw' hsd r c
    rcases hseed_cases w hw' hsd with h1 | h1
    · rw [h1]
      simp only
      rw [hs.region r c]
      apply reflTransGen_congr
      intro a b
      unfold growEdge segEdge
      have hiff : st.Labels b.1 b.2 < 0 ↔ ¬ (0 ≤ st1.Labels b.1 b.2 ∧
          st1.Labels b.1 b.2 < st1.label) := by
        rcases hs.frame b.1 b.2 with h2 | ⟨h2, h3⟩
        · rw [h2]
          rcases hinv.basic.labels b.1 b.2 with h4 | ⟨_, h4, h5⟩
          · constructor
            · intro _; omega
            · intro _; omega
          · constructor
            · intro _; omega
            · intro hn; exact absurd ⟨h4, by omega⟩ hn
        · constructor
          · intro _; omega
          · intro _; exact h2
      rw [hiff]
    · have hle := hinv.basic.write_val_le w h1
      have hge := (hinv.basic.writes_ok w h1).2.2.1
      rw [hs.label_iff hge (by omega) r c, hinv.region w h1 hsd r c]
      apply reflTransGen_congr
      intro a b
      unfold segEdge
      have hiff : (0 ≤ st.Labels b.1 b.2 ∧ st.Labels b.1 b.2 < w.val) ↔
          (0 ≤ st1.Labels b.1 b.2 ∧ st1.Labels b.1 b.2 < w.val) := by
        rcases hs.frame b.1 b.2 with h2 | ⟨h2, h3⟩
        · rw [h2]
        · constructor
          · intro h; omega
          · intro h; omega
      rw [hiff]
  · intro k hk0 hk1
    by_cases hk : k = st1.label
    · rw [hk]
      exact ⟨hs.mode_l, hs.mode_a, hs.mode_b⟩
    · have hm := hinv.mode k hk0 (by omega)
      have hlt : k < st1.label := by omega
      rw [hs.mode_other _ (by omega), hs.mode_other _ (by omega), hs.mode_other _ (by omega),
        memberCount_congr img st.Labels st1.Labels k (hs.label_iff hk0 hk),
        memberSum_congr img st.Labels st1.Labels k _ (hs.label_iff hk0 hk),
        memberSum_congr img st.Labels st1.Labels k _ (hs.label_iff hk0 hk),
        memberSum_congr img st.Labels st1.Labels k _ (hs.label_iff hk0 hk)]
      exact hm

theorem ScanInv.step_skip {img : Image} {hr : ℚ} {pre : List (Int × Int)} {c0 : Int × Int}
    {st : SegState} (hinv : ScanInv img hr pre st) (hu : ¬ st.Labels c0.1 c0.2 < 0) :
    ScanInv img hr (pre ++ [c0]) st := by
  refine
    { basic := hinv.basic
      count := hinv.count
      count_zero := hinv.count_zero
      done := ?_
      seed_exists := hinv.seed_exists
      seed_unique := hinv.seed_unique
      seed_first := ?_
      seed_order := hinv.seed_order
      region := hinv.region
      mode := hinv.mode }
  · intro c hc
    rcases List.mem_append.mp hc with h1 | h1
    · exact hinv.done c h1
    · rw [List.mem_singleton] at h1
      rw [h1]
      omega
  · intro w hw hsd
    obtain ⟨k1, k2⟩ := hinv.seed_first w hw hsd
    exact ⟨List.mem_append_left _ k1, k2⟩

theorem segmentAt_scan {img : Image} {hr : ℚ} {pre post : List (Int × Int)} {c0 : Int × Int}
    {st : SegState} (hcells : pre ++ c0 :: post = cells img) (hinv : ScanInv img hr pre st) :
    ∃ st1, segmentAt img hr st c0 = .ok st1 ∧ ScanInv img hr (pre ++ [c0]) st1 := by
  have hmem : c0 ∈ cells img := by
    rw [← hcells]; simp
  have hb : inBounds img c0.1 c0.2 := (mem_cells img c0).1 hmem
  by_cases hu : st.Labels c0.1 c0.2 < 0
  · obtain ⟨st1, e1, hs⟩ := @segmentAt_spec img hr st c0 hinv.basic hinv.count_zero hb hu
    exact ⟨st1, e1, ScanInv.step_new hcells hinv hs⟩
  · exact ⟨st, by unfold segmentAt; rw [if_neg hu], hinv.step_skip hu⟩

theorem scanCells_spec (img : Image) (hr : ℚ) :
    ∀ (post pre : List (Int × Int)) (st : SegState), pre ++ post = cells img →
      ScanInv img hr pre st →
      ∃ st1, scanCells img hr post st = .ok st1 ∧ ScanInv img hr (cells img) st1 := by
  intro post
  induction post with
  | nil =>
    intro pre st hcells hinv
    rw [List.append_nil] at hcells
    exact ⟨st, rfl, hcells ▸ hinv⟩
  | cons c0 post ih =>
    intro pre st hcells hinv
    obtain ⟨st1, e1, h1⟩ := @segmentAt_scan img hr pre post c0 st hcells hinv
    obtain ⟨st2, e2, h2⟩ := ih (pre ++ [c0]) st1 (by simpa using hcells) h1
    refine ⟨st2, ?_, h2⟩
    simp only [scanCells, e1]
    exact e2

/-- The labeling pass returns a state, and the scan invariant holds in it
with every cell scanned. -/
theorem labelPass_spec (img : Image) (hr : ℚ) :
    ∃ st, labelPass img hr = .ok st ∧ ScanInv img hr (cells img) st :=
  scanCells_spec img hr (cells img) [] initState (by simp) (ScanInv.scan_init img hr)

/-! ## Consequences for the finished labeling pass -/

theorem sum_countP_eq_length {α : Type} (l : List α) (g : α → Int) (N : Nat)
    (h : ∀ a ∈ l, 0 ≤ g a ∧ g a < N) :
    ∑ k ∈ Finset.range N, l.countP (fun a => decide (g a = (k : Int))) = l.length := by
  induction l with
  | nil => simp
  | cons a l ih =>
    have h1 := ih (fun b hb => h b (List.mem_cons_of_mem _ hb))
    obtain ⟨ha0, ha1⟩ := h a (List.mem_cons_self _ _)
    simp only [List.countP_cons, Finset.sum_add_distrib, h1, List.length_cons]
    congr 1
    rw [Finset.sum_eq_single (g a).toNat]
    · simp [Int.toNat_of_nonneg ha0]
    · intro b _ hb
      have : ¬ (g a = (b : Int)) := by
        intro hgb
        apply hb
        rw [hgb]
        simp
      simp [this]
    · intro hnot
      exfalso
      apply hnot
      rw [Finset.mem_range]
      omega

theorem ScanInv.label_range {img : Image} {hr : ℚ} {st : SegState} (h : ScanInv img hr (cells img) st)
    (r c : Int) (hb : inBounds img r c) : 0 ≤ st.Labels r c ∧ st.Labels r c < st.numSegments := by
  have h1 := h.done (r, c) ((mem_cells img (r, c)).2 hb)
  simp only at h1
  refine ⟨h1, ?_⟩
  unfold SegState.numSegments
  rcases h.basic.labels r c with h2 | ⟨_, _, h2⟩ <;> omega

theorem ScanInv.count_all {img : Image} {hr : ℚ} {pre : List (Int × Int)} {st : SegState}
    (h : ScanInv img hr pre st) (k : Int) (hk : 0 ≤ k) :
    st.MemberModeCount k = memberCount img st.Labels k := by
  by_cases hk1 : k ≤ st.label
  · exact h.count k hk hk1
  · rw [h.count_zero k (by omega),
      memberCount_eq_zero img _ _ (fun r c _ => h.basic.no_label_above k (by omega) r c)]
    simp

theorem ScanInv.count_pos {img : Image} {hr : ℚ} {pre : List (Int × Int)} {st : SegState}
    (h : ScanInv img hr pre st) (k : Int) (hk : 0 ≤ k) (hk1 : k ≤ st.label) :
    1 ≤ memberCount img st.Labels k := by
  obtain ⟨w, hw, _, hv⟩ := h.seed_exists k hk hk1
  obtain ⟨hb, _, _, hl⟩ := h.basic.writes_ok w hw
  exact memberCount_pos img _ _ w.r w.c hb (hl.trans hv)

theorem ScanInv.sum_counts {img : Image} {hr : ℚ} {st : SegState} (h : ScanInv img hr (cells img) st) :
    ∑ k ∈ Finset.range st.numSegments.toNat, memberCount img st.Labels (k : Int) =
      img.rows * img.cols := by
  have hl := h.basic.label_ge
  have := sum_countP_eq_length (cells img) (fun c => st.Labels c.1 c.2) st.numSegments.toNat
    (by
      rintro ⟨r, c⟩ hc
      have := h.label_range r c ((mem_cells img (r, c)).1 hc)
      unfold SegState.numSegments at this ⊢
      simp only
      omega)
  rw [cells_length] at this
  exact this

theorem ScanInv.numSegments_le {img : Image} {hr : ℚ} {st : SegState} (h : ScanInv img hr (cells img) st) :
    st.numSegments.toNat ≤ img.rows * img.cols := by
  rw [← h.sum_counts]
  have hl := h.basic.label_ge
  calc st.numSegments.toNat
      = ∑ _k ∈ Finset.range st.numSegments.toNat, 1 := by simp
    _ ≤ ∑ k ∈ Finset.range st.numSegments.toNat, memberCount img st.Labels (k : Int) := by
        apply Finset.sum_le_sum
        intro k hk
        rw [Finset.mem_range] at hk
        apply h.count_pos
        · omega
        · unfold SegState.numSegments at hk
          omega

/-- C5. The labeling pass returns on every image and every `hr`; afterwards
no cell of the image holds a negative label, `MemberModeCount[k]` is the
number of cells carrying label `k` for every index `k >= 0`, and the counts of
the allocated labels `0 .. N-1` add up to `ROWS * COLS`. -/
theorem C5_labels_total_counts_partition (img : Image) (hr : ℚ) :
    ∃ st, labelPass img hr = .ok st ∧
      (∀ r c, inBounds img r c → 0 ≤ st.Labels r c) ∧
      (∀ k, 0 ≤ k → st.MemberModeCount k = (memberCount img st.Labels k : Int)) ∧
      ∑ k ∈ Finset.range st.numSegments.toNat, st.MemberModeCount (k : Int) =
        ((img.rows * img.cols : Nat) : Int) := by
  obtain ⟨st, e, h⟩ := labelPass_spec img hr
  refine ⟨st, e, fun r c hb => (h.label_range r c hb).1, fun k hk => h.count_all k hk, ?_⟩
  rw [← h.sum_counts]
  push_cast
  apply Finset.sum_congr rfl
  intro k _
  exact h.count_all k (by omega)

/-- C6. The number of segments allocated by the labeling pass (final label
counter + 1) is at most `ROWS * COLS`; hence for every value `l` the counter
takes (`0 <= l <= label`) the indices `l*3+0 .. l*3+2` lie inside `Mode`
(`ROWS*COLS*3` entries) and `l` lies inside `MemberModeCount` (`ROWS*COLS`
entries). -/
theorem C6_segments_le_cells (img : Image) (hr : ℚ) :
    ∃ st, labelPass img hr = .ok st ∧
      0 ≤ st.numSegments ∧
      st.numSegments ≤ ((img.rows * img.cols : Nat) : Int) ∧
      ∀ l, 0 ≤ l → l ≤ st.label →
        (0 ≤ l * 3 + 0 ∧ l * 3 + 2 < ((img.rows * img.cols * 3 : Nat) : Int)) ∧
        (0 ≤ l ∧ l < ((img.rows * img.cols : Nat) : Int)) := by
  obtain ⟨st, e, h⟩ := labelPass_spec img hr
  have hl := h.basic.label_ge
  have hle := h.numSegments_le
  have h0 : 0 ≤ st.numSegments := by unfold SegState.numSegments; omega
  have h1 : st.numSegments ≤ ((img.rows * img.cols : Nat) : Int) := by omega
  refine ⟨st, e, h0, h1, ?_⟩
  intro l hl0 hl1
  unfold SegState.numSegments at h1
  push_cast at h1 ⊢
  omega

/-- C7. Labels are allocated by a counter starting at 0 in row-major
discovery order: after the labeling pass with `N` segments every cell holds a
label in `0 .. N-1` and every such label is held by some cell; on a non-empty
image cell `(0,0)` holds label 0; each label `k` has exactly one seeding write,
its cell holds `k` and comes first in row-major order among the cells holding
`k`; and the seed of `k` precedes the seed of `k+1` in row-major order. -/
theorem C7_row_major_label_allocation (img : Image) (hr : ℚ) :
    ∃ st, labelPass img hr = .ok st ∧
      (∀ r c, inBounds img r c → 0 ≤ st.Labels r c ∧ st.Labels r c < st.numSegments) ∧
      (∀ k, 0 ≤ k → k < st.numSegments → ∃ r c, inBounds img r c ∧ st.Labels r c = k) ∧
      (0 < img.rows → 0 < img.cols → st.Labels 0 0 = 0) ∧
      (∀ k, 0 ≤ k → k < st.numSegments →
        ∃ w ∈ st.writes, w.seed = true ∧ w.val = k ∧
          (∀ w1 ∈ st.writes, w1.seed = true → w1.val = k → w1 = w) ∧
          inBounds img w.r w.c ∧ st.Labels w.r w.c = k ∧
          ∀ r c, inBounds img r c → st.Labels r c = k →
            (r, c) = (w.r, w.c) ∨ rowMajorLt (w.r, w.c) (r, c)) ∧
      (∀ w1 ∈ st.writes, ∀ w2 ∈ st.writes, w1.seed = true → w2.seed = true →
        w2.val = w1.val + 1 → rowMajorLt (w1.r, w1.c) (w2.r, w2.c)) := by
  obtain ⟨st, e, h⟩ := labelPass_spec img hr
  have hseed : ∀ k, 0 ≤ k → k < st.numSegments →
      ∃ w ∈ st.writes, w.seed = true ∧ w.val = k ∧
        (∀ w1 ∈ st.writes, w1.seed = true → w1.val = k → w1 = w) ∧
        inBounds img w.r w.c ∧ st.Labels w.r w.c = k ∧
        ∀ r c, inBounds img r c → st.Labels r c = k →
          (r, c) = (w.r, w.c) ∨ rowMajorLt (w.r, w.c) (r, c) := by
    intro k hk0 hk1
    unfold SegState.numSegments at hk1
    obtain ⟨w, hw, hs, hv⟩ := h.seed_exists k hk0 (by omega)
    obtain ⟨hb, _, _, hl⟩ := h.basic.writes_ok w hw
    refine ⟨w, hw, hs, hv, ?_, hb, hl.trans hv, ?_⟩
    · intro w1 hw1 hs1 hv1
      exact h.seed_unique w1 hw1 w hw hs1 hs (hv1.trans hv.symm)
    · intro r c hbrc hrc
      exact (h.seed_first w hw hs).2 r c hbrc (hrc.trans hv.symm)
  refine ⟨st, e, h.label_range, ?_, ?_, hseed, ?_⟩
  · intro k hk0 hk1
    obtain ⟨w, _, _, _, _, hb, hl, _⟩ := hseed k hk0 hk1
    exact ⟨w.r, w.c, hb, hl⟩
  · intro hr0 hc0
    have hb : inBounds img 0 0 := ⟨le_refl _, le_refl _, by omega, by omega⟩
    obtain ⟨hge, hlt⟩ := h.label_range 0 0 hb
    by_contra hne
    have hpos : 0 < st.Labels 0 0 := by omega
    obtain ⟨w0, hw0, hs0, hv0, _, hb0, _, _⟩ := hseed 0 (le_refl _) (by omega)
    obtain ⟨wk, hwk, hsk, hvk, _, _, _, hfirst⟩ := hseed (st.Labels 0 0) hge hlt
    have hord := h.seed_order w0 hw0 wk hwk hs0 hsk (by omega)
    have hk := hfirst 0 0 hb rfl
    obtain ⟨a0, a1, _, _⟩ := hb0
    unfold rowMajorLt at hord hk
    simp only [Prod.mk.injEq] at hord hk
    omega
  · intro w1 hw1 w2 hw2 hs1 hs2 hv
    exact h.seed_order w1 hw1 w2 hw2 hs1 hs2 (by omega)

/-! ## Write-once label grid -/

theorem neighbourStep_frame (img : Image) (hr : ℚ) (PtCur Pt : Point5D)
    (s : SegState × List Point5D) (d : Int × Int) (r c : Int) (h : 0 ≤ s.1.Labels r c) :
    (neighbourStep img hr PtCur Pt s d).1.Labels r c = s.1.Labels r c := by
  unfold neighbourStep
  simp only
  split
  · rename_i hcond
    split
    · simp only [joinSegment]
      rw [setAt2_other]
      rintro ⟨rfl, rfl⟩
      omega
    · rfl
  · rfl

theorem visitPoint_frame (img : Image) (hr : ℚ) (PtCur Pt : Point5D) (st : SegState)
    (rest : List Point5D) (r c : Int) (h : 0 ≤ st.Labels r c) :
    (visitPoint img hr PtCur st Pt rest).1.Labels r c = st.Labels r c := by
  unfold visitPoint
  apply foldl_inv (neighbourStep img hr PtCur Pt)
    (fun s => s.1.Labels r c = st.Labels r c) dxdy
  · intro s d _ hs
    rw [neighbourStep_frame img hr PtCur Pt s d r c (by rw [hs]; exact h)]
    exact hs
  · rfl

theorem growLoop_frame (img : Image) (hr : ℚ) (PtCur : Point5D) :
    ∀ (fuel : Nat) (st : SegState) (work : List Point5D) (st1 : SegState),
      growLoop img hr PtCur fuel st work = .ok st1 →
      ∀ r c, 0 ≤ st.Labels r c → st1.Labels r c = st.Labels r c := by
  intro fuel
  induction fuel with
  | zero =>
    intro st work st1 he r c _
    cases work with
    | nil =>
      simp only [growLoop, Except.ok.injEq] at he
      rw [he]
    | cons Pt rest => simp [growLoop] at he
  | succ n ih =>
    intro st work st1 he r c h
    cases work with
    | nil =>
      simp only [growLoop, Except.ok.injEq] at he
      rw [he]
    | cons Pt rest =>
      simp only [growLoop] at he
      have hv := visitPoint_frame img hr PtCur Pt st rest r c h
      rw [ih _ _ _ he r c (by rw [hv]; exact h), hv]

theorem segmentAt_frame (img : Image) (hr : ℚ) (st : SegState) (c0 : Int × Int)
    (st1 : SegState) (he : segmentAt img hr st c0 = .ok st1) (r c : Int)
    (h : 0 ≤ st.Labels r c) : st1.Labels r c = st.Labels r c := by
  unfold segmentAt at he
  split at he
  · rename_i hu
    split at he
    · simp at he
    · rename_i st2 hg
      have hseed : (seedState img st c0).Labels r c = st.Labels r c := by
        simp only [seedState]
        rw [setAt2_other]
        rintro ⟨rfl, rfl⟩
        omega
      have h2 := growLoop_frame img hr _ _ _ _ _ hg r c (by rw [hseed]; exact h)
      unfold finalizeMode at he
      simp only at he
      split at he
      · simp at he
      · simp only [Except.ok.injEq] at he
        rw [← he]
        simp only
        rw [h2, hseed]
  · simp only [Except.ok.injEq] at he
    rw [he]

/-- C9. Write-once label grid.  An execution of the neighbour body and an
execution of the whole scan body (seeding, growth, finalization) leave every
cell unchanged whose label is already non-negative, from any state.  In the
finished labeling pass every recorded assignment to `Labels` was made to a
cell of the image that held a negative label at that moment and gave it a
non-negative label, which the cell still holds; no cell was assigned twice;
and every cell of the image was assigned. -/
theorem C9_labels_write_once (img : Image) (hr : ℚ) :
    (∀ (PtCur Pt : Point5D) (s : SegState × List Point5D) (d : Int × Int) (r c : Int),
        0 ≤ s.1.Labels r c →
        (neighbourStep img hr PtCur Pt s d).1.Labels r c = s.1.Labels r c) ∧
    (∀ (st : SegState) (c0 : Int × Int) (st1 : SegState),
        segmentAt img hr st c0 = .ok st1 →
        ∀ r c, 0 ≤ st.Labels r c → st1.Labels r c = st.Labels r c) ∧
    ∃ st, labelPass img hr = .ok st ∧
      (∀ w ∈ st.writes, inBounds img w.r w.c ∧ w.old < 0 ∧ 0 ≤ w.val ∧
        st.Labels w.r w.c = w.val) ∧
      (st.writes.map (fun w => (w.r, w.c))).Nodup ∧
      (∀ r c, inBounds img r c → ∃ w ∈ st.writes, w.r = r ∧ w.c = c) := by
  refine ⟨neighbourStep_frame img hr, segmentAt_frame img hr, ?_⟩
  obtain ⟨st, e, h⟩ := labelPass_spec img hr
  refine ⟨st, e, h.basic.writes_ok, h.basic.writes_nodup, ?_⟩
  intro r c hb
  exact h.basic.writes_all r c (h.label_range r c hb).1

/-! ## The search window -/

theorem mem_intRange (lo hi x : Int) : x ∈ intRange lo hi ↔ lo ≤ x ∧ x < hi := by
  unfold intRange
  simp only [List.mem_map, List.mem_range]
  constructor
  · rintro ⟨k, hk, rfl⟩
    omega
  · rintro ⟨h1, h2⟩
    exact ⟨(x - lo).toNat, by omega, by omega⟩

theorem mem_window (img : Image) (hs : ℚ) (i j : Int) (c : Int × Int) :
    c ∈ window img hs i j ↔
      (max 0 (i - truncToInt hs) ≤ c.1 ∧ c.1 < min (img.rows : Int) (i + truncToInt hs)) ∧
      (max 0 (j - truncToInt hs) ≤ c.2 ∧ c.2 < min (img.cols : Int) (j + truncToInt hs)) := by
  obtain ⟨r, k⟩ := c
  unfold window
  simp only [List.mem_flatMap, List.mem_map, mem_intRange, Prod.mk.injEq]
  constructor
  · rintro ⟨hx, h1, hy, h2, rfl, rfl⟩
    exact ⟨h1, h2⟩
  · rintro ⟨h1, h2⟩
    exact ⟨r, h1, k, h2, rfl, rfl⟩

theorem window_inBounds (img : Image) (hs : ℚ) (i j : Int) (c : Int × Int)
    (h : c ∈ window img hs i j) : inBounds img c.1 c.2 := by
  rw [mem_window] at h
  unfold inBounds
  omega

theorem self_mem_window (img : Image) (hs : ℚ) (i j : Int) (hb : inBounds img i j)
    (hhs : 1 ≤ truncToInt hs) : (i, j) ∈ window img hs i j := by
  rw [mem_window]
  unfold inBounds at hb
  simp only
  omega

theorem window_eq_nil (img : Image) (hs : ℚ) (i j : Int) (hhs : truncToInt hs ≤ 0) :
    window img hs i j = [] := by
  apply List.eq_nil_iff_forall_not_mem.2
  intro c hc
  rw [mem_window] at hc
  omega

/-! ## The accumulation loop -/

theorem foldl_accumStep_snd (img : Image) (hr : ℚ) (P : Point5D) :
    ∀ (l : List (Int × Int)) (acc : Point5D × Nat),
      (l.foldl (accumStep img hr P) acc).2 = acc.2 + (l.filter (inKernel img hr P)).length := by
  intro l
  induction l with
  | nil => intro acc; simp
  | cons c l ih =>
    intro acc
    rw [List.foldl_cons, ih, List.filter_cons]
    unfold accumStep inKernel
    by_cases h : sqrtLt ((labPoint img c.1 c.2).MSPoint5DColorDistanceSq P) hr = true
    · simp only [h, if_true, List.length_cons]
      omega
    · simp only [h, if_false]
      simp

theorem foldl_accumStep_fst (img : Image) (hr : ℚ) (P : Point5D) (f : Point5D → ℚ)
    (hf : ∀ p q : Point5D, f (p.MSPoint5DAccum q) = f p + f q) :
    ∀ (l : List (Int × Int)) (acc : Point5D × Nat),
      f (l.foldl (accumStep img hr P) acc).1 =
        f acc.1 + ((l.filter (inKernel img hr P)).map
          (fun c => f (labPoint img c.1 c.2))).sum := by
  intro l
  induction l with
  | nil => intro acc; simp
  | cons c l ih =>
    intro acc
    rw [List.foldl_cons, ih, List.filter_cons]
    unfold accumStep inKernel
    by_cases h : sqrtLt ((labPoint img c.1 c.2).MSPoint5DColorDistanceSq P) hr = true
    · simp only [h, if_true, List.map_cons, List.sum_cons, hf]
      ring
    · simp only [h, if_false]
      simp

theorem accumulate_snd (img : Image) (hs hr : ℚ) (i j : Int) (P : Point5D) :
    (accumulate img hs hr i j P).2 = (kernelCells img hs hr i j P).length := by
  unfold accumulate kernelCells
  rw [foldl_accumStep_snd]
  simp

theorem accumulate_l (img : Image) (hs hr : ℚ) (i j : Int) (P : Point5D) :
    (accumulate img hs hr i j P).1.l =
      ((kernelCells img hs hr i j P).map (fun c => (labPoint img c.1 c.2).l)).sum := by
  unfold accumulate kernelCells
  rw [foldl_accumStep_fst img hr P Point5D.l (fun _ _ => rfl)]
  simp [Point5D.MSPOint5DSet]

theorem accumulate_a (img : Image) (hs hr : ℚ) (i j : Int) (P : Point5D) :
    (accumulate img hs hr i j P).1.a =
      ((kernelCells img hs hr i j P).map (fun c => (labPoint img c.1 c.2).a)).sum := by
  unfold accumulate kernelCells
  rw [foldl_accumStep_fst img hr P Point5D.a (fun _ _ => rfl)]
  simp [Point5D.MSPOint5DSet]

theorem accumulate_b (img : Image) (hs hr : ℚ) (i j : Int) (P : Point5D) :
    (accumulate img hs hr i j P).1.b =
      ((kernelCells img hs hr i j P).map (fun c => (labPoint img c.1 c.2).b)).sum := by
  unfold accumulate kernelCells
  rw [foldl_accumStep_fst img hr P Point5D.b (fun _ _ => rfl)]
  simp [Point5D.MSPOint5DSet]

theorem mem_kernelCells (img : Image) (hs hr : ℚ) (i j : Int) (P : Point5D) (c : Int × Int) :
    c ∈ kernelCells img hs hr i j P ↔ c ∈ window img hs i j ∧ inKernel img hr P c = true := by
  unfold kernelCells
  rw [List.mem_filter]

theorem inKernel_iff (img : Image) (hr : ℚ) (P : Point5D) (c : Int × Int) :
    inKernel img hr P c = true ↔
      0 < hr ∧ (labPoint img c.1 c.2).MSPoint5DColorDistanceSq P < hr * hr := by
  unfold inKernel sqrtLt
  simp

theorem meanShiftStep_ok (img : Image) (hs hr : ℚ) (i j : Int) (P : Point5D)
    (h : kernelCells img hs hr i j P ≠ []) :
    meanShiftStep img hs hr i j P =
      .ok (P.MSPoint5DCopy ((accumulate img hs hr i j P).1.MSPoint5DScale
        (1 / ((kernelCells img hs hr i j P).length : ℚ)))) := by
  unfold meanShiftStep
  have hne : ¬ ((accumulate img hs hr i j P).2 = 0) := by
    rw [accumulate_snd]
    intro h0
    exact h (List.length_eq_zero.1 h0)
  simp only [hne, if_false]
  rw [accumulate_snd]

theorem meanShiftStep_error (img : Image) (hs hr : ℚ) (i j : Int) (P : Point5D)
    (h : kernelCells img hs hr i j P = []) :
    meanShiftStep img hs hr i j P = .error .divisionByZero := by
  unfold meanShiftStep
  have h0 : (accumulate img hs hr i j P).2 = 0 := by
    rw [accumulate_snd, h]
    rfl
  simp only [h0, if_true]

/-- With an empty window or a non-positive colour bandwidth no cell passes
the test. -/
theorem kernelCells_eq_nil (img : Image) (hs hr : ℚ) (i j : Int) (P : Point5D)
    (h : truncToInt hs ≤ 0 ∨ hr ≤ 0) : kernelCells img hs hr i j P = [] := by
  rcases h with h | h
  · unfold kernelCells
    rw [window_eq_nil img hs i j h]
    rfl
  · apply List.eq_nil_iff_forall_not_mem.2
    intro c hc
    rw [mem_kernelCells, inKernel_iff] at hc
    exact absurd hc.2.1 (not_lt.2 h)

/-! ## The mean of the kernel stays within the kernel's reach -/

theorem list_sum_sq_sub (l : List ℚ) (p : ℚ) :
    (l.map (fun x => (x - p) * (x - p))).sum =
      (l.map (fun x => x * x)).sum - 2 * p * l.sum + (l.length : ℚ) * p * p := by
  induction l with
  | nil => simp
  | cons x l ih =>
    simp only [List.map_cons, List.sum_cons, List.length_cons, ih]
    push_cast
    ring

theorem list_sum_lt_of_forall_lt {α : Type} (l : List α) (hn : l ≠ []) (g : α → ℚ) (B : ℚ)
    (h : ∀ x ∈ l, g x < B) : (l.map g).sum < (l.length : ℚ) * B := by
  induction l with
  | nil => exact absurd rfl hn
  | cons x l ih =>
    by_cases hl : l = []
    · subst hl
      simpa using h x (List.mem_cons_self _ _)
    · have h1 := ih hl (fun y hy => h y (List.mem_cons_of_mem _ hy))
      have h2 := h x (List.mem_cons_self _ _)
      simp only [List.map_cons, List.sum_cons, List.length_cons]
      push_cast
      linarith

theorem sum_colorDistSq (img : Image) (S : List (Int × Int)) (Q : Point5D) :
    (S.map (fun c => (labPoint img c.1 c.2).MSPoint5DColorDistanceSq Q)).sum =
      ((S.map (fun c => (labPoint img c.1 c.2).l)).map (fun x => (x - Q.l) * (x - Q.l))).sum +
      ((S.map (fun c => (labPoint img c.1 c.2).a)).map (fun x => (x - Q.a) * (x - Q.a))).sum +
      ((S.map (fun c => (labPoint img c.1 c.2).b)).map (fun x => (x - Q.b) * (x - Q.b))).sum := by
  simp only [List.map_map, Function.comp_def, Point5D.MSPoint5DColorDistanceSq]
  rw [← List.sum_map_add, ← List.sum_map_add]

theorem msLoop_nthSample (img : Image) (hs hr : ℚ) (i j : Int) :
    ∀ (fuel step : Nat) (P : Point5D) (r : Point5D × Nat),
      nthSample img hs hr i j step = .ok P → msLoop img hs hr i j fuel step P = .ok r →
      nthSample img hs hr i j r.2 = .ok r.1 := by
  intro fuel
  induction fuel with
  | zero =>
    intro step P r _ h
    simp [msLoop] at h
  | succ n ih =>
    intro step P r hP h
    simp only [msLoop] at h
    split at h
    · simp at h
    · rename_i P1 e1
      have hP1 : nthSample img hs hr i j (step + 1) = .ok P1 := by
        simp only [nthSample, hP]
        exact e1
      split at h
      · exact ih (step + 1) P1 r hP1 h
      · simp only [Except.ok.injEq] at h
        rw [← h]
        exact hP1

theorem self_mem_kernelCells (img : Image) (hs hr : ℚ) (i j : Int) (hb : inBounds img i j)
    (hhs : 1 ≤ truncToInt hs) (hhr : 0 < hr) :
    (i, j) ∈ kernelCells img hs hr i j (labPoint img i j) := by
  rw [mem_kernelCells, inKernel_iff]
  refine ⟨self_mem_window img hs i j hb hhs, hhr, ?_⟩
  simp only [Point5D.MSPoint5DColorDistanceSq, sub_self, mul_zero, add_zero]
  exact mul_pos hhr hhr

theorem convergePixel_error_of_empty (img : Image) (hs hr : ℚ) (i j : Int)
    (h : kernelCells img hs hr i j (labPoint img i j) = []) :
    convergePixel img hs hr i j = .error .divisionByZero := by
  unfold convergePixel MS_MAX_NUM_CONVERGENCE_STEPS
  simp only [msLoop, meanShiftStep_error img hs hr i j _ h]

/-- The integer part of `q` is at least 1 exactly when `q >= 1`. -/
theorem one_le_truncToInt_iff (q : ℚ) : 1 ≤ truncToInt q ↔ 1 ≤ q := by
  unfold truncToInt
  split
  · rw [Int.le_floor]
    simp
  · rename_i h
    push_neg at h
    have h1 : ⌈q⌉ ≤ 0 := by
      rw [Int.ceil_le]
      simpa using h.le
    constructor
    · intro h2; omega
    · intro h2; linarith

theorem labPoint_l (img : Image) (r c : Int) :
    (labPoint img r c).l = (labColor (img.pix r c)).l := rfl

theorem labPoint_a (img : Image) (r c : Int) :
    (labPoint img r c).a = (labColor (img.pix r c)).a := rfl

theorem labPoint_b (img : Image) (r c : Int) :
    (labPoint img r c).b = (labColor (img.pix r c)).b := rfl

theorem list_sum_const {α : Type} (l : List α) (g : α → ℚ) (v : ℚ) (h : ∀ x ∈ l, g x = v) :
    (l.map g).sum = (l.length : ℚ) * v := by
  induction l with
  | nil => simp
  | cons x l ih =>
    simp only [List.map_cons, List.sum_cons, List.length_cons,
      ih (fun y hy => h y (List.mem_cons_of_mem _ hy)), h x (List.mem_cons_self _ _)]
    push_cast
    ring

theorem colorDistSq_eq_zero (P Q : Point5D) (hl : P.l = Q.l) (ha : P.a = Q.a) (hb : P.b = Q.b) :
    P.MSPoint5DColorDistanceSq Q = 0 := by
  simp [Point5D.MSPoint5DColorDistanceSq, hl, ha, hb]

/-- One step from the pixel's own point, when every kernel cell has the
pixel's colour: the new sample has the pixel's colour and the loop stops. -/
theorem convergePixel_fixed (img : Image) (hs hr : ℚ) (i j : Int) (hsep : Separated img hr)
    (hb : inBounds img i j) (hhs : 1 ≤ truncToInt hs) (hhr : 0 < hr) :
    ∃ P, convergePixel img hs hr i j = .ok (P, 1) ∧ P.l = (labPoint img i j).l ∧
      P.a = (labPoint img i j).a ∧ P.b = (labPoint img i j).b := by
  have hself := self_mem_kernelCells img hs hr i j hb hhs hhr
  have hne : kernelCells img hs hr i j (labPoint img i j) ≠ [] := List.ne_nil_of_mem hself
  have hlen : ((kernelCells img hs hr i j (labPoint img i j)).length : ℚ) ≠ 0 := by
    have : 0 < (kernelCells img hs hr i j (labPoint img i j)).length := List.length_pos.2 hne
    exact_mod_cast this.ne'
  have hsame : ∀ c ∈ kernelCells img hs hr i j (labPoint img i j),
      img.pix c.1 c.2 = img.pix i j := by
    intro c hc
    rw [mem_kernelCells, inKernel_iff] at hc
    rcases hsep c (i, j) (window_inBounds img hs i j c hc.1) hb with h1 | h1
    · exact h1
    · exact absurd hc.2.2 (not_lt.2 h1)
  have hstep := meanShiftStep_ok img hs hr i j (labPoint img i j) hne
  set P1 := (labPoint img i j).MSPoint5DCopy ((accumulate img hs hr i j
    (labPoint img i j)).1.MSPoint5DScale
      (1 / ((kernelCells img hs hr i j (labPoint img i j)).length : ℚ))) with hP1
  have hl : P1.l = (labPoint img i j).l := by
    show (accumulate img hs hr i j (labPoint img i j)).1.l * _ = _
    rw [accumulate_l, list_sum_const _ _ (labPoint img i j).l
      (fun c hc => by rw [labPoint_l, hsame c hc, ← labPoint_l])]
    field_simp
  have ha : P1.a = (labPoint img i j).a := by
    show (accumulate img hs hr i j (labPoint img i j)).1.a * _ = _
    rw [accumulate_a, list_sum_const _ _ (labPoint img i j).a
      (fun c hc => by rw [labPoint_a, hsame c hc, ← labPoint_a])]
    field_simp
  have hbb : P1.b = (labPoint img i j).b := by
    show (accumulate img hs hr i j (labPoint img i j)).1.b * _ = _
    rw [accumulate_b, list_sum_const _ _ (labPoint img i j).b
      (fun c hc => by rw [labPoint_b, hsame c hc, ← labPoint_b])]
    field_simp
  have hstop : continueLoop P1 (Point5D.new.MSPoint5DCopy (labPoint img i j)) (0 + 1) = false := by
    unfold continueLoop
    have : P1.MSPoint5DColorDistanceSq (Point5D.new.MSPoint5DCopy (labPoint img i j)) = 0 :=
      colorDistSq_eq_zero _ _ hl ha hbb
    rw [this]
    simp [sqrtGt, MS_MEAN_SHIFT_TOL_COLOR]
    norm_num
  refine ⟨P1, ?_, hl, ha, hbb⟩
  unfold convergePixel MS_MAX_NUM_CONVERGENCE_STEPS
  simp only [msLoop, hstep, hstop]
  rfl

theorem firstError_none (f : Int → Int → Except MSError Vec3b) (l : List (Int × Int))
    (h : ∀ c ∈ l, ∃ v, f c.1 c.2 = .ok v) : firstError f l = none := by
  induction l with
  | nil => rfl
  | cons c l ih =>
    obtain ⟨v, hv⟩ := h c (List.mem_cons_self _ _)
    simp only [firstError, hv]
    exact ih (fun c hc => h c (List.mem_cons_of_mem _ hc))

theorem firstError_some (f : Int → Int → Except MSError Vec3b) (e : MSError)
    (l : List (Int × Int)) (hne : l ≠ []) (h : ∀ c ∈ l, f c.1 c.2 = .error e) :
    firstError f l = some e := by
  cases l with
  | nil => exact absurd rfl hne
  | cons c l =>
    simp only [firstError, h c (List.mem_cons_self _ _)]

/-- A pass that writes to every cell the colour it already holds returns the
image itself. -/
theorem writeAll_same (img : Image) (f : Int → Int → Except MSError Vec3b)
    (h : ∀ i j, inBounds img i j → f i j = .ok (img.pix i j)) : writeAll img f = .ok img := by
  unfold writeAll
  rw [firstError_none f (cells img)
    (fun c hc => ⟨_, h c.1 c.2 ((mem_cells img c).1 hc)⟩)]
  simp only
  congr 1
  obtain ⟨rows, cols, pix⟩ := img
  simp only [Image.mk.injEq, true_and]
  funext i j
  by_cases hb : inBounds ⟨rows, cols, pix⟩ i j
  · rw [if_pos hb, h i j hb]
  · rw [if_neg hb]

theorem separated_of_uniform (img : Image) (hr : ℚ) (c : Vec3b)
    (huni : ∀ i j, inBounds img i j → img.pix i j = c) : Separated img hr := by
  intro p q hp hq
  left
  rw [huni _ _ hp, huni _ _ hq]

theorem truncToInt_nonpos (q : ℚ) (h : q ≤ 0) : truncToInt q ≤ 0 := by
  unfold truncToInt
  split
  · rename_i h0
    have : q = 0 := le_antisymm h h0
    rw [this]
    simp
  · rw [Int.ceil_le]
    simpa using h

theorem cells_ne_nil (img : Image) (hr0 : 0 < img.rows) (hc0 : 0 < img.cols) :
    cells img ≠ [] := by
  apply List.ne_nil_of_mem (a := ((0 : Int), (0 : Int)))
  rw [mem_cells]
  show (0 : Int) ≤ 0 ∧ (0 : Int) ≤ 0 ∧ (0 : Int) < (img.rows : Int) ∧ (0 : Int) < (img.cols : Int)
  exact ⟨le_refl _, le_refl _, by exact_mod_cast hr0, by exact_mod_cast hc0⟩

theorem not_inBounds_of_empty (img : Image) (h : img.rows = 0 ∨ img.cols = 0) (i j : Int) :
    ¬ inBounds img i j := by
  unfold inBounds
  rcases h with h | h <;> rw [h] <;> simp <;> omega

theorem MSFiltering_invalid (img : Image) (hs hr : ℚ) (h : hs ≤ 0 ∨ hr ≤ 0) :
    (∀ i j, (accumulate img hs hr i j (labPoint img i j)).2 = 0 ∧
      filterPixel img hs hr i j = .error .divisionByZero) ∧
    (0 < img.rows → 0 < img.cols → MSFiltering hs hr img = .error .divisionByZero) ∧
    (img.rows = 0 ∨ img.cols = 0 → MSFiltering hs hr img = .ok img) := by
  have h1 : truncToInt hs ≤ 0 ∨ hr ≤ 0 := h.imp (truncToInt_nonpos hs) id
  have hk : ∀ i j, filterPixel img hs hr i j = .error .divisionByZero := by
    intro i j
    unfold filterPixel
    rw [convergePixel_error_of_empty _ _ _ _ _ (kernelCells_eq_nil _ _ _ _ _ _ h1)]
  refine ⟨?_, ?_, ?_⟩
  · intro i j
    refine ⟨?_, hk i j⟩
    rw [accumulate_snd, kernelCells_eq_nil _ _ _ _ _ _ h1]
    rfl
  · intro hr0 hc0
    unfold MSFiltering writeAll
    rw [firstError_some _ .divisionByZero _ (cells_ne_nil img hr0 hc0) (fun c _ => hk c.1 c.2)]
  · intro hempty
    exact writeAll_same img _ (fun i j hb => absurd hb (not_inBounds_of_empty img hempty i j))

/-- C8 (as stated) fails: called with `hs = 0` and `hr = 0` on an image
without cells, `MSFiltering` is not rejected but returns normally; on the 1x1
image with `hs = 0`, `hr = 1` the outcome is the division by zero of pixel
`(0,0)`, reached inside the pixel loop. -/
theorem C8_counterexample_not_rejected :
    MSFiltering 0 0 ⟨0, 0, fun _ _ => ⟨0, 0, 0⟩⟩ = .ok ⟨0, 0, fun _ _ => ⟨0, 0, 0⟩⟩ ∧
    filterPixel ⟨1, 1, fun _ _ => ⟨10, 20, 30⟩⟩ 0 1 0 0 = .error .divisionByZero ∧
    MSFiltering 0 1 ⟨1, 1, fun _ _ => ⟨10, 20, 30⟩⟩ = .error .divisionByZero := by
  refine ⟨?_, ?_, ?_⟩
  · exact (MSFiltering_invalid ⟨0, 0, fun _ _ => ⟨0, 0, 0⟩⟩ 0 0 (Or.inl (le_refl _))).2.2
      (Or.inl rfl)
  · exact ((MSFiltering_invalid ⟨1, 1, fun _ _ => ⟨10, 20, 30⟩⟩ 0 1
      (Or.inl (le_refl _))).1 0 0).2
  · exact (MSFiltering_invalid ⟨1, 1, fun _ _ => ⟨10, 20, 30⟩⟩ 0 1 (Or.inl (le_refl _))).2.1
      (by norm_num) (by norm_num)

/-- C8 (amended). `MSFiltering` validates nothing and has no
`InvalidParameter` outcome.  Called with `hs <= 0` or `hr <= 0` it still runs
the pixel loop: for every pixel no window cell passes the test, so
`NumPts = 0` in the first iteration and the pixel's colour is a division by
zero; hence on an image with at least one cell the call has no defined
result, and on an image without cells it returns the image unchanged. -/
theorem C8_invalid_bandwidth_not_validated (img : Image) (hs hr : ℚ) (h : hs ≤ 0 ∨ hr ≤ 0) :
    (∀ i j, (accumulate img hs hr i j (labPoint img i j)).2 = 0 ∧
      filterPixel img hs hr i j = .error .divisionByZero) ∧
    (0 < img.rows → 0 < img.cols → MSFiltering hs hr img = .error .divisionByZero) ∧
    (img.rows = 0 ∨ img.cols = 0 → MSFiltering hs hr img = .ok img) :=
  MSFiltering_invalid img hs hr h

/-- Witness for C8 (amended): the 2x2 image of colour `(10, 20, 30)` with
`hs = 3`, `hr = -1`. -/
theorem C8_witness :
    ((3 : ℚ) ≤ 0 ∨ (-1 : ℚ) ≤ 0) ∧
    ((∀ i j, (accumulate ⟨2, 2, fun _ _ => ⟨10, 20, 30⟩⟩ 3 (-1) i j
        (labPoint ⟨2, 2, fun _ _ => ⟨10, 20, 30⟩⟩ i j)).2 = 0 ∧
      filterPixel ⟨2, 2, fun _ _ => ⟨10, 20, 30⟩⟩ 3 (-1) i j = .error .divisionByZero) ∧
    ((0 : Nat) < 2 → (0 : Nat) < 2 →
      MSFiltering 3 (-1) ⟨2, 2, fun _ _ => ⟨10, 20, 30⟩⟩ = .error .divisionByZero) ∧
    ((2 : Nat) = 0 ∨ (2 : Nat) = 0 →
      MSFiltering 3 (-1) ⟨2, 2, fun _ _ => ⟨10, 20, 30⟩⟩ =
        .ok ⟨2, 2, fun _ _ => ⟨10, 20, 30⟩⟩)) :=
  ⟨Or.inr (by norm_num),
    C8_invalid_bandwidth_not_validated ⟨2, 2, fun _ _ => ⟨10, 20, 30⟩⟩ 3 (-1)
      (Or.inr (by norm_num))⟩

/-! ## 8-connected sets of cells -/

theorem labPoint_dist (img : Image) (r c r1 c1 : Int) :
    (labPoint img r c).MSPoint5DColorDistanceSq (labPoint img r1 c1) =
      (labColor (img.pix r c)).MSPoint5DColorDistanceSq (labColor (img.pix r1 c1)) := rfl

theorem nearAnchor_of_same (img : Image) (hr : ℚ) (hhr : 0 < hr) (r c r1 c1 : Int)
    (h : img.pix r1 c1 = img.pix r c) : nearAnchor img hr (labPoint img r c) r1 c1 := by
  unfold nearAnchor sqrtLt
  rw [labPoint_dist, h]
  simp only [decide_eq_true_eq]
  refine ⟨hhr, ?_⟩
  rw [colorDistSq_eq_zero _ _ rfl rfl rfl]
  exact mul_pos hhr hhr

theorem ScanInv.label_nonneg_of_cell {img : Image} {hr : ℚ} {st : SegState}
    (h : ScanInv img hr (cells img) st) (r c : Int) (hb : inBounds img r c) :
    0 ≤ st.label := by
  have := h.label_range r c hb
  unfold SegState.numSegments at this
  omega

theorem colorDistSq_comm (P Q : Point5D) :
    P.MSPoint5DColorDistanceSq Q = Q.MSPoint5DColorDistanceSq P := by
  unfold Point5D.MSPoint5DColorDistanceSq
  ring

theorem msLoop_steps (img : Image) (hs hr : ℚ) (i j : Int) :
    ∀ (fuel step : Nat) (P : Point5D) (r : Point5D × Nat),
      msLoop img hs hr i j fuel step P = .ok r → step < r.2 ∧ r.2 ≤ step + fuel := by
  intro fuel
  induction fuel with
  | zero =>
    intro step P r h
    simp [msLoop] at h
  | succ n ih =>
    intro step P r h
    simp only [msLoop] at h
    split at h
    · simp at h
    · split at h
      · have := ih (step + 1) _ r h
        omega
      · simp only [Except.ok.injEq] at h
        rw [← h]
        simp only
        omega

theorem msLoop_ne_outOfFuel (img : Image) (hs hr : ℚ) (i j : Int) :
    ∀ (fuel step : Nat) (P : Point5D), step + fuel = MS_MAX_NUM_CONVERGENCE_STEPS → 0 < fuel →
      msLoop img hs hr i j fuel step P ≠ .error .outOfFuel := by
  intro fuel
  induction fuel with
  | zero => intro step P _ h; omega
  | succ n ih =>
    intro step P hsum _
    simp only [msLoop]
    split
    · rename_i e he
      intro h
      simp only [Except.error.injEq] at h
      subst h
      unfold meanShiftStep at he
      simp only at he
      split at he <;> simp at he
    · split
      · rename_i hc
        have hlt : step + 1 < MS_MAX_NUM_CONVERGENCE_STEPS := by
          unfold continueLoop at hc
          simp only [Bool.and_eq_true, decide_eq_true_eq] at hc
          exact hc.2
        exact ih (step + 1) _ (by omega) (by omega)
      · simp

theorem loopSteps_bounds (img : Image) (hs hr : ℚ) (i j : Int) :
    ∀ (fuel step : Nat) (P : Point5D), step + fuel = MS_MAX_NUM_CONVERGENCE_STEPS → 0 < fuel →
      step < loopSteps img hs hr i j fuel step P ∧
        loopSteps img hs hr i j fuel step P ≤ MS_MAX_NUM_CONVERGENCE_STEPS := by
  intro fuel
  induction fuel with
  | zero => intro step P _ h; omega
  | succ n ih =>
    intro step P hsum _
    simp only [loopSteps]
    split
    · omega
    · rename_i PtNew _
      split
      · rename_i hc
        have hlt : step + 1 < MS_MAX_NUM_CONVERGENCE_STEPS := by
          unfold continueLoop at hc
          simp only [Bool.and_eq_true, decide_eq_true_eq] at hc
          exact hc.2
        have := ih (step + 1) PtNew (by omega) (by omega)
        omega
      · omega

theorem msLoop_loopSteps (img : Image) (hs hr : ℚ) (i j : Int) :
    ∀ (fuel step : Nat) (P : Point5D) (r : Point5D × Nat),
      msLoop img hs hr i j fuel step P = .ok r → r.2 = loopSteps img hs hr i j fuel step P := by
  intro fuel
  induction fuel with
  | zero =>
    intro step P r h
    simp [msLoop] at h
  | succ n ih =>
    intro step P r h
    simp only [msLoop] at h
    simp only [loopSteps]
    split at h
    · simp at h
    · rename_i PtNew he
      try simp only [he]
      split at h
      · rename_i hc
        rw [if_pos hc]
        exact ih (step + 1) _ r h
      · rename_i hc
        rw [if_neg hc]
        simp only [Except.ok.injEq] at h
        rw [← h]

/-- C12. For every image, pixel and pair of bandwidths the do-while body of
the pixel is executed at least once and at most 5 times
(`MS_MAX_NUM_CONVERGENCE_STEPS`); when the loop yields a sample, the step
count it reports is that number; and the loop never needs more than the 5
iterations it is given, so the filtering of every pixel terminates. -/
theorem C12_steps_between_one_and_cap (img : Image) (hs hr : ℚ) (i j : Int) :
    1 ≤ convergeSteps img hs hr i j ∧
    convergeSteps img hs hr i j ≤ MS_MAX_NUM_CONVERGENCE_STEPS ∧
    MS_MAX_NUM_CONVERGENCE_STEPS = 5 ∧
    (∀ P k, convergePixel img hs hr i j = .ok (P, k) →
      k = convergeSteps img hs hr i j ∧ 1 ≤ k ∧ k ≤ 5) ∧
    convergePixel img hs hr i j ≠ .error .outOfFuel := by
  have hb := loopSteps_bounds img hs hr i j MS_MAX_NUM_CONVERGENCE_STEPS 0 (labPoint img i j)
    (by simp) (by simp [MS_MAX_NUM_CONVERGENCE_STEPS])
  refine ⟨by unfold convergeSteps; omega, hb.2, rfl, ?_, ?_⟩
  · intro P k h
    have h1 := msLoop_loopSteps img hs hr i j _ _ _ _ h
    have h2 := msLoop_steps img hs hr i j _ _ _ _ h
    simp only [MS_MAX_NUM_CONVERGENCE_STEPS] at h2
    simp only at h1 h2
    exact ⟨h1, by omega, by omega⟩
  · exact msLoop_ne_outOfFuel img hs hr i j MS_MAX_NUM_CONVERGENCE_STEPS 0 _ (by simp)
      (by simp [MS_MAX_NUM_CONVERGENCE_STEPS])

theorem colorDistSq_nonneg (P Q : Point5D) : 0 ≤ P.MSPoint5DColorDistanceSq Q := by
  unfold Point5D.MSPoint5DColorDistanceSq
  nlinarith [mul_self_nonneg (P.l - Q.l), mul_self_nonneg (P.a - Q.a),
    mul_self_nonneg (P.b - Q.b)]

theorem spatialDistSq_nonneg (P Q : Point5D) : 0 ≤ P.MSPoint5DSpatialDistanceSq Q := by
  unfold Point5D.MSPoint5DSpatialDistanceSq
  nlinarith [mul_self_nonneg (P.x - Q.x), mul_self_nonneg (P.y - Q.y)]

theorem sqrtGt_false_iff_real (s t : ℚ) (hs : 0 ≤ s) :
    sqrtGt s t = false ↔ Real.sqrt (s : ℝ) ≤ (t : ℝ) := by
  rw [← not_lt, ← sqrtGt_iff_real s t hs]
  simp

theorem continueLoop_false_iff (PtCur PtPrev : Point5D) (step : Nat) :
    continueLoop PtCur PtPrev step = false ↔
      (MS_MAX_NUM_CONVERGENCE_STEPS ≤ step ∨
        Real.sqrt ((PtCur.MSPoint5DColorDistanceSq PtPrev : ℚ) : ℝ) ≤
          ((MS_MEAN_SHIFT_TOL_COLOR : ℚ) : ℝ) ∨
        Real.sqrt ((PtCur.MSPoint5DSpatialDistanceSq PtPrev : ℚ) : ℝ) ≤
          ((MS_MEAN_SHIFT_TOL_SPATIAL : ℚ) : ℝ)) := by
  rw [← sqrtGt_false_iff_real _ _ (colorDistSq_nonneg _ _),
    ← sqrtGt_false_iff_real _ _ (spatialDistSq_nonneg _ _)]
  unfold continueLoop
  simp only [Bool.and_eq_false_imp, Bool.and_eq_true, decide_eq_false_iff_not, not_lt]
  constructor
  · intro h
    by_cases h1 : sqrtGt (PtCur.MSPoint5DColorDistanceSq PtPrev) MS_MEAN_SHIFT_TOL_COLOR = true
    · by_cases h2 : sqrtGt (PtCur.MSPoint5DSpatialDistanceSq PtPrev)
          MS_MEAN_SHIFT_TOL_SPATIAL = true
      · exact Or.inl (h ⟨h1, h2⟩)
      · exact Or.inr (Or.inr (by simpa using h2))
    · exact Or.inr (Or.inl (by simpa using h1))
  · rintro (h | h | h)
    · intro _; exact h
    · rintro ⟨h1, _⟩
      rw [h] at h1
      exact absurd h1 (by simp)
    · rintro ⟨_, h2⟩
      rw [h] at h2
      exact absurd h2 (by simp)

theorem accumulate_x (img : Image) (hs hr : ℚ) (i j : Int) (P : Point5D) :
    (accumulate img hs hr i j P).1.x =
      ((kernelCells img hs hr i j P).map (fun c => (labPoint img c.1 c.2).x)).sum := by
  unfold accumulate kernelCells
  rw [foldl_accumStep_fst img hr P Point5D.x (fun _ _ => rfl)]
  simp [Point5D.MSPOint5DSet]

theorem accumulate_y (img : Image) (hs hr : ℚ) (i j : Int) (P : Point5D) :
    (accumulate img hs hr i j P).1.y =
      ((kernelCells img hs hr i j P).map (fun c => (labPoint img c.1 c.2).y)).sum := by
  unfold accumulate kernelCells
  rw [foldl_accumStep_fst img hr P Point5D.y (fun _ _ => rfl)]
  simp [Point5D.MSPOint5DSet]

theorem convergePixel_first (img : Image) (hs hr : ℚ) (i j : Int) (P : Point5D)
    (h : convergePixel img hs hr i j = .ok (P, 1)) :
    meanShiftStep img hs hr i j (labPoint img i j) = .ok P := by
  have := msLoop_nthSample img hs hr i j MS_MAX_NUM_CONVERGENCE_STEPS 0 _ (P, 1) rfl h
  simpa [nthSample] using this

theorem two_trunc : truncToInt 2 = 2 := by
  have := truncToInt_intCast 2
  simpa using this

theorem rowImage_window : window rowImage 2 0 0 = [(0, 0), (0, 1)] := by
  simp only [window, two_trunc, rowImage]
  decide

theorem rowImage_kernel :
    kernelCells rowImage 2 1 0 0 (labPoint rowImage 0 0) = [(0, 0), (0, 1)] := by
  have hall : ∀ c, inKernel rowImage 1 (labPoint rowImage 0 0) c = true := by
    intro c
    rw [inKernel_iff]
    refine ⟨by norm_num, ?_⟩
    rw [colorDistSq_eq_zero (labPoint rowImage c.1 c.2) (labPoint rowImage 0 0) rfl rfl rfl]
    norm_num
  unfold kernelCells
  rw [rowImage_window]
  simp [List.filter, hall]

/-- C11 (as stated) fails: on the 1x2 image of one colour, with `hs = 2` and
`hr = 1`, the loop of pixel `(0,0)` stops after its first step (1 < 5) although
only the colour distance to the previous sample is within the tolerance: the
spatial distance is `1/2 > 0.3`. -/
theorem C11_counterexample_stops_on_one_distance :
    ∃ P, convergePixel rowImage 2 1 0 0 = .ok (P, 1) ∧
      1 < MS_MAX_NUM_CONVERGENCE_STEPS ∧
      sqrtGt (P.MSPoint5DColorDistanceSq (labPoint rowImage 0 0)) MS_MEAN_SHIFT_TOL_COLOR
        = false ∧
      P.MSPoint5DSpatialDistanceSq (labPoint rowImage 0 0) = 1 / 4 ∧
      sqrtGt (P.MSPoint5DSpatialDistanceSq (labPoint rowImage 0 0)) MS_MEAN_SHIFT_TOL_SPATIAL
        = true := by
  have hsep : Separated rowImage 1 := separated_of_uniform rowImage 1 ⟨10, 20, 30⟩
    (fun _ _ _ => rfl)
  obtain ⟨P, e, hl, ha, hb⟩ := convergePixel_fixed rowImage 2 1 0 0 hsep
    (by simp [inBounds, rowImage]) (by rw [two_trunc]; norm_num) (by norm_num)
  have hne : kernelCells rowImage 2 1 0 0 (labPoint rowImage 0 0) ≠ [] := by
    rw [rowImage_kernel]
    simp
  have hstep := meanShiftStep_ok rowImage 2 1 0 0 (labPoint rowImage 0 0) hne
  rw [convergePixel_first rowImage 2 1 0 0 P e] at hstep
  simp only [Except.ok.injEq] at hstep
  have hx : P.x = 0 := by
    rw [hstep]
    show (accumulate rowImage 2 1 0 0 (labPoint rowImage 0 0)).1.x * _ = _
    rw [accumulate_x, rowImage_kernel]
    simp [labPoint_x]
  have hy : P.y = 1 / 2 := by
    rw [hstep]
    show (accumulate rowImage 2 1 0 0 (labPoint rowImage 0 0)).1.y * _ = _
    rw [accumulate_y, rowImage_kernel]
    simp [labPoint_y]
  have hsp : P.MSPoint5DSpatialDistanceSq (labPoint rowImage 0 0) = 1 / 4 := by
    unfold Point5D.MSPoint5DSpatialDistanceSq
    rw [hx, hy, labPoint_x, labPoint_y]
    norm_num
  refine ⟨P, e, by simp [MS_MAX_NUM_CONVERGENCE_STEPS], ?_, hsp, ?_⟩
  · rw [colorDistSq_eq_zero _ _ hl ha hb]
    simp [sqrtGt, MS_MEAN_SHIFT_TOL_COLOR]
    norm_num
  · rw [hsp]
    simp [sqrtGt, MS_MEAN_SHIFT_TOL_SPATIAL]
    norm_num

/-- C11 (amended). Stopping rule of the filtering loop: after a step that
produced the new sample `PtNew` from `P`, the loop stops if and only if the
step cap of 5 has been reached, or the colour distance between the new and
the previous sample is at most the tolerance 0.3, or their spatial distance
is at most 0.3.  One of the two distances within tolerance is enough; the
loop continues before the cap only while both distances exceed 0.3. -/
theorem C11_stops_when_either_distance_within_tolerance :
    (∀ (PtCur PtPrev : Point5D) (step : Nat),
      continueLoop PtCur PtPrev step = false ↔
        (5 ≤ step ∨
          Real.sqrt ((PtCur.MSPoint5DColorDistanceSq PtPrev : ℚ) : ℝ) ≤ (((3 / 10 : ℚ)) : ℝ) ∨
          Real.sqrt ((PtCur.MSPoint5DSpatialDistanceSq PtPrev : ℚ) : ℝ) ≤ (((3 / 10 : ℚ)) : ℝ))) ∧
    (∀ (img : Image) (hs hr : ℚ) (i j : Int) (fuel step : Nat) (P PtNew : Point5D),
      meanShiftStep img hs hr i j P = .ok PtNew →
      (msLoop img hs hr i j (fuel + 1) step P = .ok (PtNew, step + 1) ↔
        (5 ≤ step + 1 ∨
          Real.sqrt ((PtNew.MSPoint5DColorDistanceSq P : ℚ) : ℝ) ≤ (((3 / 10 : ℚ)) : ℝ) ∨
          Real.sqrt ((PtNew.MSPoint5DSpatialDistanceSq P : ℚ) : ℝ) ≤ (((3 / 10 : ℚ)) : ℝ)))) := by
  constructor
  · intro PtCur PtPrev step
    exact continueLoop_false_iff PtCur PtPrev step
  · intro img hs hr i j fuel step P PtNew h
    have hiff := continueLoop_false_iff PtNew (Point5D.new.MSPoint5DCopy P) (step + 1)
    have e1 : PtNew.MSPoint5DColorDistanceSq (Point5D.new.MSPoint5DCopy P) =
        PtNew.MSPoint5DColorDistanceSq P := rfl
    have e2 : PtNew.MSPoint5DSpatialDistanceSq (Point5D.new.MSPoint5DCopy P) =
        PtNew.MSPoint5DSpatialDistanceSq P := rfl
    rw [e1, e2] at hiff
    have hiff2 : continueLoop PtNew (Point5D.new.MSPoint5DCopy P) (step + 1) = false ↔
        (5 ≤ step + 1 ∨
          Real.sqrt ((PtNew.MSPoint5DColorDistanceSq P : ℚ) : ℝ) ≤ (((3 / 10 : ℚ)) : ℝ) ∨
          Real.sqrt ((PtNew.MSPoint5DSpatialDistanceSq P : ℚ) : ℝ) ≤ (((3 / 10 : ℚ)) : ℝ)) :=
      hiff
    rw [← hiff2]
    simp only [msLoop, h]
    by_cases hc : continueLoop PtNew (Point5D.new.MSPoint5DCopy P) (step + 1) = true
    · rw [if_pos hc]
      constructor
      · intro hm
        have := (msLoop_steps img hs hr i j fuel (step + 1) PtNew _ hm).1
        simp at this
      · intro hf
        rw [hf] at hc
        exact absurd hc (by simp)
    · rw [if_neg hc]
      simp only [true_iff]
      simpa using hc

/-! ## One mean-shift step is the mean over the kernel cells -/

theorem intRange_pairwise (lo hi : Int) : (intRange lo hi).Pairwise (fun a b => a < b) := by
  unfold intRange
  rw [List.pairwise_map]
  refine (List.pairwise_lt_range _).imp ?_
  intro a b hab
  omega

theorem window_pairwise (img : Image) (hs : ℚ) (i j : Int) :
    (window img hs i j).Pairwise rowMajorLt := by
  unfold window
  simp only
  rw [List.pairwise_flatMap]
  constructor
  · intro hx _
    rw [List.pairwise_map]
    refine (intRange_pairwise _ _).imp ?_
    intro a b hab
    right
    exact ⟨rfl, hab⟩
  · refine (intRange_pairwise _ _).imp ?_
    intro a b hab x hx y hy
    simp only [List.mem_map] at hx hy
    obtain ⟨_, _, rfl⟩ := hx
    obtain ⟨_, _, rfl⟩ := hy
    left
    exact hab

theorem window_nodup (img : Image) (hs : ℚ) (i j : Int) : (window img hs i j).Nodup := by
  have := window_pairwise img hs i j
  unfold List.Nodup
  refine this.imp ?_
  intro a b hab heq
  subst heq
  exact rowMajorLt_irrefl a hab

theorem kernelCells_nodup (img : Image) (hs hr : ℚ) (i j : Int) (P : Point5D) :
    (kernelCells img hs hr i j P).Nodup :=
  (window_nodup img hs i j).filter _

/-- The five fields of the sample produced by a step with a non-empty kernel. -/
theorem meanShiftStep_fields (img : Image) (hs hr : ℚ) (i j : Int) (P P1 : Point5D)
    (h : meanShiftStep img hs hr i j P = .ok P1) :
    kernelCells img hs hr i j P ≠ [] ∧
    P1.x = ((kernelCells img hs hr i j P).map (fun c => (labPoint img c.1 c.2).x)).sum /
      ((kernelCells img hs hr i j P).length : ℚ) ∧
    P1.y = ((kernelCells img hs hr i j P).map (fun c => (labPoint img c.1 c.2).y)).sum /
      ((kernelCells img hs hr i j P).length : ℚ) ∧
    P1.l = ((kernelCells img hs hr i j P).map (fun c => (labPoint img c.1 c.2).l)).sum /
      ((kernelCells img hs hr i j P).length : ℚ) ∧
    P1.a = ((kernelCells img hs hr i j P).map (fun c => (labPoint img c.1 c.2).a)).sum /
      ((kernelCells img hs hr i j P).length : ℚ) ∧
    P1.b = ((kernelCells img hs hr i j P).map (fun c => (labPoint img c.1 c.2).b)).sum /
      ((kernelCells img hs hr i j P).length : ℚ) := by
  have hne : kernelCells img hs hr i j P ≠ [] := by
    intro hnil
    rw [meanShiftStep_error img hs hr i j P hnil] at h
    simp at h
  rw [meanShiftStep_ok img hs hr i j P hne] at h
  simp only [Except.ok.injEq] at h
  refine ⟨hne, ?_, ?_, ?_, ?_, ?_⟩
  · rw [← h, ← accumulate_x]
    show (accumulate img hs hr i j P).1.x * (1 / _) = _
    rw [mul_one_div]
  · rw [← h, ← accumulate_y]
    show (accumulate img hs hr i j P).1.y * (1 / _) = _
    rw [mul_one_div]
  · rw [← h, ← accumulate_l]
    show (accumulate img hs hr i j P).1.l * (1 / _) = _
    rw [mul_one_div]
  · rw [← h, ← accumulate_a]
    show (accumulate img hs hr i j P).1.a * (1 / _) = _
    rw [mul_one_div]
  · rw [← h, ← accumulate_b]
    show (accumulate img hs hr i j P).1.b * (1 / _) = _
    rw [mul_one_div]

theorem three_halves_trunc : truncToInt (3 / 2) = 1 := by
  unfold truncToInt
  rw [if_pos (by norm_num)]
  rw [Int.floor_eq_iff]
  norm_num

theorem rowImage_window_frac : window rowImage (3 / 2) 0 0 = [(0, 0)] := by
  simp only [window, three_halves_trunc, rowImage]
  decide

/-- C13 (as stated) fails: on the 1x2 image of one colour with `hs = 3/2` and
`hr = 1`, cell `(0,1)` lies in the box `[max(0,j-hs), min(COLS,j+hs))` of pixel
`(0,0)` and passes the colour test, yet it is not among the cells the program
averages (its box ends at `j + (int)hs = 1`): the new sample has `y = 0`,
not the mean `1/2` of the columns `0` and `1`. -/
theorem C13_counterexample_fractional_bandwidth :
    claimedBox rowImage (3 / 2) 0 0 (0, 1) ∧
    inKernel rowImage 1 (labPoint rowImage 0 0) (0, 1) = true ∧
    (0, 1) ∉ window rowImage (3 / 2) 0 0 ∧
    ∃ P, meanShiftStep rowImage (3 / 2) 1 0 0 (labPoint rowImage 0 0) = .ok P ∧ P.y = 0 := by
  have hall : ∀ c, inKernel rowImage 1 (labPoint rowImage 0 0) c = true := by
    intro c
    rw [inKernel_iff]
    refine ⟨by norm_num, ?_⟩
    rw [colorDistSq_eq_zero (labPoint rowImage c.1 c.2) (labPoint rowImage 0 0) rfl rfl rfl]
    norm_num
  have hk : kernelCells rowImage (3 / 2) 1 0 0 (labPoint rowImage 0 0) = [(0, 0)] := by
    unfold kernelCells
    rw [rowImage_window_frac]
    simp [List.filter, hall]
  refine ⟨?_, hall _, ?_, ?_⟩
  · unfold claimedBox rowImage
    norm_num
  · rw [rowImage_window_frac]
    simp
  · have hne : kernelCells rowImage (3 / 2) 1 0 0 (labPoint rowImage 0 0) ≠ [] := by
      rw [hk]; simp
    refine ⟨_, meanShiftStep_ok rowImage (3 / 2) 1 0 0 _ hne, ?_⟩
    show (accumulate rowImage (3 / 2) 1 0 0 (labPoint rowImage 0 0)).1.y * _ = _
    rw [accumulate_y, hk]
    simp [labPoint_y]

/-- C13 (amended). One mean-shift step for pixel `(i, j)` with current sample
`P`: the cells averaged are exactly the cells `(hx, hy)` of the fixed box rows
`[max(0, i-(int)hs), min(ROWS, i+(int)hs))` x columns
`[max(0, j-(int)hs), min(COLS, j+(int)hs))` (half-width: the integer part of
`hs`) whose colour distance to `P` is strictly less than `hr`, each taken
once; `NumPts` is their number; when there is at least one, the new sample is
their arithmetic mean in each of the five fields `x, y, l, a, b`, and when
there is none the step is a division by zero.  Spatial distance plays no part
in the selection and the box depends on neither `P` nor the iteration. -/
theorem C13_step_is_mean_over_integer_box (img : Image) (hs hr : ℚ) (i j : Int) (P : Point5D) :
    (∀ c : Int × Int, c ∈ kernelCells img hs hr i j P ↔
      ((max 0 (i - truncToInt hs) ≤ c.1 ∧ c.1 < min (img.rows : Int) (i + truncToInt hs)) ∧
        (max 0 (j - truncToInt hs) ≤ c.2 ∧ c.2 < min (img.cols : Int) (j + truncToInt hs))) ∧
      Real.sqrt (((labPoint img c.1 c.2).MSPoint5DColorDistanceSq P : ℚ) : ℝ) < (hr : ℝ)) ∧
    (kernelCells img hs hr i j P).Nodup ∧
    (accumulate img hs hr i j P).2 = (kernelCells img hs hr i j P).length ∧
    (kernelCells img hs hr i j P = [] →
      meanShiftStep img hs hr i j P = .error .divisionByZero) ∧
    (kernelCells img hs hr i j P ≠ [] →
      ∃ P1, meanShiftStep img hs hr i j P = .ok P1 ∧
        P1.x = ((kernelCells img hs hr i j P).map (fun c => (labPoint img c.1 c.2).x)).sum /
          ((kernelCells img hs hr i j P).length : ℚ) ∧
        P1.y = ((kernelCells img hs hr i j P).map (fun c => (labPoint img c.1 c.2).y)).sum /
          ((kernelCells img hs hr i j P).length : ℚ) ∧
        P1.l = ((kernelCells img hs hr i j P).map (fun c => (labPoint img c.1 c.2).l)).sum /
          ((kernelCells img hs hr i j P).length : ℚ) ∧
        P1.a = ((kernelCells img hs hr i j P).map (fun c => (labPoint img c.1 c.2).a)).sum /
          ((kernelCells img hs hr i j P).length : ℚ) ∧
        P1.b = ((kernelCells img hs hr i j P).map (fun c => (labPoint img c.1 c.2).b)).sum /
          ((kernelCells img hs hr i j P).length : ℚ)) := by
  refine ⟨?_, kernelCells_nodup img hs hr i j P, accumulate_snd img hs hr i j P,
    meanShiftStep_error img hs hr i j P, ?_⟩
  · intro c
    rw [mem_kernelCells, mem_window, ← sqrtLt_iff_real _ _ (colorDistSq_nonneg _ _)]
    rfl
  · intro hne
    have hok := meanShiftStep_ok img hs hr i j P hne
    obtain ⟨_, hx, hy, hl, ha, hb⟩ := meanShiftStep_fields img hs hr i j P _ hok
    exact ⟨_, hok, hx, hy, hl, ha, hb⟩

/-! ## Channel ranges -/

theorem adj8_symm {p q : Int × Int} (h : adj8 p q) : adj8 q p := by
  obtain ⟨d, hd, rfl⟩ := h
  refine ⟨(-d.1, -d.2), ?_, ?_⟩
  · simp only [dxdy, List.mem_cons, List.mem_singleton, List.not_mem_nil, or_false] at hd
    rcases hd with rfl | rfl | rfl | rfl | rfl | rfl | rfl | rfl <;> simp [dxdy]
  · obtain ⟨p1, p2⟩ := p
    simp only [Prod.mk.injEq]
    constructor <;> ring

theorem path_reverse (S : Int × Int → Prop) {a b : Int × Int}
    (h : Relation.ReflTransGen (fun p q => adj8 p q ∧ S q) a b) (ha : S a) :
    S b ∧ Relation.ReflTransGen (fun p q => adj8 p q ∧ S q) b a := by
  induction h with
  | refl => exact ⟨ha, Relation.ReflTransGen.refl⟩
  | @tail b c _ hedge ih =>
    refine ⟨hedge.2, ?_⟩
    exact Relation.ReflTransGen.head ⟨adj8_symm hedge.1, ih.1⟩ ih.2

theorem ScanInv.seed_inBounds {img : Image} {hr : ℚ} {pre : List (Int × Int)} {st : SegState}
    (h : ScanInv img hr pre st) (w : LabelWrite) (hw : w ∈ st.writes) :
    inBounds img w.r w.c ∧ st.Labels w.r w.c = w.val ∧ 0 ≤ w.val := by
  obtain ⟨h1, _, h3, h4⟩ := h.basic.writes_ok w hw
  exact ⟨h1, h4, h3⟩

/-- Every member of a segment is joined to the seed by a path of members. -/
theorem ScanInv.member_path {img : Image} {hr : ℚ} {pre : List (Int × Int)} {st : SegState}
    (h : ScanInv img hr pre st) (w : LabelWrite) (hw : w ∈ st.writes) (hsd : w.seed = true)
    (q : Int × Int) (hq : st.Labels q.1 q.2 = w.val) :
    Relation.ReflTransGen
      (fun a b => adj8 a b ∧ (inBounds img b.1 b.2 ∧ st.Labels b.1 b.2 = w.val)) (w.r, w.c) q := by
  have hreach := (h.region w hw hsd q.1 q.2).1 hq
  have key : ∀ x : Int × Int, SegReach img hr st.Labels w.val (w.r, w.c) x →
      Relation.ReflTransGen
        (fun a b => adj8 a b ∧ (inBounds img b.1 b.2 ∧ st.Labels b.1 b.2 = w.val))
        (w.r, w.c) x := by
    intro x hx
    induction hx with
    | refl => exact Relation.ReflTransGen.refl
    | @tail b c hb hedge ih =>
      have hc : SegReach img hr st.Labels w.val (w.r, w.c) c :=
        Relation.ReflTransGen.tail hb hedge
      exact Relation.ReflTransGen.tail ih
        ⟨hedge.1, hedge.2.1, (h.region w hw hsd c.1 c.2).2 hc⟩
  exact key q hreach

theorem ScanInv.segment_connected {img : Image} {hr : ℚ} {pre : List (Int × Int)}
    {st : SegState} (h : ScanInv img hr pre st) (w : LabelWrite) (hw : w ∈ st.writes)
    (hsd : w.seed = true) :
    Connected8 (fun p => inBounds img p.1 p.2 ∧ st.Labels p.1 p.2 = w.val) := by
  obtain ⟨hb, hl, _⟩ := h.seed_inBounds w hw
  intro p q hp hq
  have h1 := h.member_path w hw hsd p hp.2
  have h2 := h.member_path w hw hsd q hq.2
  exact (path_reverse _ h1 ⟨hb, hl⟩).2.trans h2

theorem ScanInv.member_near {img : Image} {hr : ℚ} {pre : List (Int × Int)} {st : SegState}
    (h : ScanInv img hr pre st) (w : LabelWrite) (hw : w ∈ st.writes) (hsd : w.seed = true)
    (r c : Int) (hq : st.Labels r c = w.val) :
    (r, c) = (w.r, w.c) ∨ nearAnchor img hr (labPoint img w.r w.c) r c := by
  have hreach := (h.region w hw hsd r c).1 hq
  cases hreach with
  | refl => exact Or.inl rfl
  | tail _ hedge => exact Or.inr hedge.2.2.2

theorem nearAnchor_self (img : Image) (hr : ℚ) (hhr : 0 < hr) (r c : Int) :
    nearAnchor img hr (labPoint img r c) r c :=
  nearAnchor_of_same img hr hhr r c r c rfl

theorem ScanInv.neighbour_label_le {img : Image} {hr : ℚ} {pre : List (Int × Int)}
    {st : SegState} (h : ScanInv img hr pre st) (w : LabelWrite) (hw : w ∈ st.writes)
    (hsd : w.seed = true) (p q : Int × Int) (hp : st.Labels p.1 p.2 = w.val)
    (hadj : adj8 p q) (hb : inBounds img q.1 q.2)
    (hnear : nearAnchor img hr (labPoint img w.r w.c) q.1 q.2) :
    st.Labels q.1 q.2 ≤ w.val := by
  by_contra hlt
  push_neg at hlt
  have hreach := (h.region w hw hsd p.1 p.2).1 hp
  have hq : SegReach img hr st.Labels w.val (w.r, w.c) q :=
    Relation.ReflTransGen.tail hreach ⟨hadj, hb, by omega, hnear⟩
  have := (h.region w hw hsd q.1 q.2).2 hq
  omega

/-- C14 (as stated) fails in its clause "every member is within hr of the seed
colour", which the claim asserts for every `hr`: with `hr = -1` on the 1x1
image the seed of label 0 is a member of its segment, and its colour distance
to itself is neither strictly less than `hr` (the growth test fails on it) nor
at most `hr`. -/
theorem C14_counterexample_seed_not_within_negative_bandwidth :
    ∃ st, labelPass ⟨1, 1, fun _ _ => ⟨10, 20, 30⟩⟩ (-1) = .ok st ∧
      ∃ w ∈ st.writes, w.seed = true ∧ w.val = 0 ∧ st.Labels w.r w.c = w.val ∧
        ¬ nearAnchor ⟨1, 1, fun _ _ => ⟨10, 20, 30⟩⟩ (-1)
          (labPoint ⟨1, 1, fun _ _ => ⟨10, 20, 30⟩⟩ w.r w.c) w.r w.c ∧
        (((-1 : ℚ)) : ℝ) < Real.sqrt
          (((labPoint ⟨1, 1, fun _ _ => ⟨10, 20, 30⟩⟩ w.r w.c).MSPoint5DColorDistanceSq
            (labPoint ⟨1, 1, fun _ _ => ⟨10, 20, 30⟩⟩ w.r w.c) : ℚ) : ℝ) := by
  obtain ⟨st, e, h⟩ := labelPass_spec ⟨1, 1, fun _ _ => ⟨10, 20, 30⟩⟩ (-1)
  have hl := h.label_nonneg_of_cell 0 0 (by simp [inBounds])
  obtain ⟨w, hw, hsd, hv⟩ := h.seed_exists 0 (le_refl _) hl
  refine ⟨st, e, w, hw, hsd, hv, (h.seed_inBounds w hw).2.1, ?_, ?_⟩
  · unfold nearAnchor sqrtLt
    simp
  · exact lt_of_lt_of_le (by norm_num) (Real.sqrt_nonneg _)

/-- C14 (amended). Fixed-anchor region characterization: for every image and
every `hr` the labeling pass returns, every allocated label `k` has a seed, and
for the seed `s` of label `k`: the cells carrying label `k` are exactly the
cells reachable from `s` by an 8-connected path all of whose cells after `s`
lie in the image, carry no label below `k` and have colour distance strictly
less than `hr` to the colour of `s` itself; the segment is 8-connected; every
member other than the seed is within `hr` of the seed colour, and the seed too
when `hr > 0`; and any cell of the image 8-adjacent to a member and within
`hr` of the seed colour has a label `<= k`. -/
theorem C14_fixed_anchor_region (img : Image) (hr : ℚ) :
    ∃ st, labelPass img hr = .ok st ∧
      (∀ k, 0 ≤ k → k < st.numSegments → ∃ w ∈ st.writes, w.seed = true ∧ w.val = k) ∧
      ∀ w ∈ st.writes, w.seed = true →
        (∀ r c, st.Labels r c = w.val ↔ SegReach img hr st.Labels w.val (w.r, w.c) (r, c)) ∧
        Connected8 (fun p => inBounds img p.1 p.2 ∧ st.Labels p.1 p.2 = w.val) ∧
        (∀ r c, st.Labels r c = w.val →
          (r, c) = (w.r, w.c) ∨ nearAnchor img hr (labPoint img w.r w.c) r c) ∧
        (0 < hr → ∀ r c, st.Labels r c = w.val →
          nearAnchor img hr (labPoint img w.r w.c) r c) ∧
        (∀ p q : Int × Int, st.Labels p.1 p.2 = w.val → adj8 p q → inBounds img q.1 q.2 →
          nearAnchor img hr (labPoint img w.r w.c) q.1 q.2 → st.Labels q.1 q.2 ≤ w.val) := by
  obtain ⟨st, e, h⟩ := labelPass_spec img hr
  refine ⟨st, e, ?_, ?_⟩
  · intro k hk0 hk1
    unfold SegState.numSegments at hk1
    exact h.seed_exists k hk0 (by omega)
  · intro w hw hsd
    refine ⟨h.region w hw hsd, h.segment_connected w hw hsd, h.member_near w hw hsd, ?_,
      h.neighbour_label_le w hw hsd⟩
    intro hhr r c hrc
    rcases h.member_near w hw hsd r c hrc with h1 | h1
    · simp only [Prod.mk.injEq] at h1
      rw [h1.1, h1.2]
      exact nearAnchor_self img hr hhr w.r w.c
    · exact h1

/-! ## Modes -/

theorem neighbourStep_mode_frame (img : Image) (hr : ℚ) (PtCur Pt : Point5D)
    (s : SegState × List Point5D) (d : Int × Int) :
    (neighbourStep img hr PtCur Pt s d).1.label = s.1.label ∧
      ∀ i, i < s.1.label * 3 → (neighbourStep img hr PtCur Pt s d).1.Mode i = s.1.Mode i := by
  unfold neighbourStep
  simp only
  split
  · split
    · refine ⟨rfl, ?_⟩
      intro i hi
      simp only [joinSegment]
      rw [setAt_other _ _ _ _ (by omega), setAt_other _ _ _ _ (by omega),
        setAt_other _ _ _ _ (by omega)]
    · exact ⟨rfl, fun _ _ => rfl⟩
  · exact ⟨rfl, fun _ _ => rfl⟩

theorem visitPoint_mode_frame (img : Image) (hr : ℚ) (PtCur Pt : Point5D) (st : SegState)
    (rest : List Point5D) :
    (visitPoint img hr PtCur st Pt rest).1.label = st.label ∧
      ∀ i, i < st.label * 3 → (visitPoint img hr PtCur st Pt rest).1.Mode i = st.Mode i := by
  unfold visitPoint
  apply foldl_inv (neighbourStep img hr PtCur Pt)
    (fun s => s.1.label = st.label ∧ ∀ i, i < st.label * 3 → s.1.Mode i = st.Mode i) dxdy
  · intro s d _ hs
    obtain ⟨h1, h2⟩ := neighbourStep_mode_frame img hr PtCur Pt s d
    refine ⟨h1.trans hs.1, ?_⟩
    intro i hi
    rw [h2 i (by rw [hs.1]; exact hi)]
    exact hs.2 i hi
  · exact ⟨rfl, fun _ _ => rfl⟩

theorem growLoop_mode_frame (img : Image) (hr : ℚ) (PtCur : Point5D) :
    ∀ (fuel : Nat) (st : SegState) (work : List Point5D) (st1 : SegState),
      growLoop img hr PtCur fuel st work = .ok st1 →
      st1.label = st.label ∧ ∀ i, i < st.label * 3 → st1.Mode i = st.Mode i := by
  intro fuel
  induction fuel with
  | zero =>
    intro st work st1 he
    cases work with
    | nil =>
      simp only [growLoop, Except.ok.injEq] at he
      rw [← he]
      exact ⟨rfl, fun _ _ => rfl⟩
    | cons Pt rest => simp [growLoop] at he
  | succ n ih =>
    intro st work st1 he
    cases work with
    | nil =>
      simp only [growLoop, Except.ok.injEq] at he
      rw [← he]
      exact ⟨rfl, fun _ _ => rfl⟩
    | cons Pt rest =>
      simp only [growLoop] at he
      obtain ⟨h1, h2⟩ := visitPoint_mode_frame img hr PtCur Pt st rest
      obtain ⟨h3, h4⟩ := ih _ _ _ he
      refine ⟨h3.trans h1, ?_⟩
      intro i hi
      rw [h4 i (by rw [h1]; exact hi)]
      exact h2 i hi

theorem finalizeMode_formula (st st1 : SegState) (h : finalizeMode st = .ok st1) :
    st1.label = st.label ∧
    st1.MemberModeCount st.label = st.MemberModeCount st.label + 1 ∧
    st1.Mode (st.label * 3 + 0) =
      st.Mode (st.label * 3 + 0) / ((st.MemberModeCount st.label + 1 : Int) : ℚ) ∧
    st1.Mode (st.label * 3 + 1) =
      st.Mode (st.label * 3 + 1) / ((st.MemberModeCount st.label + 1 : Int) : ℚ) ∧
    st1.Mode (st.label * 3 + 2) =
      st.Mode (st.label * 3 + 2) / ((st.MemberModeCount st.label + 1 : Int) : ℚ) ∧
    ∀ i, i < st.label * 3 → st1.Mode i = st.Mode i := by
  unfold finalizeMode at h
  simp only at h
  split at h
  · simp at h
  · simp only [Except.ok.injEq] at h
    rw [← h]
    refine ⟨rfl, by simp, ?_, ?_, ?_, ?_⟩
    · simp only
      rw [setAt_other _ _ _ _ (by omega), setAt_other _ _ _ _ (by omega), setAt_same]
    · simp only
      rw [setAt_other _ _ _ _ (by omega), setAt_same, setAt_other _ _ _ _ (by omega)]
    · simp only
      rw [setAt_same, setAt_other _ _ _ _ (by omega), setAt_other _ _ _ _ (by omega)]
    · intro i hi
      simp only
      rw [setAt_other _ _ _ _ (by omega), setAt_other _ _ _ _ (by omega),
        setAt_other _ _ _ _ (by omega)]

theorem segmentAt_mode_frame (img : Image) (hr : ℚ) (st : SegState) (c0 : Int × Int)
    (st1 : SegState) (he : segmentAt img hr st c0 = .ok st1) (i : Int)
    (hi : i < (st.label + 1) * 3) : st1.Mode i = st.Mode i := by
  unfold segmentAt at he
  split at he
  · split at he
    · simp at he
    · rename_i st2 hg
      obtain ⟨h1, h2⟩ := growLoop_mode_frame img hr _ _ _ _ _ hg
      have hseedl : (seedState img st c0).label = st.label + 1 := rfl
      obtain ⟨_, _, _, _, _, h3⟩ := finalizeMode_formula st2 st1 he
      rw [h3 i (by rw [h1, hseedl]; exact hi), h2 i (by rw [hseedl]; exact hi)]
      simp only [seedState]
      rw [setAt_other _ _ _ _ (by omega), setAt_other _ _ _ _ (by omega),
        setAt_other _ _ _ _ (by omega)]
  · simp only [Except.ok.injEq] at he
    rw [he]

/-- C15. Mode is the member average.  Finalization divides the three running
sums of the current label by `MemberModeCount[label] + 1` (the growth count
plus one for the seed); a later execution of the scan body leaves the `Mode`
entries of all earlier labels untouched, so each is divided once; and in the
finished labeling pass, for every label `k`, `Mode[k]` equals per colour
component the sum of the working-space colours of all cells carrying label `k`
divided by the number of those cells (which is at least 1). -/
theorem C15_mode_is_member_average (img : Image) (hr : ℚ) :
    (∀ st st1 : SegState, finalizeMode st = .ok st1 →
      st1.Mode (st.label * 3 + 0) =
        st.Mode (st.label * 3 + 0) / ((st.MemberModeCount st.label + 1 : Int) : ℚ) ∧
      st1.Mode (st.label * 3 + 1) =
        st.Mode (st.label * 3 + 1) / ((st.MemberModeCount st.label + 1 : Int) : ℚ) ∧
      st1.Mode (st.label * 3 + 2) =
        st.Mode (st.label * 3 + 2) / ((st.MemberModeCount st.label + 1 : Int) : ℚ)) ∧
    (∀ (st : SegState) (c0 : Int × Int) (st1 : SegState), segmentAt img hr st c0 = .ok st1 →
      ∀ i, i < (st.label + 1) * 3 → st1.Mode i = st.Mode i) ∧
    ∃ st, labelPass img hr = .ok st ∧
      ∀ k, 0 ≤ k → k < st.numSegments →
        1 ≤ memberCount img st.Labels k ∧
        st.Mode (k * 3 + 0) =
          memberSum img st.Labels k Point5D.l / (memberCount img st.Labels k : ℚ) ∧
        st.Mode (k * 3 + 1) =
          memberSum img st.Labels k Point5D.a / (memberCount img st.Labels k : ℚ) ∧
        st.Mode (k * 3 + 2) =
          memberSum img st.Labels k Point5D.b / (memberCount img st.Labels k : ℚ) := by
  refine ⟨?_, segmentAt_mode_frame img hr, ?_⟩
  · intro st st1 h
    obtain ⟨_, _, h1, h2, h3, _⟩ := finalizeMode_formula st st1 h
    exact ⟨h1, h2, h3⟩
  · obtain ⟨st, e, h⟩ := labelPass_spec img hr
    refine ⟨st, e, ?_⟩
    intro k hk0 hk1
    unfold SegState.numSegments at hk1
    exact ⟨h.count_pos k hk0 (by omega), h.mode k hk0 (by omega)⟩

/-! ## The mode stays within the bandwidth of the anchor -/

theorem list_sum_sq_nonneg (l : List ℚ) (p : ℚ) :
    0 ≤ (l.map (fun x => (x - p) * (x - p))).sum := by
  apply List.sum_nonneg
  intro y hy
  rw [List.mem_map] at hy
  obtain ⟨x, _, rfl⟩ := hy
  exact mul_self_nonneg _

theorem list_mean_sq_le (l : List ℚ) (hn : l ≠ []) (p : ℚ) :
    (l.length : ℚ) * ((l.sum / (l.length : ℚ) - p) * (l.sum / (l.length : ℚ) - p)) ≤
      (l.map (fun x => (x - p) * (x - p))).sum := by
  have hlen : (0 : ℚ) < (l.length : ℚ) := by
    have : 0 < l.length := List.length_pos.2 hn
    exact_mod_cast this
  have hm : l.sum = (l.length : ℚ) * (l.sum / (l.length : ℚ)) := by
    field_simp
  have h0 := list_sum_sq_nonneg l (l.sum / (l.length : ℚ))
  rw [list_sum_sq_sub] at h0 ⊢
  set m := l.sum / (l.length : ℚ) with hmdef
  have e1 : 2 * m * l.sum = 2 * m * ((l.length : ℚ) * m) := by rw [← hm]
  have e2 : 2 * p * l.sum = 2 * p * ((l.length : ℚ) * m) := by rw [← hm]
  rw [e1] at h0
  rw [e2]
  nlinarith

theorem ScanInv.mode_near_seed {img : Image} {hr : ℚ} {pre : List (Int × Int)} {st : SegState}
    (h : ScanInv img hr pre st) (hhr : 0 < hr) (w : LabelWrite) (hw : w ∈ st.writes)
    (hsd : w.seed = true) :
    (modePoint st w.val).MSPoint5DColorDistanceSq (labPoint img w.r w.c) < hr * hr := by
  obtain ⟨hbw, hlw, hk0⟩ := h.seed_inBounds w hw
  have hk1 : w.val ≤ st.label := h.basic.write_val_le w hw
  obtain ⟨m0, m1, m2⟩ := h.mode w.val hk0 hk1
  have hpos := h.count_pos w.val hk0 hk1
  set M := (cells img).filter (fun c => decide (st.Labels c.1 c.2 = w.val)) with hM
  have hcount : memberCount img st.Labels w.val = M.length := by
    unfold memberCount
    rw [List.countP_eq_length_filter]
  have hMne : M ≠ [] := by
    intro hnil
    rw [hcount, hnil] at hpos
    simp at hpos
  have hlen : (0 : ℚ) < (M.length : ℚ) := by
    have : 0 < M.length := List.length_pos.2 hMne
    exact_mod_cast this
  have hnear : ∀ c ∈ M,
      (labPoint img c.1 c.2).MSPoint5DColorDistanceSq (labPoint img w.r w.c) < hr * hr := by
    intro c hc
    rw [hM, List.mem_filter] at hc
    have hl : st.Labels c.1 c.2 = w.val := by simpa using hc.2
    rcases h.member_near w hw hsd c.1 c.2 hl with h1 | h1
    · simp only [Prod.mk.injEq] at h1
      rw [h1.1, h1.2, colorDistSq_eq_zero _ _ rfl rfl rfl]
      exact mul_pos hhr hhr
    · unfold nearAnchor sqrtLt at h1
      simp only [decide_eq_true_eq] at h1
      rw [colorDistSq_comm]
      exact h1.2
  have hsumlt := list_sum_lt_of_forall_lt M hMne
    (fun c => (labPoint img c.1 c.2).MSPoint5DColorDistanceSq (labPoint img w.r w.c))
    (hr * hr) hnear
  rw [sum_colorDistSq] at hsumlt
  have hl : (modePoint st w.val).l = (M.map (fun c => (labPoint img c.1 c.2).l)).sum /
      (((M.map (fun c => (labPoint img c.1 c.2).l)).length : Nat) : ℚ) := by
    rw [List.length_map, ← hcount]
    exact m0
  have ha : (modePoint st w.val).a = (M.map (fun c => (labPoint img c.1 c.2).a)).sum /
      (((M.map (fun c => (labPoint img c.1 c.2).a)).length : Nat) : ℚ) := by
    rw [List.length_map, ← hcount]
    exact m1
  have hb : (modePoint st w.val).b = (M.map (fun c => (labPoint img c.1 c.2).b)).sum /
      (((M.map (fun c => (labPoint img c.1 c.2).b)).length : Nat) : ℚ) := by
    rw [List.length_map, ← hcount]
    exact m2
  have q1 := list_mean_sq_le (M.map (fun c => (labPoint img c.1 c.2).l)) (by simpa using hMne)
    (labPoint img w.r w.c).l
  have q2 := list_mean_sq_le (M.map (fun c => (labPoint img c.1 c.2).a)) (by simpa using hMne)
    (labPoint img w.r w.c).a
  have q3 := list_mean_sq_le (M.map (fun c => (labPoint img c.1 c.2).b)) (by simpa using hMne)
    (labPoint img w.r w.c).b
  rw [← hl] at q1
  rw [← ha] at q2
  rw [← hb] at q3
  simp only [List.length_map] at q1 q2 q3
  have htot : (M.length : ℚ) *
      (modePoint st w.val).MSPoint5DColorDistanceSq (labPoint img w.r w.c) <
      (M.length : ℚ) * (hr * hr) := by
    unfold Point5D.MSPoint5DColorDistanceSq
    linarith
  exact lt_of_mul_lt_mul_left htot hlen.le

/-- C18. For `hr > 0` (exact arithmetic): the labeling pass returns, every
allocated label has a seed, and for every segment the finalized mode colour
lies strictly within `hr` of the colour of the segment's seed (its anchor) in
working space. -/
theorem C18_mode_within_bandwidth_of_anchor (img : Image) (hr : ℚ) (hhr : 0 < hr) :
    ∃ st, labelPass img hr = .ok st ∧
      (∀ k, 0 ≤ k → k < st.numSegments → ∃ w ∈ st.writes, w.seed = true ∧ w.val = k) ∧
      ∀ w ∈ st.writes, w.seed = true →
        Real.sqrt (((modePoint st w.val).MSPoint5DColorDistanceSq
          (labPoint img w.r w.c) : ℚ) : ℝ) < (hr : ℝ) := by
  obtain ⟨st, e, h⟩ := labelPass_spec img hr
  refine ⟨st, e, ?_, ?_⟩
  · intro k hk0 hk1
    unfold SegState.numSegments at hk1
    exact h.seed_exists k hk0 (by omega)
  · intro w hw hsd
    rw [← sqrtLt_iff_real _ _ (colorDistSq_nonneg _ _)]
    unfold sqrtLt
    simp only [decide_eq_true_eq]
    exact ⟨hhr, h.mode_near_seed hhr w hw hsd⟩

/-- Witness for C18: the 4x4 two-block image with `hr = 50`. -/
theorem C18_witness :
    (0 : ℚ) < 50 ∧
    ∃ st, labelPass twoBlockImage 50 = .ok st ∧
      (∀ k, 0 ≤ k → k < st.numSegments → ∃ w ∈ st.writes, w.seed = true ∧ w.val = k) ∧
      ∀ w ∈ st.writes, w.seed = true →
        Real.sqrt (((modePoint st w.val).MSPoint5DColorDistanceSq
          (labPoint twoBlockImage w.r w.c) : ℚ) : ℝ) < ((50 : ℚ) : ℝ) :=
  ⟨by norm_num, C18_mode_within_bandwidth_of_anchor twoBlockImage 50 (by norm_num)⟩

/-! ## Grid accesses -/

theorem neighbourStep_of_no_access (img : Image) (hr : ℚ) (PtCur Pt : Point5D)
    (s : SegState × List Point5D) (d : Int × Int) (h : neighbourAccess img Pt d = []) :
    neighbourStep img hr PtCur Pt s d = s := by
  unfold neighbourAccess at h
  unfold neighbourStep
  simp only
  split at h
  · simp at h
  · rename_i hb
    rw [if_neg (fun hc => hb hc.1)]

theorem neighbourStep_changes_accessed (img : Image) (hr : ℚ) (PtCur Pt : Point5D)
    (s : SegState × List Point5D) (d : Int × Int) (r c : Int)
    (h : (neighbourStep img hr PtCur Pt s d).1.Labels r c ≠ s.1.Labels r c) :
    (r, c) ∈ neighbourAccess img Pt d := by
  unfold neighbourStep at h
  simp only at h
  unfold neighbourAccess
  split at h
  · rename_i hcond
    rw [if_pos hcond.1]
    split at h
    · simp only [joinSegment] at h
      by_cases hc : r = truncToInt (Pt.x + (d.1 : ℚ)) ∧ c = truncToInt (Pt.y + (d.2 : ℚ))
      · rw [hc.1, hc.2]
        exact List.mem_singleton_self _
      · rw [setAt2_other _ _ _ _ _ _ hc] at h
        exact absurd rfl h
    · exact absurd rfl h
  · exact absurd rfl h

/-- C17. No out-of-range grid access, for every image and every `hs`, `hr`:
every cell of a filtering window lies in the image; the neighbour body of
region growth accesses `Labels` and the channel planes only at a neighbour
cell that has passed the bounds tests, does nothing when the neighbour lies
outside, and changes `Labels` only at that cell; every assignment recorded in
a finished labeling pass is to a cell of the image; and the label `lbl` read
in the recolouring pass satisfies `0 <= lbl < N`, so that `lbl*3+2` is inside
`Mode`. -/
theorem C17_no_out_of_range_access (img : Image) (hr : ℚ) :
    (∀ (hs : ℚ) (i j : Int) (c : Int × Int), c ∈ window img hs i j →
      0 ≤ c.1 ∧ c.1 < (img.rows : Int) ∧ 0 ≤ c.2 ∧ c.2 < (img.cols : Int)) ∧
    (∀ (Pt : Point5D) (d c : Int × Int), c ∈ neighbourAccess img Pt d →
      0 ≤ c.1 ∧ c.1 < (img.rows : Int) ∧ 0 ≤ c.2 ∧ c.2 < (img.cols : Int)) ∧
    (∀ (PtCur Pt : Point5D) (s : SegState × List Point5D) (d : Int × Int),
      neighbourAccess img Pt d = [] → neighbourStep img hr PtCur Pt s d = s) ∧
    (∀ (PtCur Pt : Point5D) (s : SegState × List Point5D) (d : Int × Int) (r c : Int),
      (neighbourStep img hr PtCur Pt s d).1.Labels r c ≠ s.1.Labels r c →
      (r, c) ∈ neighbourAccess img Pt d) ∧
    ∃ st, labelPass img hr = .ok st ∧
      (∀ w ∈ st.writes,
        0 ≤ w.r ∧ w.r < (img.rows : Int) ∧ 0 ≤ w.c ∧ w.c < (img.cols : Int)) ∧
      (∀ i j, inBounds img i j →
        0 ≤ st.Labels i j ∧ st.Labels i j < st.numSegments ∧
        0 ≤ st.Labels i j * 3 + 0 ∧
        st.Labels i j * 3 + 2 < ((img.rows * img.cols * 3 : Nat) : Int)) := by
  refine ⟨?_, ?_, neighbourStep_of_no_access img hr, neighbourStep_changes_accessed img hr, ?_⟩
  · intro hs i j c hc
    have := window_inBounds img hs i j c hc
    unfold inBounds at this
    omega
  · intro Pt d c hc
    unfold neighbourAccess at hc
    split at hc
    · rename_i hb
      rw [List.mem_singleton] at hc
      rw [hc]
      unfold inBounds at hb
      simp only
      omega
    · simp at hc
  · obtain ⟨st, e, h⟩ := labelPass_spec img hr
    refine ⟨st, e, ?_, ?_⟩
    · intro w hw
      have := (h.seed_inBounds w hw).1
      unfold inBounds at this
      omega
    · intro i j hb
      obtain ⟨h0, h1⟩ := h.label_range i j hb
      have hle := h.numSegments_le
      have hn0 : 0 ≤ st.numSegments := by omega
      refine ⟨h0, h1, by omega, ?_⟩
      push_cast
      have : st.numSegments ≤ ((img.rows * img.cols : Nat) : Int) := by omega
      push_cast at this
      omega

/-! ## The labeling pass with a queue as worklist -/

theorem neighbourStepFifo_cases (img : Image) (hr : ℚ) (PtCur : Point5D) (r0 k0 : Int)
    (s : SegState × List Point5D) (d : Int × Int) :
    (neighbourStepFifo img hr PtCur (labPoint img r0 k0) s d = s ∧
      ¬ (inBounds img (r0 + d.1) (k0 + d.2) ∧ s.1.Labels (r0 + d.1) (k0 + d.2) < 0 ∧
          nearAnchor img hr PtCur (r0 + d.1) (k0 + d.2))) ∨
    (neighbourStepFifo img hr PtCur (labPoint img r0 k0) s d =
        (joinSegment s.1 (r0 + d.1) (k0 + d.2) (labPoint img (r0 + d.1) (k0 + d.2)),
          s.2 ++ [labPoint img (r0 + d.1) (k0 + d.2)]) ∧
      inBounds img (r0 + d.1) (k0 + d.2) ∧ s.1.Labels (r0 + d.1) (k0 + d.2) < 0 ∧
      nearAnchor img hr PtCur (r0 + d.1) (k0 + d.2)) := by
  unfold neighbourStepFifo nearAnchor
  simp only [labPoint_x, labPoint_y, truncToInt_add_intCast]
  by_cases h1 : inBounds img (r0 + d.1) (k0 + d.2) ∧ s.1.Labels (r0 + d.1) (k0 + d.2) < 0
  · by_cases h2 : sqrtLt (PtCur.MSPoint5DColorDistanceSq
        (labPoint img (r0 + d.1) (k0 + d.2))) hr = true
    · right
      rw [if_pos h1, if_pos h2]
      exact ⟨rfl, h1.1, h1.2, h2⟩
    · left
      rw [if_pos h1, if_neg h2]
      exact ⟨rfl, fun h => h2 h.2.2⟩
  · left
    rw [if_neg h1]
    exact ⟨rfl, fun h => h1 ⟨h.1, h.2.1⟩⟩

theorem visitPointFifo_spec {img : Image} {hr : ℚ} {st0 : SegState} {c0 : Int × Int}
    {st : SegState} {Pt : Point5D} {rest : List Point5D} (h0 : BasicInv img st0)
    (hg : GrowInv img hr st0 c0 st (Pt :: rest))
    (hc : ClosedExcept img hr c0 st (Pt :: rest) (fun _ => False)) :
    GrowInv img hr st0 c0 (visitPointFifo img hr (labPoint img c0.1 c0.2) st Pt rest).1
        (visitPointFifo img hr (labPoint img c0.1 c0.2) st Pt rest).2 ∧
      ClosedExcept img hr c0 (visitPointFifo img hr (labPoint img c0.1 c0.2) st Pt rest).1
        (visitPointFifo img hr (labPoint img c0.1 c0.2) st Pt rest).2 (fun _ => False) ∧
      (visitPointFifo img hr (labPoint img c0.1 c0.2) st Pt rest).2.length +
          unlabeledCount img
            (visitPointFifo img hr (labPoint img c0.1 c0.2) st Pt rest).1.Labels =
        rest.length + unlabeledCount img st.Labels := by
  obtain ⟨r0, k0, hb0, hPt, hlab0⟩ := hg.work_ok Pt (List.mem_cons_self _ _)
  subst hPt
  have key := foldl_inv_prefix
    (neighbourStepFifo img hr (labPoint img c0.1 c0.2) (labPoint img r0 k0))
    (fun pre s =>
      GrowInv img hr st0 c0 s.1 s.2 ∧ s.1.Labels r0 k0 = s.1.label ∧
      ClosedExcept img hr c0 s.1 s.2 (fun c => c = (r0, k0)) ∧
      (∀ d ∈ pre, inBounds img (r0 + d.1) (k0 + d.2) → s.1.Labels (r0 + d.1) (k0 + d.2) < 0 →
        ¬ nearAnchor img hr (labPoint img c0.1 c0.2) (r0 + d.1) (k0 + d.2)) ∧
      s.2.length + unlabeledCount img s.1.Labels = rest.length + unlabeledCount img st.Labels)
    dxdy ?step (st, rest) ?init
  case init =>
    refine ⟨hg.of_work (fun P hP => List.mem_cons_of_mem _ hP), hlab0, ?_, ?_, rfl⟩
    · intro r c hrc
      rcases hc r c hrc with h1 | h1 | h1
      · rcases List.mem_cons.mp h1 with h2 | h2
        · right; left
          obtain ⟨e1, e2⟩ := labPoint_inj img h2
          rw [e1, e2]
        · exact Or.inl h2
      · exact absurd h1 id
      · exact Or.inr (Or.inr h1)
    · intro d hd
      simp at hd
  case step =>
    rintro pre d s hd ⟨hgi, hcur, hce, hdone, hmeas⟩
    have hl : 0 ≤ s.1.label := hgi.label_nonneg h0
    rcases neighbourStepFifo_cases img hr (labPoint img c0.1 c0.2) r0 k0 s d with
      ⟨heq, hno⟩ | ⟨heq, hb, hu, hnear⟩
    · rw [heq]
      refine ⟨hgi, hcur, hce, ?_, hmeas⟩
      intro d' hd' hb' hu' hn'
      rcases List.mem_append.mp hd' with h1 | h1
      · exact hdone d' h1 hb' hu' hn'
      · rw [List.mem_singleton] at h1
        subst h1
        exact hno ⟨hb', hu', hn'⟩
    · rw [heq]
      have hne : ¬ (r0 = r0 + d.1 ∧ k0 = k0 + d.2) := by
        rintro ⟨h1, h2⟩
        rw [← h1, ← h2] at hu
        omega
      refine ⟨?_, ?_, ?_, ?_, ?_⟩
      · refine (hgi.grow_join h0 hcur ⟨d, hd, rfl⟩ hb hu hnear).of_work ?_
        intro P hP
        rcases List.mem_append.mp hP with h1 | h1
        · exact List.mem_cons_of_mem _ h1
        · rw [List.mem_singleton] at h1
          rw [h1]
          exact List.mem_cons_self _ _
      · simp only [joinSegment]
        rw [setAt2_other _ _ _ _ _ _ hne]
        exact hcur
      · intro r c hrc
        by_cases hcell : r = r0 + d.1 ∧ c = k0 + d.2
        · left
          rw [hcell.1, hcell.2]
          exact List.mem_append_right _ (List.mem_singleton_self _)
        · simp only [joinSegment] at hrc
          rw [setAt2_other _ _ _ _ _ _ hcell] at hrc
          rcases hce r c hrc with h1 | h1 | h1
          · exact Or.inl (List.mem_append_left _ h1)
          · exact Or.inr (Or.inl h1)
          · exact Or.inr (Or.inr (h1.mono hl))
      · intro d' hd' hb' hu' hn'
        simp only [joinSegment] at hu'
        by_cases hcell : r0 + d'.1 = r0 + d.1 ∧ k0 + d'.2 = k0 + d.2
        · rw [hcell.1, hcell.2, setAt2_same] at hu'
          omega
        · rw [setAt2_other _ _ _ _ _ _ hcell] at hu'
          rcases List.mem_append.mp hd' with h1 | h1
          · exact hdone d' h1 hb' hu' hn'
          · rw [List.mem_singleton] at h1
            subst h1
            exact hcell ⟨rfl, rfl⟩
      · simp only [joinSegment, List.length_append, List.length_singleton]
        have := unlabeledCount_setAt2 img s.1.Labels _ _ s.1.label hb hu hl
        omega
  obtain ⟨k1, _, k3, k4, k5⟩ := key
  refine ⟨k1, ?_, k5⟩
  intro r c hrc
  rcases k3 r c hrc with h1 | h1 | h1
  · exact Or.inl h1
  · right; right
    simp only [Prod.mk.injEq] at h1
    rw [h1.1, h1.2]
    exact k4
  · exact Or.inr (Or.inr h1)

theorem growLoopFifo_spec {img : Image} {hr : ℚ} {st0 : SegState} {c0 : Int × Int}
    (h0 : BasicInv img st0) :
    ∀ (fuel : Nat) (st : SegState) (work : List Point5D),
      GrowInv img hr st0 c0 st work →
      ClosedExcept img hr c0 st work (fun _ => False) →
      work.length + unlabeledCount img st.Labels ≤ fuel →
      ∃ st1, growLoopFifo img hr (labPoint img c0.1 c0.2) fuel st work = .ok st1 ∧
        GrowInv img hr st0 c0 st1 [] ∧ ClosedExcept img hr c0 st1 [] (fun _ => False) := by
  intro fuel
  induction fuel with
  | zero =>
    intro st work hg hc hm
    cases work with
    | nil => exact ⟨st, by simp [growLoopFifo], hg, hc⟩
    | cons Pt rest => simp at hm
  | succ n ih =>
    intro st work hg hc hm
    cases work with
    | nil => exact ⟨st, by simp [growLoopFifo], hg, hc⟩
    | cons Pt rest =>
      obtain ⟨k1, k2, k3⟩ := visitPointFifo_spec h0 hg hc
      simp only [growLoopFifo]
      apply ih _ _ k1 k2
      rw [k3]
      simp only [List.length_cons] at hm
      omega

/-- The queue variant of the scan body at an unlabeled cell meets the same
specification as the source's. -/
theorem segmentAtFifo_spec {img : Image} {hr : ℚ} {st0 : SegState} {c0 : Int × Int}
    (h0 : BasicInv img st0) (hcnt : ∀ k, st0.label < k → st0.MemberModeCount k = 0)
    (hb : inBounds img c0.1 c0.2) (hu : st0.Labels c0.1 c0.2 < 0) :
    ∃ st1, segmentAtFifo img hr st0 c0 = .ok st1 ∧ SegmentSpec img hr st0 c0 st1 := by
  have hseed : GrowInv img hr st0 c0 (seedState img st0 c0) [labPoint img c0.1 c0.2] :=
    GrowInv.grow_seed h0 hcnt hb hu
  have hclosed : ClosedExcept img hr c0 (seedState img st0 c0) [labPoint img c0.1 c0.2]
      (fun _ => False) := by
    intro r c hrc
    left
    have hl := h0.label_ge
    by_cases hc : r = c0.1 ∧ c = c0.2
    · rw [hc.1, hc.2]
      exact List.mem_cons_self _ _
    · simp only [seedState] at hrc
      rw [setAt2_other _ _ _ _ _ _ hc] at hrc
      exact absurd hrc (h0.no_label_above _ (by omega) r c)
  have hfuel : [labPoint img c0.1 c0.2].length + unlabeledCount img (seedState img st0 c0).Labels
      ≤ img.rows * img.cols := by
    have hl := h0.label_ge
    have := @unlabeledCount_lt img (seedState img st0 c0).Labels c0.1 c0.2 hb
      (by simp only [seedState, setAt2_same]; omega)
    simp only [List.length_singleton]
    omega
  obtain ⟨st2, e2, g2, c2⟩ := growLoopFifo_spec h0 (img.rows * img.cols) _ _ hseed hclosed hfuel
  obtain ⟨st3, e3, s3⟩ := finalizeMode_spec h0 hb g2 c2
  refine ⟨st3, ?_, s3⟩
  unfold segmentAtFifo
  rw [if_pos hu, e2]
  exact e3

/-! ## The specification of the scan body determines grid and counts -/

/-- The label grid after the scan body is determined by the grid and the
counter before it. -/
theorem SegmentSpec.labels_eq {img : Image} {hr : ℚ} {st0 : SegState} {c0 : Int × Int}
    {st : SegState} (h : SegmentSpec img hr st0 c0 st) (r c : Int) :
    (Reach img hr (labPoint img c0.1 c0.2) st0.Labels c0 (r, c) →
        st.Labels r c = st0.label + 1) ∧
      (¬ Reach img hr (labPoint img c0.1 c0.2) st0.Labels c0 (r, c) →
        st.Labels r c = st0.Labels r c) := by
  constructor
  · intro hre
    rw [← h.label_eq]
    exact (h.region r c).2 hre
  · intro hre
    rcases h.frame r c with h1 | ⟨_, h1⟩
    · exact h1
    · exact absurd ((h.region r c).1 h1) hre

/-- Two executions of the scan body from states with the same grid, counter
and counts end with the same grid, counter and counts. -/
theorem SegmentSpec.agree {img : Image} {hr : ℚ} {st0 sq0 : SegState} {c0 : Int × Int}
    {st sq : SegState} (hs : SegmentSpec img hr st0 c0 st) (hq : SegmentSpec img hr sq0 c0 sq)
    (hL : st0.Labels = sq0.Labels) (hl : st0.label = sq0.label)
    (hM : st0.MemberModeCount = sq0.MemberModeCount) :
    st.Labels = sq.Labels ∧ st.label = sq.label ∧ st.MemberModeCount = sq.MemberModeCount := by
  have hlab : st.label = sq.label := by rw [hs.label_eq, hq.label_eq, hl]
  have hLab : st.Labels = sq.Labels := by
    funext r c
    by_cases hre : Reach img hr (labPoint img c0.1 c0.2) st0.Labels c0 (r, c)
    · rw [(hs.labels_eq r c).1 hre, (hq.labels_eq r c).1 (hL ▸ hre), hl]
    · rw [(hs.labels_eq r c).2 hre, (hq.labels_eq r c).2 (hL ▸ hre), hL]
  refine ⟨hLab, hlab, ?_⟩
  funext k
  by_cases hk : k = st.label
  · rw [hk, hs.count]
    nth_rewrite 2 [hlab]
    rw [hq.count, hLab, hlab]
  · rw [hs.count_other k hk, hq.count_other k (hlab ▸ hk), hM]

theorem SegmentSpec.count_zero_after {img : Image} {hr : ℚ} {st0 : SegState} {c0 : Int × Int}
    {st : SegState} (hs : SegmentSpec img hr st0 c0 st)
    (hcnt : ∀ k, st0.label < k → st0.MemberModeCount k = 0) :
    ∀ k, st.label < k → st.MemberModeCount k = 0 := by
  intro k hk
  have := hs.label_eq
  rw [hs.count_other k (by omega)]
  exact hcnt k (by omega)

/-- The two scans, started in states with the same grid, counter and counts,
both return, with the same grid, counter and counts. -/
theorem scanCells_agree (img : Image) (hr : ℚ) :
    ∀ (cs : List (Int × Int)) (st sq : SegState),
      (∀ c ∈ cs, inBounds img c.1 c.2) →
      BasicInv img st → BasicInv img sq →
      (∀ k, st.label < k → st.MemberModeCount k = 0) →
      (∀ k, sq.label < k → sq.MemberModeCount k = 0) →
      st.Labels = sq.Labels → st.label = sq.label →
      st.MemberModeCount = sq.MemberModeCount →
      ∃ st1 sq1, scanCells img hr cs st = .ok st1 ∧ scanCellsFifo img hr cs sq = .ok sq1 ∧
        st1.Labels = sq1.Labels ∧ st1.label = sq1.label ∧
        st1.MemberModeCount = sq1.MemberModeCount := by
  intro cs
  induction cs with
  | nil =>
    intro st sq _ _ _ _ _ hL hl hM
    exact ⟨st, sq, rfl, rfl, hL, hl, hM⟩
  | cons c0 cs ih =>
    intro st sq hcs hbs hbq hzs hzq hL hl hM
    have hb : inBounds img c0.1 c0.2 := hcs c0 (List.mem_cons_self _ _)
    have hrest : ∀ c ∈ cs, inBounds img c.1 c.2 := fun c hc => hcs c (List.mem_cons_of_mem _ hc)
    by_cases hu : st.Labels c0.1 c0.2 < 0
    · have huq : sq.Labels c0.1 c0.2 < 0 := hL ▸ hu
      obtain ⟨st1, e1, s1⟩ := @segmentAt_spec img hr st c0 hbs hzs hb hu
      obtain ⟨sq1, f1, q1⟩ := @segmentAtFifo_spec img hr sq c0 hbq hzq hb huq
      obtain ⟨a1, a2, a3⟩ := s1.agree q1 hL hl hM
      obtain ⟨st2, sq2, e2, f2, hfin⟩ :=
        ih st1 sq1 hrest s1.basic q1.basic (s1.count_zero_after hzs) (q1.count_zero_after hzq) a1 a2 a3
      refine ⟨st2, sq2, ?_, ?_, hfin⟩
      · simp only [scanCells, e1]
        exact e2
      · simp only [scanCellsFifo, f1]
        exact f2
    · have huq : ¬ sq.Labels c0.1 c0.2 < 0 := hL ▸ hu
      have e1 : segmentAt img hr st c0 = .ok st := by
        unfold segmentAt; rw [if_neg hu]
      have f1 : segmentAtFifo img hr sq c0 = .ok sq := by
        unfold segmentAtFifo; rw [if_neg huq]
      obtain ⟨st2, sq2, e2, f2, hfin⟩ := ih st sq hrest hbs hbq hzs hzq hL hl hM
      refine ⟨st2, sq2, ?_, ?_, hfin⟩
      · simp only [scanCells, e1]
        exact e2
      · simp only [scanCellsFifo, f1]
        exact f2

/-! ## The two disciplines visit the cells in different orders -/

theorem sixImage_near (r c : Int) : nearAnchor sixImage 1 (labPoint sixImage 0 0) r c := by
  unfold nearAnchor sqrtLt
  have : (labPoint sixImage 0 0).MSPoint5DColorDistanceSq (labPoint sixImage r c) = 0 := by
    simp [Point5D.MSPoint5DColorDistanceSq, labPoint, sixImage, Point5D.PointLab,
      Point5D.MSPOint5DSet]
  rw [this]
  simp

/-- On the 2x3 one-colour image, after the seed `(0, 0)` has been visited the
stack holds `(1,1), (1,0), (0,1)` from back to bottom, the queue
`(0,1), (1,0), (1,1)` from front to back: the next point visited differs. -/
theorem sixImage_visit_orders :
    (visitPoint sixImage 1 (labPoint sixImage 0 0) (seedState sixImage initState (0, 0))
        (labPoint sixImage 0 0) []).2 =
      [labPoint sixImage 1 1, labPoint sixImage 1 0, labPoint sixImage 0 1] ∧
    (visitPointFifo sixImage 1 (labPoint sixImage 0 0) (seedState sixImage initState (0, 0))
        (labPoint sixImage 0 0) []).2 =
      [labPoint sixImage 0 1, labPoint sixImage 1 0, labPoint sixImage 1 1] := by
  have hn : ∀ r c, sqrtLt ((labPoint sixImage 0 0).MSPoint5DColorDistanceSq
      (labPoint sixImage r c)) 1 = true := sixImage_near
  constructor
  · simp only [visitPoint, dxdy, List.foldl, neighbourStep, labPoint_x, labPoint_y,
      truncToInt_add_intCast, hn, if_true]
    simp [inBounds, sixImage, seedState, initState, joinSegment, setAt2]
  · simp only [visitPointFifo, dxdy, List.foldl, neighbourStepFifo, labPoint_x, labPoint_y,
      truncToInt_add_intCast, hn, if_true]
    simp [inBounds, sixImage, seedState, initState, joinSegment, setAt2]

/-- C16, worklist order independence: for every image and every `hr`, the
labeling pass with the source's stack worklist (`labelPass`) and the labeling
pass with a first-in first-out queue (`labelPassFifo`) both return, and they
return the same label grid, the same number of segments and the same member
count for every segment. -/
theorem C16_worklist_order_independent (img : Image) (hr : ℚ) :
    ∃ st sq, labelPass img hr = .ok st ∧ labelPassFifo img hr = .ok sq ∧
      st.Labels = sq.Labels ∧ st.label = sq.label ∧
      st.MemberModeCount = sq.MemberModeCount :=
  scanCells_agree img hr (cells img) initState initState
    (fun c hc => (mem_cells img c).1 hc) (BasicInv.basic_init img) (BasicInv.basic_init img)
    (fun _ _ => rfl) (fun _ _ => rfl) rfl rfl rfl

/-- C1. Colour-space round trip: `PointRGB` after `PointLab` returns every
point unchanged (all five fields, so the raw triple is reproduced and `x`, `y`
are untouched) in exact rational arithmetic; for `L = 50` the forward value is
`1000/51 = 19.607...` and the backward value is `50`. -/
theorem C1_roundtrip :
    (∀ p : Point5D, p.PointLab.PointRGB = p) ∧
    (∀ p : Point5D, p.PointLab.x = p.x ∧ p.PointLab.y = p.y) ∧
    (∀ x y A B : ℚ, (Point5D.mk x y 50 A B).PointLab.l = 1000 / 51 ∧
      (19607 : ℚ) / 1000 < 1000 / 51 ∧ (1000 : ℚ) / 51 < 19608 / 1000 ∧
      (Point5D.mk x y 50 A B).PointLab.PointRGB.l = 50) := by
  refine ⟨?_, ?_, ?_⟩
  · intro p
    cases p
    simp only [Point5D.PointLab, Point5D.PointRGB, Point5D.mk.injEq, true_and]
    refine ⟨by ring, by ring, by ring⟩
  · intro p
    exact ⟨rfl, rfl⟩
  · intro x y A B
    simp only [Point5D.PointLab, Point5D.PointRGB]
    norm_num

end MeanShift
